import Mathlib

/-!
# Verification of the CoIoTeSolver heuristic core

A shallow embedding, in Lean 4, of the solver's core data structures and
algorithms (`coiote_solver_logic.cpp`, `coiote_solver.h`, `activities_slots.h`,
`cells_order.h`, `timer.h`, `coiote_solver_io.cpp`), together with theorems
settling the stated properties of the natural-language specification.

Conventions of the embedding:
* machine integers become `Int` (all the quantities involved stay far from
  the 32/64-bit boundaries, and no arithmetic in the modelled code overflows
  on its intended inputs);
* `double` cost values become `ℚ` (the costs are integers read from the
  instance file; the only floating operations performed on them are divisions
  by small integers and comparisons, modelled exactly by rationals);
* the multi-dimensional arrays (`multi_array`) become total functions from
  index tuples; all accesses performed by the modelled code are at in-range
  indices, and every theorem quantifies over in-range indices only;
* `while` loops whose termination is not structural take an explicit fuel
  argument; running out of fuel is mapped to the same result as the code's
  "no solution" sentinel (`+∞`, modelled by `none`), so every theorem of the
  form "a finite result satisfies P" is sound for arbitrary fuel.
-/

set_option maxRecDepth 4000

namespace CoIoTe

attribute [local semireducible] Rat.mul Rat.inv

/-- A 3-dimensional index (source cell i, user type m, time period t),
mirroring `three_index_type`. -/
abbrev Idx3 := Nat × Nat × Nat

/-- A 4-dimensional index (source i, destination j, type m, time t),
mirroring `four_index_type`. -/
abbrev Idx4 := Nat × Nat × Nat × Nat

/-- Source cell of a 4-index (`four_index::i`). -/
def iOf (e : Idx4) : Nat := e.1

/-- Destination cell of a 4-index (`four_index::j`). -/
def jOf (e : Idx4) : Nat := e.2.1

/-- User type of a 4-index (`four_index::m`). -/
def mOf (e : Idx4) : Nat := e.2.2.1

/-- Time period of a 4-index (`four_index::t`). -/
def tOf (e : Idx4) : Nat := e.2.2.2

/-- The (i, m, t) bucket of a 4-index, mirroring `cells_order::convert_index`. -/
def bkt (e : Idx4) : Idx3 := (e.1, e.2.2.1, e.2.2.2)

/-- The immutable problem instance (`coiote_solver::input_problem` together
with the three dimensions of the instance). -/
structure Prob where
  C : Nat
  M : Nat
  T : Nat
  act : Nat → Int
  activities : Nat → Int
  avail : Idx3 → Int
  costs : Idx4 → ℚ

/-- The finite set of in-range buckets (i, m, t). -/
def buckets (p : Prob) : Finset Idx3 :=
  Finset.range p.C ×ˢ Finset.range p.M ×ˢ Finset.range p.T

/-- A 4-index is in range and off-diagonal: exactly the indices the solver
ever touches in a solution (users cannot serve their own source cell). -/
def EntryWF (p : Prob) (e : Idx4) : Prop :=
  iOf e < p.C ∧ jOf e < p.C ∧ mOf e < p.M ∧ tOf e < p.T ∧ iOf e ≠ jOf e

instance (p : Prob) (e : Idx4) : Decidable (EntryWF p e) := by
  unfold EntryWF; infer_instance

/-- Number of activities done in destination cell j by a solution:
`Σ_{i,m,t} act_per_user[m] · solution[i,j,m,t]` (the verifier's sum in
`coiote_solver::is_feasible`, and the quantity `done_in_j` accounts for). -/
def doneJ (p : Prob) (j : Nat) (sol : Idx4 → Int) : Int :=
  ∑ b ∈ buckets p, p.act b.2.1 * sol (b.1, j, b.2.1, b.2.2)

/-- Number of users of bucket (i,m,t) moved anywhere by a solution:
`Σ_j solution[i,j,m,t]`. -/
def sumSolJ (p : Prob) (b : Idx3) (sol : Idx4 → Int) : Int :=
  ∑ j ∈ Finset.range p.C, sol (b.1, j, b.2.1, b.2.2)

/-- Additive pointwise update of a 4-indexed array (`array[x] += d`). -/
def bump4 (f : Idx4 → Int) (x : Idx4) (d : Int) : Idx4 → Int :=
  fun y => f y + (if y = x then d else 0)

/-- Additive pointwise update of a 3-indexed array (`array[x] += d`). -/
def bump3 (f : Idx3 → Int) (x : Idx3) (d : Int) : Idx3 → Int :=
  fun y => f y + (if y = x then d else 0)

/-- Additive pointwise update of a 1-indexed array (`array[x] += d`). -/
def bump1 (f : Nat → Int) (x : Nat) (d : Int) : Nat → Int :=
  fun y => f y + (if y = x then d else 0)

theorem bump4_at (f : Idx4 → Int) (x : Idx4) (d : Int) : bump4 f x d x = f x + d := by
  simp [bump4]

theorem bump4_ne (f : Idx4 → Int) (x y : Idx4) (d : Int) (h : y ≠ x) :
    bump4 f x d y = f y := by
  simp [bump4, h]

theorem doneJ_bump4 (p : Prob) (j : Nat) (sol : Idx4 → Int) (x : Idx4) (d : Int)
    (hwf : iOf x < p.C ∧ mOf x < p.M ∧ tOf x < p.T) :
    doneJ p j (bump4 sol x d) =
      doneJ p j sol + (if jOf x = j then p.act (mOf x) * d else 0) := by
  obtain ⟨i, j', m, t⟩ := x
  simp only [iOf, jOf, mOf, tOf] at hwf ⊢
  unfold doneJ bump4
  rcases hwf with ⟨hi, hm, ht⟩
  by_cases hj : j' = j
  · subst hj
    simp only [if_pos rfl, mul_add, Finset.sum_add_distrib]
    congr 1
    rw [Finset.sum_eq_single (i, m, t)]
    · simp
    · intro b _ hb
      have : ¬((b.1, j', b.2.1, b.2.2) = (i, j', m, t)) := by
        intro hc
        apply hb
        obtain ⟨b1, b2, b3⟩ := b
        simp_all
      simp [this]
    · intro hmem
      exfalso
      apply hmem
      simp [buckets, Finset.mem_product, hi, hm, ht]
  · simp only [if_neg hj]
    rw [add_zero]
    apply Finset.sum_congr rfl
    intro b _
    have : ¬(((b.1, j, b.2.1, b.2.2) : Idx4) = (i, j', m, t)) := by
      intro hc
      have hc2 : j = j' := by simpa using congrArg (fun q : Idx4 => q.2.1) hc
      exact hj hc2.symm
    simp [this]

theorem sumSolJ_bump4 (p : Prob) (b : Idx3) (sol : Idx4 → Int) (x : Idx4) (d : Int)
    (hj : jOf x < p.C) :
    sumSolJ p b (bump4 sol x d) =
      sumSolJ p b sol + (if (iOf x, mOf x, tOf x) = b then d else 0) := by
  obtain ⟨i, j', m, t⟩ := x
  obtain ⟨bi, bm, bt⟩ := b
  simp only [iOf, jOf, mOf, tOf] at hj ⊢
  unfold sumSolJ bump4
  by_cases hb : (i, m, t) = ((bi, bm, bt) : Idx3)
  · obtain ⟨h1, h2, h3⟩ : i = bi ∧ m = bm ∧ t = bt := by simpa [Prod.ext_iff] using hb
    subst h1; subst h2; subst h3
    simp only [if_pos rfl, Finset.sum_add_distrib]
    congr 1
    rw [Finset.sum_eq_single j']
    · simp
    · intro c _ hc
      simp [Prod.ext_iff, hc]
    · intro hmem
      exact absurd (Finset.mem_range.mpr hj) hmem
  · simp only [if_neg hb]
    rw [add_zero]
    apply Finset.sum_congr rfl
    intro c _
    have : ¬(((bi, c, bm, bt) : Idx4) = (i, j', m, t)) := by
      intro hc
      apply hb
      simp only [Prod.ext_iff] at hc ⊢
      exact ⟨hc.1.symm, hc.2.2.1.symm, hc.2.2.2.symm⟩
    simp [this]

theorem doneJ_zero (p : Prob) (j : Nat) : doneJ p j (fun _ => 0) = 0 := by
  simp [doneJ]

theorem sumSolJ_zero (p : Prob) (b : Idx3) : sumSolJ p b (fun _ => 0) = 0 := by
  simp [sumSolJ]

/-! ## The activity-slot table (`activities_slots.h`)

The constructor builds a `(max_activities+1) × (n_cust_types+1)` boolean
table `data`.  Row 0 is pre-filled with `true`; every other entry starts as
`false`.  Then, for `a = 0..max_activities` and `m = 0..M-1` in order, if
`idx = a - act_per_user[m] ≥ 0` the constructor sets
`data[a][m] = data[idx][gen]` and `data[a][gen] ||= data[a][m]`, where `gen`
is the sentinel column `M`.  A row only reads the sentinel of earlier rows
(when every `act_per_user[m] ≥ 1`), so we build the table row by row; each
row is represented as its list of `M` cells paired with its sentinel value. -/

/-- One `m`-step of the constructor's inner loop on row `a`.  `prevGen r`
is the sentinel value of completed row `r` (`false` for rows that do not
exist yet, which the source never reads when `act_per_user` is positive).
The state is (cells built so far, running sentinel value). -/
def slotsRowStep (act : Nat → Int) (prevGen : Nat → Bool) (a : Nat)
    (st : List Bool × Bool) (m : Nat) : List Bool × Bool :=
  let idx : Int := (a : Int) - act m
  if 0 ≤ idx then
    let v := if idx.toNat = a then st.2 else prevGen idx.toNat
    (st.1 ++ [v], st.2 || v)
  else
    (st.1 ++ [decide (a = 0)], st.2)

/-- Row `a` of the table, given the list of completed rows `prev`. -/
def slotsRow (act : Nat → Int) (M : Nat) (prev : List (List Bool × Bool))
    (a : Nat) : List Bool × Bool :=
  (List.range M).foldl
    (slotsRowStep act (fun r => (prev.getD r ([], false)).2) a)
    ([], decide (a = 0))

/-- Rows `0..a` of the table, built in order as by the constructor. -/
def slotsRows (act : Nat → Int) (M : Nat) : Nat → List (List Bool × Bool)
  | 0 => [slotsRow act M [] 0]
  | a + 1 =>
    let prev := slotsRows act M a
    prev ++ [slotsRow act M prev (a + 1)]

/-- `data[a][m]` of the table built by `activities_slots(max_activities,
n_cust_types, act_per_user)`, for `m < n_cust_types`. -/
def slotsCell (act : Nat → Int) (M maxAct a m : Nat) : Bool :=
  ((slotsRows act M maxAct).getD a ([], false)).1.getD m false

/-- `data[a][gen_idx]` (the sentinel column) of the same table. -/
def slotsGen (act : Nat → Int) (M maxAct a : Nat) : Bool :=
  ((slotsRows act M maxAct).getD a ([], false)).2

/-- `activities_slots::should_skip`: true iff the demand cannot be satisfied
without wasting activities by any user type. -/
def should_skip (act : Nat → Int) (M maxAct : Nat) (demand : Int) : Bool :=
  !slotsGen act M maxAct demand.toNat

/-- `activities_slots::can_be_selected`: the demand is non-negative and a
user of type m can be slotted in without eventually wasting activities. -/
def can_be_selected (act : Nat → Int) (M maxAct : Nat) (demand : Int) (m : Nat) : Bool :=
  decide (0 ≤ demand) && slotsCell act M maxAct demand.toNat m

theorem length_slotsRows (act : Nat → Int) (M : Nat) :
    ∀ a, (slotsRows act M a).length = a + 1 := by
  intro a
  induction a with
  | zero => rfl
  | succ n ih => simp [slotsRows, ih]

/-- The canonical value of row `a`, independently of how far the table was
extended afterwards. -/
def slotsRowAt (act : Nat → Int) (M : Nat) : Nat → List Bool × Bool
  | 0 => slotsRow act M [] 0
  | r + 1 => slotsRow act M (slotsRows act M r) (r + 1)

theorem slotsRows_getD (act : Nat → Int) (M : Nat) :
    ∀ a r, r ≤ a →
      (slotsRows act M a).getD r ([], false) = slotsRowAt act M r := by
  intro a
  induction a with
  | zero =>
    intro r hr
    interval_cases r
    rfl
  | succ n ih =>
    intro r hr
    show (slotsRows act M n ++ [slotsRow act M (slotsRows act M n) (n + 1)]).getD r _ =
      slotsRowAt act M r
    rcases Nat.lt_or_ge r (n + 1) with h | h
    · rw [List.getD_append _ _ _ _ (by rw [length_slotsRows]; exact h)]
      exact ih r (Nat.lt_succ_iff.mp h)
    · have hreq : r = n + 1 := le_antisymm hr h
      subst hreq
      rw [List.getD_append_right _ _ _ _ (by rw [length_slotsRows])]
      simp [length_slotsRows, slotsRowAt]

/-- The cell value written by the inner loop at step `m` of row `a`, when
every involved `act_per_user` is positive (so that the `idx = a` self-read
never happens): `data[idx][gen]` of the earlier row `idx = a - act[m]` when
that is non-negative, else the initial fill (true exactly on row 0). -/
def slotsCellVal (act : Nat → Int) (prevGen : Nat → Bool) (a m : Nat) : Bool :=
  if 0 ≤ (a : Int) - act m then prevGen ((a : Int) - act m).toNat else decide (a = 0)

/-- The sentinel contribution of step `m` of row `a`: the cell value, but
only when the guard `idx ≥ 0` fired (otherwise the sentinel is untouched). -/
def slotsGenVal (act : Nat → Int) (prevGen : Nat → Bool) (a m : Nat) : Bool :=
  decide (0 ≤ (a : Int) - act m) && slotsCellVal act prevGen a m

theorem slotsRowStep_char (act : Nat → Int) (prevGen : Nat → Bool) (a m : Nat)
    (hm : 1 ≤ act m) (st : List Bool × Bool) :
    slotsRowStep act prevGen a st m =
      (st.1 ++ [slotsCellVal act prevGen a m], st.2 || slotsGenVal act prevGen a m) := by
  by_cases h : (0 : Int) ≤ (a : Int) - act m
  · have hne : ((a : Int) - act m).toNat ≠ a := by
      intro hc
      have h2 := Int.toNat_of_nonneg h
      rw [hc] at h2
      omega
    simp [slotsRowStep, slotsCellVal, slotsGenVal, h, hne]
  · simp [slotsRowStep, slotsCellVal, slotsGenVal, h]

theorem slotsRow_foldl_char (act : Nat → Int) (prevGen : Nat → Bool) (a : Nat)
    (L : List Nat) (hL : ∀ m ∈ L, 1 ≤ act m) (st : List Bool × Bool) :
    L.foldl (slotsRowStep act prevGen a) st =
      (st.1 ++ L.map (slotsCellVal act prevGen a),
        st.2 || L.any (slotsGenVal act prevGen a)) := by
  induction L generalizing st with
  | nil => simp
  | cons x xs ih =>
    rw [List.foldl_cons, slotsRowStep_char act prevGen a x (hL x (List.mem_cons_self x xs)) st,
      ih (fun m hm => hL m (List.mem_cons_of_mem x hm))]
    simp [Bool.or_assoc]

theorem getD_range_map {β : Type} (M m : Nat) (hm : m < M) (f : Nat → β) (d : β) :
    ((List.range M).map f).getD m d = f m := by
  rw [List.getD_eq_getElem _ _ (by simpa using hm)]
  simp

theorem slotsRow_char (act : Nat → Int) (M : Nat) (prev : List (List Bool × Bool))
    (a : Nat) (hact : ∀ m < M, 1 ≤ act m) :
    slotsRow act M prev a =
      ((List.range M).map (slotsCellVal act (fun r => (prev.getD r ([], false)).2) a),
        decide (a = 0) ||
          (List.range M).any (slotsGenVal act (fun r => (prev.getD r ([], false)).2) a)) := by
  unfold slotsRow
  rw [slotsRow_foldl_char]
  · simp
  · intro m hm
    exact hact m (List.mem_range.mp hm)

theorem slotsCell_eq_val (act : Nat → Int) (M maxAct a m : Nat)
    (hact : ∀ m' < M, 1 ≤ act m') (ha : a ≤ maxAct) (hm : m < M) :
    slotsCell act M maxAct a m =
      slotsCellVal act (fun r => slotsGen act M maxAct r) a m := by
  unfold slotsCell
  rw [slotsRows_getD act M maxAct a ha]
  cases a with
  | zero =>
    rw [show slotsRowAt act M 0 = slotsRow act M [] 0 from rfl,
      slotsRow_char act M [] 0 hact]
    show ((List.range M).map _).getD m false = _
    rw [getD_range_map M m hm]
    unfold slotsCellVal
    by_cases h : (0 : Int) ≤ (((0 : Nat)) : Int) - act m
    · have := hact m hm
      simp only [Nat.cast_zero] at h
      omega
    · rw [if_neg h, if_neg h]
  | succ n =>
    rw [show slotsRowAt act M (n + 1) = slotsRow act M (slotsRows act M n) (n + 1) from rfl,
      slotsRow_char act M (slotsRows act M n) (n + 1) hact]
    show ((List.range M).map _).getD m false = _
    rw [getD_range_map M m hm]
    unfold slotsCellVal
    by_cases h : (0 : Int) ≤ (((n + 1 : Nat)) : Int) - act m
    · have hb : ((((n + 1 : Nat)) : Int) - act m).toNat ≤ n := by
        have := hact m hm
        omega
      rw [if_pos h, if_pos h]
      unfold slotsGen
      beta_reduce
      rw [slotsRows_getD act M n _ hb,
        slotsRows_getD act M maxAct _ (le_trans hb (le_trans (Nat.le_succ n) ha))]
    · rw [if_neg h, if_neg h]

theorem slotsCell_out_of_range (act : Nat → Int) (M maxAct a m : Nat)
    (ha : maxAct < a) : slotsCell act M maxAct a m = false := by
  have h1 : (slotsRows act M maxAct).getD a ([], false) = ([], false) :=
    List.getD_eq_default _ _ (by rw [length_slotsRows]; exact ha)
  unfold slotsCell
  rw [h1]
  simp

theorem list_any_congr {α : Type} (l : List α) (f g : α → Bool)
    (h : ∀ x ∈ l, f x = g x) : l.any f = l.any g := by
  induction l with
  | nil => rfl
  | cons x xs ih =>
    simp only [List.any_cons]
    rw [h x (List.mem_cons_self x xs), ih (fun y hy => h y (List.mem_cons_of_mem x hy))]

theorem slotsGen_eq_any (act : Nat → Int) (M maxAct a : Nat)
    (hact : ∀ m' < M, 1 ≤ act m') (hM : 1 ≤ M) (ha : a ≤ maxAct) :
    slotsGen act M maxAct a = (List.range M).any (slotsCell act M maxAct a) := by
  have hcell : ∀ m < M, slotsCell act M maxAct a m =
      slotsCellVal act (fun r => slotsGen act M maxAct r) a m :=
    fun m hm => slotsCell_eq_val act M maxAct a m hact ha hm
  cases a with
  | zero =>
    have h0 : slotsCell act M maxAct 0 0 = true := by
      rw [hcell 0 hM]
      unfold slotsCellVal
      have := hact 0 hM
      have hneg : ¬((0 : Int) ≤ (((0 : Nat)) : Int) - act 0) := by
        simp only [Nat.cast_zero]
        omega
      rw [if_neg hneg]
      simp
    have hany : (List.range M).any (slotsCell act M maxAct 0) = true :=
      List.any_eq_true.mpr ⟨0, List.mem_range.mpr hM, h0⟩
    rw [hany]
    unfold slotsGen
    rw [slotsRows_getD act M maxAct 0 ha,
      show slotsRowAt act M 0 = slotsRow act M [] 0 from rfl,
      slotsRow_char act M [] 0 hact]
    simp
  | succ n =>
    unfold slotsGen
    rw [slotsRows_getD act M maxAct (n + 1) ha,
      show slotsRowAt act M (n + 1) = slotsRow act M (slotsRows act M n) (n + 1) from rfl,
      slotsRow_char act M (slotsRows act M n) (n + 1) hact]
    have hpg : ∀ r ≤ n, ((slotsRows act M n).getD r ([], false)).2 =
        slotsGen act M maxAct r := by
      intro r hr
      unfold slotsGen
      rw [slotsRows_getD act M n r hr,
        slotsRows_getD act M maxAct r (le_trans hr (le_trans (Nat.le_succ n) ha))]
    have hval : ∀ m ∈ List.range M,
        slotsGenVal act (fun r => ((slotsRows act M n).getD r ([], false)).2) (n + 1) m =
          slotsCell act M maxAct (n + 1) m := by
      intro m hm
      have hmM := List.mem_range.mp hm
      rw [hcell m hmM]
      unfold slotsGenVal slotsCellVal
      by_cases h : (0 : Int) ≤ (((n + 1 : Nat)) : Int) - act m
      · have hb : ((((n + 1 : Nat)) : Int) - act m).toNat ≤ n := by
          have := hact m hmM
          omega
        rw [decide_eq_true h, Bool.true_and, if_pos h, if_pos h]
        beta_reduce
        rw [hpg _ hb]
      · rw [decide_eq_false h, Bool.false_and, if_neg h]
        simp
    have hno : ((n + 1 : Nat) = 0) = False := by simp
    show (decide ((n + 1 : Nat) = 0) || (List.range M).any _) = _
    rw [decide_eq_false (by simp), Bool.false_or]
    exact list_any_congr _ _ _ hval

theorem slotsCell_row0_true (act : Nat → Int) (M maxAct m : Nat)
    (hact : ∀ m' < M, 1 ≤ act m') (hm : m < M) :
    slotsCell act M maxAct 0 m = true := by
  rw [slotsCell_eq_val act M maxAct 0 m hact (Nat.zero_le maxAct) hm]
  unfold slotsCellVal
  have := hact m hm
  have hneg : ¬((0 : Int) ≤ (((0 : Nat)) : Int) - act m) := by
    simp only [Nat.cast_zero]
    omega
  rw [if_neg hneg]
  simp

theorem slotsCell_imp_le (act : Nat → Int) (M maxAct a m : Nat)
    (hact : ∀ m' < M, 1 ≤ act m') (ha1 : 1 ≤ a) (hm : m < M)
    (h : slotsCell act M maxAct a m = true) : act m ≤ (a : Int) := by
  rcases le_or_lt a maxAct with ha | ha
  · rw [slotsCell_eq_val act M maxAct a m hact ha hm] at h
    unfold slotsCellVal at h
    by_cases hc : (0 : Int) ≤ (a : Int) - act m
    · omega
    · rw [if_neg hc] at h
      simp only [decide_eq_true_eq] at h
      omega
  · rw [slotsCell_out_of_range act M maxAct a m ha] at h
    exact absurd h (by simp)

theorem can_be_selected_imp_le (act : Nat → Int) (M maxAct : Nat) (d : Int) (m : Nat)
    (hact : ∀ m' < M, 1 ≤ act m') (hd : 1 ≤ d) (hm : m < M)
    (h : can_be_selected act M maxAct d m = true) : act m ≤ d := by
  unfold can_be_selected at h
  rw [Bool.and_eq_true] at h
  have h2 := slotsCell_imp_le act M maxAct d.toNat m hact (by omega) hm h.2
  omega

/-! ## The stoppable timer (`timer.h`)

`timer::timer_function` (lines 59-64) runs in its own thread:
it waits on the condition variable until either the duration elapses or
`stop()` has set `end`; then it sets `end` and calls the callback
*unconditionally*.  `timer::stop` (lines 91-101) sets `end`, wakes the
waiting thread and joins it.  The model below records how many times the
callback has been executed; the wall-clock wait itself only determines
*when* the post-wait code runs, never *whether* it runs, so it is modelled
by the boolean "the duration expired before any stop". -/

/-- Timer state: the `end` flag, the `stopped` flag, and the number of times
the callback has been executed. -/
structure TimerState where
  tEnd : Bool
  tStopped : Bool
  callbackRuns : Nat
deriving DecidableEq

/-- The initial state set up by the timer constructor (`end = false`,
`stopped = false`, callback not yet executed). -/
def timer_init : TimerState := ⟨false, false, 0⟩

/-- The return condition of `cv.wait_for`: it wakes up when the duration
expired or the predicate `end` holds. -/
def timer_wait_returns (s : TimerState) (expired : Bool) : Bool :=
  s.tEnd || expired

/-- The code `timer_function` runs after the wait returns (`timer.h` lines
62-63): set `end = true` and execute the callback — with no test of why the
wait returned. -/
def timer_function_finish (s : TimerState) : TimerState :=
  { s with tEnd := true, callbackRuns := s.callbackRuns + 1 }

/-- `timer::stop`: if not already stopped, set `end` (under the lock),
notify the waiting thread, and join it; the join means `timer_function`
runs `timer_function_finish` to completion before `stop` returns. -/
def timer_stop (s : TimerState) : TimerState :=
  if s.tStopped then s
  else timer_function_finish { s with tEnd := true, tStopped := true }

/-- The run in which `stop()` is invoked strictly before the duration
elapses: the wait returns because `end` was set, and `timer_function`
finishes (executing the callback) before the join completes. -/
def timer_run_stopped_early : TimerState := timer_stop timer_init

/-- The run in which the duration elapses with no stop: the wait times out
and `timer_function` finishes. -/
def timer_run_expired : TimerState := timer_function_finish timer_init

/-! ## The writers (`coiote_solver_io.cpp`)

`write_kpi` and `write_solution` both `return` immediately when
`has_solution` is false, emitting nothing on their streams; otherwise they
emit the KPI line, respectively the solution header plus one line per
positive solution entry.  The model renders the emitted bytes as a
`String`. -/

/-- One line of the solution file: `i;j;m;t;value` followed by a newline. -/
def solutionLine (i j m t : Nat) (v : Int) : String :=
  toString i ++ ";" ++ toString j ++ ";" ++ toString m ++ ";" ++ toString t ++
    ";" ++ toString v ++ "\n"

/-- `coiote_solver::write_kpi`: nothing if no solution has been found,
otherwise the instance name followed by every KPI, separated by `;`. -/
def write_kpi (has_solution : Bool) (instance_name : String) (kpi : List ℚ) : String :=
  if !has_solution then ""
  else
    instance_name ++ ";" ++ toString (kpi.getD 0 0) ++ ";" ++ toString (kpi.getD 1 0) ++
      String.join ((kpi.drop 2).map (fun q => ";" ++ toString q)) ++ "\n"

/-- `coiote_solver::write_solution`: nothing if no solution has been found,
otherwise the `C;T;M` header followed by one line per strictly positive
solution entry, iterated in the nesting order m, t, i, j. -/
def write_solution (has_solution : Bool) (C T M : Nat) (sol : Idx4 → Int) : String :=
  if !has_solution then ""
  else
    toString C ++ ";" ++ toString T ++ ";" ++ toString M ++ "\n" ++
      String.join ((List.range M).flatMap fun m =>
        (List.range T).flatMap fun t =>
          (List.range C).flatMap fun i =>
            (List.range C).filterMap fun j =>
              if 0 < sol (i, j, m, t) then some (solutionLine i j m t (sol (i, j, m, t)))
              else none)

/-! ## Ordered candidate lists (`cells_order.h`, `fill_cells_order`,
`cmp_costs_asc`, `get_costs_idx`)

`fill_cells_order(k)` collects, for each destination j with positive demand,
the tuples (i,j,m,t) with `i ≠ j` and `users_available[i,m,t] > 0` (loops in
the order i, m, t), then sorts them with `cmp_costs_asc`, whose key is
`costs[e] / min(act_per_user[m], act_per_user_sorted[k])`.  `std::sort`
produces *some* list sorted under the strict weak order; ties are resolved
in an unspecified way, which we model with insertion sort — every theorem
below depends only on sortedness and content, never on tie order. -/

/-- The reduced cost used by `cmp_costs_asc` with cap `max_done`. -/
def redCost (p : Prob) (cap : Int) (e : Idx4) : ℚ :=
  p.costs e / ((min (p.act (mOf e)) cap : Int) : ℚ)

/-- Non-strict comparison under the `cmp_costs_asc` key: the postcondition
of `std::sort` is that consecutive elements are related by it. -/
def redCostLE (p : Prob) (cap : Int) : Idx4 → Idx4 → Prop :=
  fun x y => redCost p cap x ≤ redCost p cap y

instance (p : Prob) (cap : Int) : DecidableRel (redCostLE p cap) :=
  fun x y => inferInstanceAs (Decidable (redCost p cap x ≤ redCost p cap y))

instance (p : Prob) (cap : Int) : IsTotal Idx4 (redCostLE p cap) :=
  ⟨fun x y => le_total (redCost p cap x) (redCost p cap y)⟩

instance (p : Prob) (cap : Int) : IsTrans Idx4 (redCostLE p cap) :=
  ⟨fun _ _ _ => le_trans⟩

/-- The tuples collected by `fill_cells_order` for destination j, in the
source's loop order: all (i,j,m,t) with i ≠ j and at least one user
available in bucket (i,m,t). -/
def cellCandidates (p : Prob) (j : Nat) : List Idx4 :=
  (List.range p.C).flatMap fun i =>
    if i = j then []
    else
      (List.range p.M).flatMap fun m =>
        (List.range p.T).filterMap fun t =>
          if 0 < p.avail (i, m, t) then some (i, j, m, t) else none

/-- `statistics.costs_order[k][j]` for the cap value
`act_per_user_sorted[k]`: the candidate tuples sorted by non-decreasing
reduced cost. -/
def costs_order (p : Prob) (cap : Int) (j : Nat) : List Idx4 :=
  (cellCandidates p j).insertionSort (redCostLE p cap)

/-- `statistics.act_per_user_sorted`: the `act_per_user` values sorted in
non-increasing order. -/
def act_per_user_sorted (p : Prob) : List Int :=
  ((List.range p.M).map p.act).insertionSort (· ≥ ·)

/-- `global_statistics::get_costs_idx`: scan the non-increasing cap list
from the top, stopping at the first cap not exceeding the demand or at the
last position (`while(act_per_user_sorted[m] > demand && m < n_cust_types-1)
++m`). -/
def get_costs_idx_aux (demand : Int) : List Int → Nat → Nat
  | [], k => k
  | [_], k => k
  | c :: c' :: rest, k =>
    if demand < c then get_costs_idx_aux demand (c' :: rest) (k + 1) else k

/-- The index into `costs_order` selected for the given remaining demand. -/
def get_costs_idx (p : Prob) (demand : Int) : Nat :=
  get_costs_idx_aux demand (act_per_user_sorted p) 0

/-- The cap value `act_per_user_sorted[get_costs_idx(demand)]`. -/
def capFor (p : Prob) (demand : Int) : Int :=
  (act_per_user_sorted p).getD (get_costs_idx p demand) 1

theorem mem_cellCandidates (p : Prob) (j : Nat) (e : Idx4) :
    e ∈ cellCandidates p j ↔
      (jOf e = j ∧ iOf e < p.C ∧ iOf e ≠ j ∧ mOf e < p.M ∧ tOf e < p.T ∧
        0 < p.avail (bkt e)) := by
  obtain ⟨i, j', m, t⟩ := e
  simp only [cellCandidates, List.mem_flatMap, List.mem_filterMap, List.mem_range,
    iOf, jOf, mOf, tOf, bkt]
  constructor
  · rintro ⟨i', hi', he⟩
    by_cases hij : i' = j
    · rw [if_pos hij] at he
      simp at he
    · rw [if_neg hij] at he
      simp only [List.mem_flatMap, List.mem_filterMap, List.mem_range] at he
      obtain ⟨m', hm', t', ht', he⟩ := he
      by_cases hav : 0 < p.avail (i', m', t')
      · rw [if_pos hav] at he
        obtain ⟨h1, h2, h3, h4⟩ : i = i' ∧ j' = j ∧ m = m' ∧ t = t' := by
          have := Option.some_inj.mp he
          simp only [Prod.ext_iff] at this
          exact ⟨this.1.symm, this.2.1.symm, this.2.2.1.symm, this.2.2.2.symm⟩
        subst h1; subst h2; subst h3; subst h4
        exact ⟨rfl, hi', hij, hm', ht', hav⟩
      · rw [if_neg hav] at he
        simp at he
  · rintro ⟨hj, hi, hij, hm, ht, hav⟩
    subst hj
    refine ⟨i, hi, ?_⟩
    rw [if_neg hij]
    simp only [List.mem_flatMap, List.mem_filterMap, List.mem_range]
    exact ⟨m, hm, t, ht, by rw [if_pos hav]⟩

theorem mem_costs_order (p : Prob) (cap : Int) (j : Nat) (e : Idx4) :
    e ∈ costs_order p cap j ↔ e ∈ cellCandidates p j :=
  (List.perm_insertionSort (redCostLE p cap) (cellCandidates p j)).mem_iff

theorem sorted_costs_order (p : Prob) (cap : Int) (j : Nat) :
    (costs_order p cap j).Sorted (redCostLE p cap) :=
  List.sorted_insertionSort (redCostLE p cap) (cellCandidates p j)

instance intGeTotal : IsTotal Int (· ≥ ·) := ⟨fun a b => le_total b a⟩

instance intGeTrans : IsTrans Int (· ≥ ·) := ⟨fun _ _ _ h1 h2 => le_trans h2 h1⟩

theorem sorted_act_per_user_sorted (p : Prob) :
    (act_per_user_sorted p).Sorted (· ≥ ·) :=
  List.sorted_insertionSort (· ≥ ·) ((List.range p.M).map p.act)

theorem mem_act_per_user_sorted (p : Prob) (c : Int) :
    c ∈ act_per_user_sorted p ↔ ∃ m < p.M, p.act m = c := by
  unfold act_per_user_sorted
  rw [(List.perm_insertionSort (· ≥ ·) ((List.range p.M).map p.act)).mem_iff]
  simp [List.mem_map, List.mem_range]

theorem length_act_per_user_sorted (p : Prob) :
    (act_per_user_sorted p).length = p.M := by
  unfold act_per_user_sorted
  rw [(List.perm_insertionSort (· ≥ ·) ((List.range p.M).map p.act)).length_eq]
  simp

/-- Value-level reformulation of the `get_costs_idx` scan: the first cap not
exceeding the demand, or the last cap when every cap exceeds it. -/
def capScan (demand : Int) : List Int → Int
  | [] => 1
  | [c] => c
  | c :: c' :: rest => if demand < c then capScan demand (c' :: rest) else c

theorem get_costs_idx_aux_shift (demand : Int) :
    ∀ L k, get_costs_idx_aux demand L (k + 1) = get_costs_idx_aux demand L k + 1 := by
  intro L
  induction L with
  | nil => intro k; rfl
  | cons c rest ih =>
    intro k
    cases rest with
    | nil => rfl
    | cons c' rest' =>
      simp only [get_costs_idx_aux]
      split
      · exact ih (k + 1)
      · rfl

theorem getD_get_costs_idx_aux (demand : Int) :
    ∀ L, L.getD (get_costs_idx_aux demand L 0) 1 = capScan demand L := by
  intro L
  induction L with
  | nil => rfl
  | cons c rest ih =>
    cases rest with
    | nil => rfl
    | cons c' rest' =>
      show (c :: c' :: rest').getD (get_costs_idx_aux demand (c :: c' :: rest') 0) 1 =
        capScan demand (c :: c' :: rest')
      simp only [get_costs_idx_aux, capScan]
      split
      · rw [get_costs_idx_aux_shift, List.getD_cons_succ]
        exact ih
      · rfl

theorem capFor_eq_capScan (p : Prob) (demand : Int) :
    capFor p demand = capScan demand (act_per_user_sorted p) :=
  getD_get_costs_idx_aux demand (act_per_user_sorted p)

theorem capScan_mem (demand : Int) :
    ∀ L, L ≠ [] → capScan demand L ∈ L := by
  intro L
  induction L with
  | nil => intro h; exact absurd rfl h
  | cons c rest ih =>
    intro _
    cases rest with
    | nil => exact List.mem_singleton.mpr rfl
    | cons c' rest' =>
      show (if demand < c then capScan demand (c' :: rest') else c) ∈ c :: c' :: rest'
      split
      · exact List.mem_cons_of_mem c (ih (by simp))
      · exact List.mem_cons_self c (c' :: rest')

theorem capScan_cases (demand : Int) :
    ∀ L, L ≠ [] → L.Sorted (· ≥ ·) →
      (capScan demand L ≤ demand ∧ ∀ c ∈ L, c ≤ demand → c ≤ capScan demand L)
      ∨ (demand < capScan demand L ∧ ∀ c ∈ L, capScan demand L ≤ c) := by
  intro L
  induction L with
  | nil => intro h; exact absurd rfl h
  | cons c rest ih =>
    intro _ hsorted
    have hge : ∀ x ∈ rest, c ≥ x := (List.sorted_cons.mp hsorted).1
    have hsorted' : rest.Sorted (· ≥ ·) := (List.sorted_cons.mp hsorted).2
    cases rest with
    | nil =>
      have hc1 : capScan demand [c] = c := rfl
      rw [hc1]
      by_cases h : c ≤ demand
      · left
        refine ⟨h, ?_⟩
        intro x hx _
        rw [List.mem_singleton.mp hx]
      · right
        refine ⟨by omega, ?_⟩
        intro x hx
        rw [List.mem_singleton.mp hx]
    | cons c' rest' =>
      have hcc : capScan demand (c :: c' :: rest') =
          if demand < c then capScan demand (c' :: rest') else c := rfl
      rw [hcc]
      by_cases h : demand < c
      · rw [if_pos h]
        rcases ih (by simp) hsorted' with ⟨h1, h2⟩ | ⟨h1, h2⟩
        · left
          refine ⟨h1, ?_⟩
          intro x hx hxd
          rcases List.mem_cons.mp hx with hx | hx
          · omega
          · exact h2 x hx hxd
        · right
          refine ⟨h1, ?_⟩
          intro x hx
          rcases List.mem_cons.mp hx with hx | hx
          · subst hx
            have := hge (capScan demand (c' :: rest')) (capScan_mem demand _ (by simp))
            omega
          · exact h2 x hx
      · rw [if_neg h]
        left
        refine ⟨by omega, ?_⟩
        intro x hx _
        rcases List.mem_cons.mp hx with hx | hx
        · omega
        · have := hge x hx
          omega

theorem capFor_cases (p : Prob) (demand : Int) (hM : 1 ≤ p.M) :
    (capFor p demand ≤ demand ∧
        ∀ m < p.M, p.act m ≤ demand → p.act m ≤ capFor p demand)
    ∨ (demand < capFor p demand ∧ ∀ m < p.M, capFor p demand ≤ p.act m) := by
  have hne : act_per_user_sorted p ≠ [] := by
    intro h
    have := length_act_per_user_sorted p
    rw [h] at this
    simp at this
    omega
  rw [capFor_eq_capScan]
  rcases capScan_cases demand (act_per_user_sorted p) hne (sorted_act_per_user_sorted p)
    with ⟨h1, h2⟩ | ⟨h1, h2⟩
  · left
    refine ⟨h1, ?_⟩
    intro m hm hmd
    exact h2 (p.act m) ((mem_act_per_user_sorted p _).mpr ⟨m, hm, rfl⟩) hmd
  · right
    refine ⟨h1, ?_⟩
    intro m hm
    exact h2 (p.act m) ((mem_act_per_user_sorted p _).mpr ⟨m, hm, rfl⟩)

theorem capFor_exists (p : Prob) (demand : Int) (hM : 1 ≤ p.M) :
    ∃ m < p.M, p.act m = capFor p demand := by
  rw [capFor_eq_capScan]
  have hne : act_per_user_sorted p ≠ [] := by
    intro h
    have := length_act_per_user_sorted p
    rw [h] at this
    simp at this
    omega
  exact (mem_act_per_user_sorted p _).mp (capScan_mem demand _ hne)

theorem capFor_pos (p : Prob) (demand : Int) (hM : 1 ≤ p.M)
    (hact : ∀ m < p.M, 1 ≤ p.act m) : 1 ≤ capFor p demand := by
  obtain ⟨m, hm, he⟩ := capFor_exists p demand hM
  rw [← he]
  exact hact m hm

/-! ## The candidate scan of the standard greedy (lines 195-230)

At each selection step the greedy walks `costs_order[co_idx][j]` through
`get_least_expensive` (which skips buckets with no available user),
computes the effective cost `costs[e] / min(demand, act_per_user[m])`,
breaks out as soon as that cost exceeds the incumbent minimum, and
otherwise adopts the candidate when its cost is strictly smaller or — at
equal cost — when the usage tracker prefers it (`cells_usage
::should_replace`). -/

/-- The effective (demand-capped) cost of a candidate:
`costs[e] / min(demand, act_per_user[m])`. -/
def effCost (p : Prob) (demand : Int) (e : Idx4) : ℚ :=
  p.costs e / ((min demand (p.act (mOf e)) : Int) : ℚ)

/-- The scan loop: returns the adopted tuple and its effective cost, `none`
when no available candidate exists (`min_cost` stays `+∞`). -/
def scanBest (p : Prob) (avail : Idx3 → Int) (usage : Idx3 → ℚ) (demand : Int) :
    List Idx4 → Option (Idx4 × ℚ) → Option (Idx4 × ℚ)
  | [], best => best
  | e :: rest, best =>
    if avail (bkt e) ≤ 0 then scanBest p avail usage demand rest best
    else
      match best with
      | none => scanBest p avail usage demand rest (some (e, effCost p demand e))
      | some (b, mc) =>
        if mc < effCost p demand e then some (b, mc)
        else if effCost p demand e < mc ∨ usage (bkt e) < usage (bkt b) then
          scanBest p avail usage demand rest (some (e, effCost p demand e))
        else scanBest p avail usage demand rest (some (b, mc))

theorem scanBest_some (p : Prob) (avail : Idx3 → Int) (usage : Idx3 → ℚ) (d : Int) :
    ∀ (l : List Idx4) (best : Option (Idx4 × ℚ)) (r : Idx4 × ℚ),
      scanBest p avail usage d l best = some r →
      best = some r ∨ (r.1 ∈ l ∧ 0 < avail (bkt r.1) ∧ r.2 = effCost p d r.1) := by
  intro l
  induction l with
  | nil =>
    intro best r h
    exact Or.inl h
  | cons e rest ih =>
    intro best r h
    unfold scanBest at h
    by_cases hav : avail (bkt e) ≤ 0
    · rw [if_pos hav] at h
      rcases ih best r h with h1 | h1
      · exact Or.inl h1
      · exact Or.inr ⟨List.mem_cons_of_mem e h1.1, h1.2⟩
    · rw [if_neg hav] at h
      cases best with
      | none =>
        rcases ih _ r h with h1 | h1
        · refine Or.inr ?_
          obtain he := Option.some_inj.mp h1
          subst he
          refine ⟨List.mem_cons_self e rest, ?_, rfl⟩
          show 0 < avail (bkt e)
          omega
        · exact Or.inr ⟨List.mem_cons_of_mem e h1.1, h1.2⟩
      | some bm =>
        obtain ⟨b, mc⟩ := bm
        simp only at h
        by_cases hbreak : mc < effCost p d e
        · rw [if_pos hbreak] at h
          exact Or.inl h
        · rw [if_neg hbreak] at h
          by_cases hadopt : effCost p d e < mc ∨ usage (bkt e) < usage (bkt b)
          · rw [if_pos hadopt] at h
            rcases ih _ r h with h1 | h1
            · refine Or.inr ?_
              obtain he := Option.some_inj.mp h1
              subst he
              refine ⟨List.mem_cons_self e rest, ?_, rfl⟩
              show 0 < avail (bkt e)
              omega
            · exact Or.inr ⟨List.mem_cons_of_mem e h1.1, h1.2⟩
          · rw [if_neg hadopt] at h
            rcases ih _ r h with h1 | h1
            · exact Or.inl h1
            · exact Or.inr ⟨List.mem_cons_of_mem e h1.1, h1.2⟩

theorem qdiv_denom_antitone (q : ℚ) (b1 b2 : ℚ) (hq : 0 ≤ q) (h1 : 0 < b1)
    (h12 : b1 ≤ b2) : q / b2 ≤ q / b1 := by
  have h2 : 0 < b2 := lt_of_lt_of_le h1 h12
  rw [div_le_div_iff₀ h2 h1]
  exact mul_le_mul_of_nonneg_left h12 hq

theorem scanBest_min (p : Prob) (avail : Idx3 → Int) (usage : Idx3 → ℚ)
    (d cap : Int) (hd : 1 ≤ d) (hcap : 1 ≤ cap) :
    ∀ (l : List Idx4) (best : Option (Idx4 × ℚ)) (r : Idx4 × ℚ),
      l.Sorted (redCostLE p cap) →
      (∀ e ∈ l, 1 ≤ p.act (mOf e) ∧ 0 ≤ p.costs e ∧
        (p.act (mOf e) ≤ d → p.act (mOf e) ≤ cap) ∧ (d < cap → cap ≤ p.act (mOf e))) →
      scanBest p avail usage d l best = some r →
      (∀ b mc, best = some (b, mc) → r.2 ≤ mc) ∧
      (∀ y ∈ l, 0 < avail (bkt y) → (p.act (mOf y) ≤ d ∨ d < cap) →
        r.2 ≤ effCost p d y) := by
  intro l
  induction l with
  | nil =>
    intro best r _ _ h
    refine ⟨?_, by simp⟩
    intro b mc hbest
    rw [hbest] at h
    obtain he := Option.some_inj.mp h
    rw [← he]
  | cons e rest ih =>
    intro best r hsorted hwf h
    have hsorted' : rest.Sorted (redCostLE p cap) := (List.sorted_cons.mp hsorted).2
    have hrel : ∀ y ∈ rest, redCostLE p cap e y := (List.sorted_cons.mp hsorted).1
    have hwf' : ∀ e' ∈ rest, _ := fun e' he' => hwf e' (List.mem_cons_of_mem e he')
    have hwfe := hwf e (List.mem_cons_self e rest)
    -- the key cost comparison: a later candidate y (red e ≤ red y) that is
    -- demand-compatible cannot have a smaller effective cost than e has
    have hkey : ∀ y, redCostLE p cap e y → 1 ≤ p.act (mOf y) → 0 ≤ p.costs y →
        (p.act (mOf y) ≤ d → p.act (mOf y) ≤ cap) → (d < cap → cap ≤ p.act (mOf y)) →
        (p.act (mOf y) ≤ d ∨ d < cap) →
        effCost p d e ≤ effCost p d y := by
      intro y hle hy1 hy2 hy3 hy4 hq
      obtain ⟨he1, he2, he3, he4⟩ := hwfe
      have hle' : redCost p cap e ≤ redCost p cap y := hle
      rcases lt_or_le d cap with hBc | hAc
      · -- every type exceeds the demand: both effective costs divide by d
        have hye : cap ≤ p.act (mOf y) := hy4 hBc
        have hee : cap ≤ p.act (mOf e) := he4 hBc
        have hcapq : (0 : ℚ) < ((cap : Int) : ℚ) := by
          have h0 : (0 : Int) < cap := by omega
          exact_mod_cast h0
        have hdq : (0 : ℚ) < ((d : Int) : ℚ) := by
          have h0 : (0 : Int) < d := by omega
          exact_mod_cast h0
        have hcy : p.costs e ≤ p.costs y := by
          unfold redCost at hle'
          rw [min_eq_right hee, min_eq_right hye, div_le_div_iff_of_pos_right hcapq] at hle'
          exact hle'
        unfold effCost
        rw [min_eq_left (show d ≤ p.act (mOf e) by omega),
          min_eq_left (show d ≤ p.act (mOf y) by omega),
          div_le_div_iff_of_pos_right hdq]
        exact hcy
      · -- cap ≤ demand: eff e ≤ red e ≤ red y = eff y for compatible y
        have hy5 : p.act (mOf y) ≤ d := by
          rcases hq with hq | hq
          · exact hq
          · omega
        have hy6 : p.act (mOf y) ≤ cap := hy3 hy5
        have hyeq : effCost p d y = redCost p cap y := by
          unfold effCost redCost
          rw [min_eq_right hy5, min_eq_left hy6]
        have heff : effCost p d e ≤ redCost p cap e := by
          unfold effCost redCost
          apply qdiv_denom_antitone _ _ _ he2
          · have h0 : (0 : Int) < min (p.act (mOf e)) cap := lt_min (by omega) (by omega)
            exact_mod_cast h0
          · have hmm : min (p.act (mOf e)) cap ≤ min d (p.act (mOf e)) := by
              rcases le_total (p.act (mOf e)) cap with hc | hc
              · rw [min_eq_left hc]
                exact le_min (by omega) le_rfl
              · rw [min_eq_right hc]
                exact le_min hAc (by omega)
            exact_mod_cast hmm
        rw [hyeq]
        exact le_trans heff hle'
    unfold scanBest at h
    by_cases hav : avail (bkt e) ≤ 0
    · rw [if_pos hav] at h
      obtain ⟨c1, c2⟩ := ih best r hsorted' hwf' h
      refine ⟨c1, ?_⟩
      intro y hy hyav hyq
      rcases List.mem_cons.mp hy with hy | hy
      · subst hy
        omega
      · exact c2 y hy hyav hyq
    · rw [if_neg hav] at h
      cases best with
      | none =>
        obtain ⟨c1, c2⟩ := ih _ r hsorted' hwf' h
        have hrm : r.2 ≤ effCost p d e := c1 e (effCost p d e) rfl
        refine ⟨by simp, ?_⟩
        intro y hy hyav hyq
        rcases List.mem_cons.mp hy with hy | hy
        · subst hy
          exact hrm
        · exact c2 y hy hyav hyq
      | some bm =>
        obtain ⟨b, mc⟩ := bm
        simp only at h
        by_cases hbreak : mc < effCost p d e
        · rw [if_pos hbreak] at h
          obtain hre := Option.some_inj.mp h
          subst hre
          refine ⟨?_, ?_⟩
          · intro b' mc' hbm
            obtain hre2 := Option.some_inj.mp hbm
            have h2 : mc = mc' := congrArg Prod.snd hre2
            rw [← h2]
          · intro y hy hyav hyq
            rcases List.mem_cons.mp hy with hy | hy
            · subst hy
              exact le_of_lt hbreak
            · obtain ⟨hy1, hy2, hy3, hy4⟩ := hwf' y hy
              exact le_trans (le_of_lt hbreak) (hkey y (hrel y hy) hy1 hy2 hy3 hy4 hyq)
        · rw [if_neg hbreak] at h
          have hstep : ∀ b1 mc1, scanBest p avail usage d rest (some (b1, mc1)) = some r →
              mc1 ≤ mc → mc1 ≤ effCost p d e →
              (∀ b' mc', some (b, mc) = some (b', mc') → r.2 ≤ mc') ∧
              (∀ y ∈ e :: rest, 0 < avail (bkt y) → (p.act (mOf y) ≤ d ∨ d < cap) →
                r.2 ≤ effCost p d y) := by
            intro b1 mc1 hh hle1 hle2
            obtain ⟨c1, c2⟩ := ih _ r hsorted' hwf' hh
            have hr1 : r.2 ≤ mc1 := c1 b1 mc1 rfl
            refine ⟨?_, ?_⟩
            · intro b' mc' hbm
              obtain hre2 := Option.some_inj.mp hbm
              have : mc = mc' := congrArg Prod.snd hre2
              rw [← this]
              exact le_trans hr1 hle1
            · intro y hy hyav hyq
              rcases List.mem_cons.mp hy with hy | hy
              · subst hy
                exact le_trans hr1 hle2
              · exact c2 y hy hyav hyq
          by_cases hadopt : effCost p d e < mc ∨ usage (bkt e) < usage (bkt b)
          · rw [if_pos hadopt] at h
            exact hstep e (effCost p d e) h (not_lt.mp hbreak) le_rfl
          · rw [if_neg hadopt] at h
            have heq : mc ≤ effCost p d e :=
              not_lt.mp (fun hlt => hadopt (Or.inl hlt))
            exact hstep b mc h le_rfl heq

/-! ## Claim theorems for the candidate lists, the scan early stop, the
activity-slot table, the timer, and the writers -/

/-- Concrete instance exhibiting the unsound early stop: 2 cells, 2 types
(`act_per_user = [2, 20]`), 2 time periods, demand 10 at cell 1, one user
available in each bucket of cell 0. -/
def probC4 : Prob where
  C := 2
  M := 2
  T := 2
  act := fun m => if m = 0 then 2 else 20
  activities := fun j => if j = 1 then 10 else 0
  avail := fun b => if b.1 = 0 then 1 else 0
  costs := fun e =>
    if e = ((0, 1, 0, 0) : Idx4) then 2
    else if e = ((0, 1, 0, 1) : Idx4) then 3
    else if e = ((0, 1, 1, 0) : Idx4) then 4
    else 100

/-- C4, counterexample.  At the first selection step for cell 1 of
`probC4` (demand 10, selected cap `act_per_user_sorted[1] = 2`), the scan
adopts the type-0 tuple (0,1,0,0) at effective cost 1 and stops at
(0,1,0,1) (effective cost 3/2 > 1); but the later available tuple
(0,1,1,0) has effective cost 4/min(10,20) = 2/5 < 1.  The adopted
candidate does not attain the minimum effective cost among the available
candidates of the list, refuting the claim as stated. -/
theorem claim_C4_counterexample :
    scanBest probC4 probC4.avail (fun _ => 0) 10
        (costs_order probC4 (capFor probC4 10) 1) none = some ((0, 1, 0, 0), 1)
    ∧ ¬(∀ y ∈ costs_order probC4 (capFor probC4 10) 1,
          0 < probC4.avail (bkt y) → (1 : ℚ) ≤ effCost probC4 10 y) := by
  constructor
  · decide
  · decide

/-- C4, amended.  When the scan adopts a candidate, no available tuple of
the list whose type satisfies `act_per_user[m] ≤ demand` has a strictly
smaller effective cost; and when the selected cap exceeds the demand (all
types over-capacity) the same holds for every available tuple.  A later
available tuple with `act_per_user[m] > demand ≥ cap` may beat the
adopted candidate. -/
theorem claim_C4_amended (p : Prob) (j : Nat) (avail : Idx3 → Int)
    (usage : Idx3 → ℚ) (d : Int) (r : Idx4 × ℚ) (hM : 1 ≤ p.M) (hd : 1 ≤ d)
    (hact : ∀ m < p.M, 1 ≤ p.act m)
    (hcosts : ∀ e ∈ costs_order p (capFor p d) j, 0 ≤ p.costs e)
    (h : scanBest p avail usage d (costs_order p (capFor p d) j) none = some r) :
    ∀ y ∈ costs_order p (capFor p d) j, 0 < avail (bkt y) →
      (p.act (mOf y) ≤ d ∨ d < capFor p d) → r.2 ≤ effCost p d y := by
  have hcap : 1 ≤ capFor p d := capFor_pos p d hM hact
  have hwf : ∀ e ∈ costs_order p (capFor p d) j, 1 ≤ p.act (mOf e) ∧ 0 ≤ p.costs e ∧
      (p.act (mOf e) ≤ d → p.act (mOf e) ≤ capFor p d) ∧
      (d < capFor p d → capFor p d ≤ p.act (mOf e)) := by
    intro e he
    have hm : mOf e < p.M :=
      ((mem_cellCandidates p j e).mp ((mem_costs_order p _ j e).mp he)).2.2.2.1
    refine ⟨hact _ hm, hcosts e he, ?_, ?_⟩
    · intro hed
      rcases capFor_cases p d hM with ⟨h1, h2⟩ | ⟨h1, h2⟩
      · exact h2 _ hm hed
      · have := h2 _ hm
        omega
    · intro hdc
      rcases capFor_cases p d hM with ⟨h1, h2⟩ | ⟨h1, h2⟩
      · omega
      · exact h2 _ hm
  exact (scanBest_min p avail usage d (capFor p d) hd hcap
    (costs_order p (capFor p d) j) none r (sorted_costs_order p _ j) hwf h).2

theorem claim_C4_amended_witness :
    (∀ e ∈ costs_order probC4 (capFor probC4 10) 1, 0 ≤ probC4.costs e) ∧
    (∀ y ∈ costs_order probC4 (capFor probC4 10) 1, 0 < probC4.avail (bkt y) →
      (probC4.act (mOf y) ≤ 10 ∨ 10 < capFor probC4 10) →
      (((0, 1, 0, 0) : Idx4), (1 : ℚ)).2 ≤ effCost probC4 10 y) :=
  ⟨by decide,
    claim_C4_amended probC4 1 probC4.avail (fun _ => 0) 10 ((0, 1, 0, 0), 1)
      (by decide) (by decide) (by decide) (by decide) (by decide)⟩

/-- C7.  For every limiting-type index k and destination j with positive
demand, the list built by `fill_cells_order` contains exactly the tuples
(i,j,m,t) with i ≠ j and `users_available[i,m,t] > 0`, in non-decreasing
order of the reduced cost `costs / min(act_per_user[m],
act_per_user_sorted[k])`. -/
theorem claim_C7_candidate_lists (p : Prob) (k j : Nat) (hk : k < p.M)
    (hj : j < p.C) (hdem : 0 < p.activities j) :
    (∀ e, e ∈ costs_order p ((act_per_user_sorted p).getD k 1) j ↔
      (jOf e = j ∧ iOf e < p.C ∧ iOf e ≠ j ∧ mOf e < p.M ∧ tOf e < p.T ∧
        0 < p.avail (bkt e)))
    ∧ (costs_order p ((act_per_user_sorted p).getD k 1) j).Sorted
        (redCostLE p ((act_per_user_sorted p).getD k 1)) :=
  ⟨fun e => (mem_costs_order p _ j e).trans (mem_cellCandidates p j e),
    sorted_costs_order p _ j⟩

theorem claim_C7_candidate_lists_witness :
    ((0 < probC4.activities 1) ∧
      (∀ e, e ∈ costs_order probC4 ((act_per_user_sorted probC4).getD 0 1) 1 ↔
        (jOf e = 1 ∧ iOf e < probC4.C ∧ iOf e ≠ 1 ∧ mOf e < probC4.M ∧
          tOf e < probC4.T ∧ 0 < probC4.avail (bkt e)))
      ∧ (costs_order probC4 ((act_per_user_sorted probC4).getD 0 1) 1).Sorted
          (redCostLE probC4 ((act_per_user_sorted probC4).getD 0 1))) :=
  ⟨by decide, claim_C7_candidate_lists probC4 0 1 (by decide) (by decide) (by decide)⟩

/-- C6, counterexample.  With `act_per_user = [1]` and `max_activities = 1`,
row 0 of the table is all true (the base case), so `reach[0][0] = true`
while `0 < act_per_user[0]`: the claimed consistency
`reach[a][m] ⇒ a ≥ act_per_user[m]` fails at a = 0. -/
theorem claim_C6_counterexample :
    ¬(∀ a ≤ 1, ∀ m < 1, slotsCell (fun _ => (1 : Int)) 1 1 a m = true →
        (1 : Int) ≤ (a : Int)) := by decide

/-- C6, amended: (a) every entry of row 0 (cells and sentinel) is true;
(b) for every a ≥ 1 and type m, `reach[a][m]` implies `a ≥
act_per_user[m]` (the base row a = 0 is the sole exception to the claimed
consistency); (c) for every a in range, the sentinel equals the
disjunction of the row. -/
theorem claim_C6_amended (act : Nat → Int) (M maxAct : Nat) (hM : 1 ≤ M)
    (hact : ∀ m < M, 1 ≤ act m) :
    ((∀ m < M, slotsCell act M maxAct 0 m = true) ∧ slotsGen act M maxAct 0 = true)
    ∧ (∀ a, 1 ≤ a → ∀ m < M, slotsCell act M maxAct a m = true → act m ≤ (a : Int))
    ∧ (∀ a ≤ maxAct,
        slotsGen act M maxAct a = (List.range M).any (slotsCell act M maxAct a)) := by
  refine ⟨⟨fun m hm => slotsCell_row0_true act M maxAct m hact hm, ?_⟩, ?_, ?_⟩
  · rw [slotsGen_eq_any act M maxAct 0 hact hM (Nat.zero_le maxAct)]
    exact List.any_eq_true.mpr ⟨0, List.mem_range.mpr hM,
      slotsCell_row0_true act M maxAct 0 hact hM⟩
  · intro a ha m hm h
    exact slotsCell_imp_le act M maxAct a m hact ha hm h
  · intro a ha
    exact slotsGen_eq_any act M maxAct a hact hM ha

theorem claim_C6_amended_witness :
    ((1 : Nat) ≤ 1 ∧ (∀ m < 1, (1 : Int) ≤ (fun _ => (1 : Int)) m)) ∧
    (((∀ m < 1, slotsCell (fun _ => (1 : Int)) 1 2 0 m = true) ∧
        slotsGen (fun _ => (1 : Int)) 1 2 0 = true)
      ∧ (∀ a, 1 ≤ a → ∀ m < 1,
          slotsCell (fun _ => (1 : Int)) 1 2 a m = true → (fun _ => (1 : Int)) m ≤ (a : Int))
      ∧ (∀ a ≤ 2, slotsGen (fun _ => (1 : Int)) 1 2 a =
          (List.range 1).any (slotsCell (fun _ => (1 : Int)) 1 2 a))) :=
  ⟨⟨le_rfl, by decide⟩, claim_C6_amended (fun _ => 1) 1 2 (by decide) (by decide)⟩

/-- C9, counterexample.  In the run in which `stop()` is invoked before the
duration elapses, the callback is executed anyway (`timer_function` calls
it unconditionally after the wait returns), refuting "f is never
executed". -/
theorem claim_C9_counterexample :
    ¬(timer_run_stopped_early.callbackRuns = 0) := by decide

/-- C9, amended.  The callback is executed exactly once in every run —
both when the duration expires uncancelled and when `stop()` is invoked
early; cancellation only makes it run earlier (and sets `end`), it never
suppresses it. -/
theorem claim_C9_amended :
    timer_run_stopped_early.callbackRuns = 1
    ∧ timer_run_expired.callbackRuns = 1
    ∧ timer_run_stopped_early.tEnd = true
    ∧ timer_run_stopped_early.tStopped = true := by decide

/-- C10.  When `has_solution` is false, `write_kpi` writes nothing to the
KPI stream and `write_solution` writes nothing to the solution stream. -/
theorem claim_C10_no_solution_silence :
    ∀ (instance_name : String) (kpi : List ℚ) (C T M : Nat) (sol : Idx4 → Int),
      write_kpi false instance_name kpi = ""
      ∧ write_solution false C T M sol = "" := by
  intro n kpi C T M sol
  exact ⟨rfl, rfl⟩

/-! ## The standard greedy constructor (`coiote_solver::greedy`, lines
176-279)

The state threaded through the construction: the solution being built, the
scratch supply table, the usage tracker and the running objective.  The
function returns `none` where the source returns the `+∞` sentinel (no
available candidate for a still-positive demand); running out of fuel is
mapped to `none` as well. -/

structure GState where
  sol : Idx4 → Int
  avail : Idx3 → Int
  usage : Idx3 → ℚ
  obj : ℚ

/-- Additive pointwise update of the usage tracker. -/
def usageBump (u : Idx3 → ℚ) (x : Idx3) (q : ℚ) : Idx3 → ℚ :=
  fun y => u y + (if y = x then q else 0)

/-- `cmp_costs_desc`: non-strict comparison under non-increasing raw cost. -/
def cmp_costs_desc (p : Prob) : Idx4 → Idx4 → Prop :=
  fun x y => p.costs y ≤ p.costs x

instance (p : Prob) : DecidableRel (cmp_costs_desc p) :=
  fun x y => inferInstanceAs (Decidable (p.costs y ≤ p.costs x))

instance (p : Prob) : IsTotal Idx4 (cmp_costs_desc p) :=
  ⟨fun x y => le_total (p.costs y) (p.costs x)⟩

instance (p : Prob) : IsTrans Idx4 (cmp_costs_desc p) :=
  ⟨fun _ _ _ h1 h2 => le_trans h2 h1⟩

/-- `std::sort(inserted_indexes.begin(), .end(), cmp_costs_desc(costs))`. -/
def sortDesc (p : Prob) (l : List Idx4) : List Idx4 :=
  l.insertionSort (cmp_costs_desc p)

/-- `idx = {min_i, j, min_m, min_t}` (line 238): the solution entry
committed for the adopted candidate. -/
def commitIdx (j : Nat) (e0 : Idx4) : Idx4 := (iOf e0, j, mOf e0, tOf e0)

/-- `nusers` (lines 233-236): `min(demand / act_per_user[m],
users_available)` — forced to 1 when that is zero (overshoot permitted). -/
def commitN (p : Prob) (demand : Int) (e0 : Idx4) (s : GState) : Int :=
  let n0 := min (demand.ediv (p.act (mOf e0))) (s.avail (bkt e0))
  if n0 = 0 then 1 else n0

/-- Lines 239-245: add the users to the solution, update the objective,
make them unavailable, and record the usage. -/
def commitState (p : Prob) (j : Nat) (demand : Int) (e0 : Idx4) (s : GState) :
    GState :=
  let idx := commitIdx j e0
  let n := commitN p demand e0 s
  { sol := bump4 s.sol idx n
    avail := bump3 s.avail (bkt idx) (-n)
    usage := usageBump s.usage (bkt idx) ((n : ℚ) / ((p.avail (bkt idx) : Int) : ℚ))
    obj := s.obj + p.costs idx * (n : ℚ) }

/-- One destination cell's `while(demand > 0)` loop (lines 195-246): scan
for the cheapest available candidate, commit
`min(demand/act_per_user[m], users_available)` users of it (at least one),
and update solution, objective, demand, supply, usage and the in-cell
insert log. -/
def greedyCellLoop (p : Prob) (j : Nat) :
    Nat → Int → GState → List Idx4 → Option (GState × List Idx4 × Int)
  | 0, _, _, _ => none
  | fuel + 1, demand, s, log =>
    if 0 < demand then
      match scanBest p s.avail s.usage demand
          (costs_order p (capFor p demand) j) none with
      | none => none
      | some (e0, _) =>
        greedyCellLoop p j fuel
          (demand - p.act (mOf e0) * commitN p demand e0 s)
          (commitState p j demand e0 s)
          (log ++ [commitIdx j e0])
    else some (s, log, demand)

/-- The overshoot-rebalance loop (lines 260-274), on the insert log already
sorted by non-increasing raw cost.  `ex` is the (positive) excess
`demand = -demand` of the source.  The iterator stays on the current entry
after a removal and advances exactly when the decremented solution entry
hits zero, or when the entry's user type does more activities than the
remaining excess. -/
def rebalanceAux (p : Prob) : Nat → GState → Int → List Idx4 → GState × Int
  | 0, s, ex, _ => (s, ex)
  | fuel + 1, s, ex, log =>
    if 0 < ex then
      match log with
      | [] => (s, ex)
      | e :: rest =>
        if p.act (mOf e) ≤ ex then
          let s' : GState :=
            { s with
              sol := bump4 s.sol e (-1)
              avail := bump3 s.avail (bkt e) 1
              obj := s.obj - p.costs e }
          rebalanceAux p fuel s' (ex - p.act (mOf e))
            (if s'.sol e = 0 then rest else e :: rest)
        else rebalanceAux p fuel s ex rest
    else (s, ex)

/-- Modelled from the spec, for the C5 refinement: the same rebalance walk,
with the removal step guarded — as the specification words it — by *both*
`act_per_user[m] ≤ -demand` and `solution[i,j,m,t] > 0`. -/
def rebalanceSpecAux (p : Prob) : Nat → GState → Int → List Idx4 → GState × Int
  | 0, s, ex, _ => (s, ex)
  | fuel + 1, s, ex, log =>
    if 0 < ex then
      match log with
      | [] => (s, ex)
      | e :: rest =>
        if p.act (mOf e) ≤ ex ∧ 0 < s.sol e then
          let s' : GState :=
            { s with
              sol := bump4 s.sol e (-1)
              avail := bump3 s.avail (bkt e) 1
              obj := s.obj - p.costs e }
          rebalanceSpecAux p fuel s' (ex - p.act (mOf e))
            (if s'.sol e = 0 then rest else e :: rest)
        else rebalanceSpecAux p fuel s ex rest
    else (s, ex)

/-- Processing of one destination cell: the demand loop followed, when the
final demand is negative, by the rebalance on the log sorted by
non-increasing cost (lines 252-275). -/
def greedyCell (p : Prob) (fuel : Nat) (j : Nat) (s : GState) : Option GState :=
  match greedyCellLoop p j fuel (p.activities j) s [] with
  | none => none
  | some (s1, log, d1) =>
    if d1 < 0 then some (rebalanceAux p fuel s1 (-d1) (sortDesc p log)).1
    else some s1

/-- The fold of `greedy` over the visit order. -/
def greedyGo (p : Prob) (fuel : Nat) : List Nat → GState → Option GState
  | [], s => some s
  | j :: rest, s =>
    match greedyCell p fuel j s with
    | none => none
    | some s' => greedyGo p fuel rest s'

/-- `coiote_solver::greedy`: reset the solution, restore the full supply,
then satisfy each destination of the visit order in turn.  `none` models
the `+∞` sentinel return.  The usage tracker is carried across invocations
by the caller (`thread_body`), hence the `usage0` parameter. -/
def greedy (p : Prob) (fuel : Nat) (order : List Nat) (usage0 : Idx3 → ℚ) :
    Option GState :=
  greedyGo p fuel order
    { sol := fun _ => 0, avail := p.avail, usage := usage0, obj := 0 }

/-! ## Invariants of the greedy construction -/

/-- Well-formedness of an entry of cell j's insert log. -/
def LogEntryWF (p : Prob) (j : Nat) (e : Idx4) : Prop :=
  iOf e < p.C ∧ jOf e = j ∧ mOf e < p.M ∧ tOf e < p.T ∧ iOf e ≠ j

/-- The global supply invariant of the construction: the scratch supply
table is exactly the original supply minus the users already committed, and
it never goes negative. -/
def GInv (p : Prob) (s : GState) : Prop :=
  (∀ b ∈ buckets p, s.avail b = p.avail b - sumSolJ p b s.sol) ∧
  (∀ b ∈ buckets p, 0 ≤ s.avail b)

theorem bkt_eq (x : Idx4) : bkt x = (iOf x, mOf x, tOf x) := rfl

theorem bkt_mem_buckets (p : Prob) (x : Idx4) (hi : iOf x < p.C) (hm : mOf x < p.M)
    (ht : tOf x < p.T) : bkt x ∈ buckets p := by
  rw [bkt_eq]
  simp [buckets, Finset.mem_product, hi, hm, ht]

theorem same_bucket_same_col (x y : Idx4) (hb : bkt x = bkt y) (hj : jOf x = jOf y) :
    x = y := by
  obtain ⟨x1, x2, x3, x4⟩ := x
  obtain ⟨y1, y2, y3, y4⟩ := y
  simp only [bkt, jOf, Prod.ext_iff] at hb hj ⊢
  exact ⟨hb.1, ⟨hj, ⟨hb.2.1, hb.2.2⟩⟩⟩

theorem GInv_commit_general (p : Prob) (s s' : GState) (x : Idx4) (n : Int)
    (hs : s'.sol = bump4 s.sol x n) (ha : s'.avail = bump3 s.avail (bkt x) (-n))
    (hi : iOf x < p.C) (hj : jOf x < p.C) (hm : mOf x < p.M) (ht : tOf x < p.T)
    (hn : n ≤ s.avail (bkt x)) (hg : GInv p s) : GInv p s' := by
  obtain ⟨hg1, hg2⟩ := hg
  constructor
  · intro b hb
    rw [hs, ha, sumSolJ_bump4 p b s.sol x n hj]
    unfold bump3
    rw [hg1 b hb]
    by_cases hbe : b = bkt x
    · subst hbe
      rw [if_pos rfl, if_pos (bkt_eq x).symm]
      ring
    · rw [if_neg hbe, if_neg (fun hc => hbe (by rw [← hc, bkt_eq]))]
      ring
  · intro b hb
    rw [ha]
    unfold bump3
    by_cases hbe : b = bkt x
    · subst hbe
      have := hg2 (bkt x) hb
      simp only [if_pos rfl]
      omega
    · rw [if_neg hbe]
      have := hg2 b hb
      omega

theorem doneJ_congr_col (p : Prob) (j : Nat) (sol sol2 : Idx4 → Int)
    (h : ∀ x : Idx4, jOf x = j → sol2 x = sol x) :
    doneJ p j sol2 = doneJ p j sol := by
  unfold doneJ
  apply Finset.sum_congr rfl
  intro b _
  rw [h (b.1, j, b.2.1, b.2.2) rfl]

theorem commitIdx_i (j : Nat) (e0 : Idx4) : iOf (commitIdx j e0) = iOf e0 := rfl

theorem commitIdx_j (j : Nat) (e0 : Idx4) : jOf (commitIdx j e0) = j := rfl

theorem commitIdx_m (j : Nat) (e0 : Idx4) : mOf (commitIdx j e0) = mOf e0 := rfl

theorem commitIdx_t (j : Nat) (e0 : Idx4) : tOf (commitIdx j e0) = tOf e0 := rfl

theorem commitIdx_bkt (j : Nat) (e0 : Idx4) : bkt (commitIdx j e0) = bkt e0 := rfl

theorem commitN_bounds (p : Prob) (demand : Int) (e0 : Idx4) (s : GState)
    (hdem : 0 < demand) (hact1 : 1 ≤ p.act (mOf e0)) (hav : 0 < s.avail (bkt e0)) :
    1 ≤ commitN p demand e0 s ∧ commitN p demand e0 s ≤ s.avail (bkt e0) := by
  unfold commitN
  have hediv : 0 ≤ demand.ediv (p.act (mOf e0)) := Int.ediv_nonneg (by omega) (by omega)
  by_cases h0 : min (demand.ediv (p.act (mOf e0))) (s.avail (bkt e0)) = 0
  · rw [if_pos h0]
    omega
  · rw [if_neg h0]
    constructor
    · omega
    · exact min_le_right _ _

theorem commitState_sol (p : Prob) (j : Nat) (demand : Int) (e0 : Idx4) (s : GState) :
    (commitState p j demand e0 s).sol =
      bump4 s.sol (commitIdx j e0) (commitN p demand e0 s) := rfl

theorem commitState_avail (p : Prob) (j : Nat) (demand : Int) (e0 : Idx4) (s : GState) :
    (commitState p j demand e0 s).avail =
      bump3 s.avail (bkt e0) (-(commitN p demand e0 s)) := rfl

/-- The commitment of `demand < act` forces `nusers = 1` (the overshoot
path); otherwise `nusers` is bounded and either exhausts the bucket or
leaves a residual demand below the type's capacity. -/
theorem commitN_cases (p : Prob) (demand : Int) (e0 : Idx4) (s : GState)
    (hdem : 0 < demand) (hact1 : 1 ≤ p.act (mOf e0)) (hav : 0 < s.avail (bkt e0)) :
    (demand < p.act (mOf e0) ∧ commitN p demand e0 s = 1) ∨
    (s.avail (bkt e0) = commitN p demand e0 s) ∨
    (demand - p.act (mOf e0) * commitN p demand e0 s < p.act (mOf e0)) := by
  unfold commitN
  set a := p.act (mOf e0) with ha
  set q := demand.ediv a with hq
  have hediv : 0 ≤ q := Int.ediv_nonneg (by omega) (by omega)
  have hmod := Int.ediv_add_emod demand a
  have hmodlt : demand.emod a < a := Int.emod_lt_of_pos demand (by omega)
  by_cases h0 : min q (s.avail (bkt e0)) = 0
  · rw [if_pos h0]
    left
    have hq0 : q = 0 := by omega
    constructor
    · by_contra hge
      push_neg at hge
      have : 1 ≤ q := by
        rw [hq]
        calc (1 : Int) = a / a := by
              rw [Int.ediv_self (by omega)]
          _ ≤ demand / a := by
              apply Int.ediv_le_ediv (by omega) hge
      omega
    · rfl
  · rw [if_neg h0]
    rcases le_total q (s.avail (bkt e0)) with hle | hle
    · right; right
      rw [min_eq_left hle]
      have : a * q + demand.emod a = demand := hmod
      omega
    · right; left
      rw [min_eq_right hle]

theorem count_le_one_nodup (l : List Idx4) (hnd : l.Nodup) (x : Idx4) :
    l.count x ≤ 1 := by
  induction l with
  | nil => simp
  | cons a t iht =>
    rcases List.nodup_cons.mp hnd with ⟨ha, ht⟩
    rw [List.count_cons]
    by_cases hxa : x = a
    · subst hxa
      have h0 : t.count x = 0 := List.count_eq_zero.mpr ha
      simp [h0]
    · have hbeq : (a == x) = false := beq_eq_false_iff_ne.mpr (Ne.symm hxa)
      rw [hbeq]
      have := iht ht
      simp only [Bool.false_eq_true, if_false]
      omega

theorem greedyCellLoop_exit (p : Prob) (j : Nat) (f : Nat) (demand : Int)
    (s : GState) (log : List Idx4) (h : ¬0 < demand) :
    greedyCellLoop p j (f + 1) demand s log = some (s, log, demand) := by
  unfold greedyCellLoop
  rw [if_neg h]

theorem greedyCellLoop_spec (p : Prob) (j : Nat) (hact : ∀ m < p.M, 1 ≤ p.act m)
    (hj : j < p.C) :
    ∀ (fuel : Nat) (demand : Int) (s : GState) (log : List Idx4)
      (s1 : GState) (log1 : List Idx4) (d1 : Int),
      greedyCellLoop p j fuel demand s log = some (s1, log1, d1) →
      GInv p s →
      (∀ e ∈ log, LogEntryWF p j e ∧ 1 ≤ s.sol e) →
      log.Nodup →
      (∀ e ∈ log, 0 < demand → s.avail (bkt e) = 0 ∨ demand < p.act (mOf e)) →
      (∀ x : Idx4, jOf x = j → x ∉ log → s.sol x = 0) →
      GInv p s1 ∧ d1 ≤ 0 ∧
      (∀ x, jOf x ≠ j → s1.sol x = s.sol x) ∧
      doneJ p j s1.sol = doneJ p j s.sol + (demand - d1) ∧
      (∀ e ∈ log1, LogEntryWF p j e ∧ 1 ≤ s1.sol e) ∧
      (∀ x : Idx4, log1.count x ≤ 1 ∨ -d1 < p.act (mOf x)) := by
  intro fuel
  induction fuel with
  | zero =>
    intro demand s log s1 log1 d1 h
    exact absurd h (by simp [greedyCellLoop])
  | succ f ih =>
    intro demand s log s1 log1 d1 h hg hlog hnd hav hcol
    by_cases hdem : 0 < demand
    · unfold greedyCellLoop at h
      rw [if_pos hdem] at h
      cases hscan : scanBest p s.avail s.usage demand
          (costs_order p (capFor p demand) j) none with
      | none =>
        rw [hscan] at h
        exact absurd h (by simp)
      | some r0 =>
        obtain ⟨e0, c0⟩ := r0
        rw [hscan] at h
        simp only at h
        -- facts about the scanned candidate
        have hsome := scanBest_some p s.avail s.usage demand _ none (e0, c0) hscan
        have hfacts : e0 ∈ costs_order p (capFor p demand) j ∧ 0 < s.avail (bkt e0) := by
          rcases hsome with h1 | h1
          · exact absurd h1 (by simp)
          · exact ⟨h1.1, h1.2.1⟩
        obtain ⟨hmemL, hpos⟩ := hfacts
        have hwf := (mem_cellCandidates p j e0).mp
          ((mem_costs_order p _ j e0).mp hmemL)
        obtain ⟨hwj, hwi, hwij, hwm, hwt, _⟩ := hwf
        have hact1 : 1 ≤ p.act (mOf e0) := hact (mOf e0) hwm
        obtain ⟨hn1, hnle⟩ := commitN_bounds p demand e0 s hdem hact1 hpos
        have hbktmem : bkt e0 ∈ buckets p := bkt_mem_buckets p e0 hwi hwm hwt
        have hg' : GInv p (commitState p j demand e0 s) := by
          apply GInv_commit_general p s _ (commitIdx j e0) (commitN p demand e0 s)
            (commitState_sol p j demand e0 s)
            (by rw [commitState_avail, commitIdx_bkt]) _ _ _ _ _ hg
          · rw [commitIdx_i]
            exact hwi
          · rw [commitIdx_j]
            exact hj
          · rw [commitIdx_m]
            exact hwm
          · rw [commitIdx_t]
            exact hwt
          · rw [commitIdx_bkt]
            exact hnle
        have hcs : ∀ x, (commitState p j demand e0 s).sol x =
            s.sol x + (if x = commitIdx j e0 then commitN p demand e0 s else 0) :=
          fun x => rfl
        have hca : ∀ b, (commitState p j demand e0 s).avail b =
            s.avail b + (if b = bkt e0 then -(commitN p demand e0 s) else 0) :=
          fun b => rfl
        have hdone : doneJ p j (commitState p j demand e0 s).sol =
            doneJ p j s.sol + p.act (mOf e0) * commitN p demand e0 s := by
          rw [commitState_sol,
            doneJ_bump4 p j s.sol (commitIdx j e0) (commitN p demand e0 s)
              ⟨hwi, hwm, hwt⟩,
            if_pos (commitIdx_j j e0)]
          rw [commitIdx_m]
        have hlocal : ∀ x, jOf x ≠ j →
            (commitState p j demand e0 s).sol x = s.sol x := by
          intro x hx
          rw [hcs, if_neg (fun hc => hx (by rw [hc, commitIdx_j])), add_zero]
        have hnewWF : LogEntryWF p j (commitIdx j e0) :=
          ⟨hwi, commitIdx_j j e0, hwm, hwt,
            fun hc => hwij (hc.trans (commitIdx_j j e0).symm)⟩
        have hbne : ∀ e ∈ log, e ≠ commitIdx j e0 → bkt e ≠ bkt e0 := by
          intro e he hne hb
          exact hne (same_bucket_same_col e (commitIdx j e0)
            (by rw [commitIdx_bkt]; exact hb)
            (by rw [commitIdx_j]; exact ((hlog e he).1).2.1))
        by_cases hd2 : 0 < demand - p.act (mOf e0) * commitN p demand e0 s
        · -- the loop continues: the committed index must then be fresh
          have hfresh : commitIdx j e0 ∉ log := by
            intro hmem
            rcases hav (commitIdx j e0) hmem hdem with h0 | h0
            · rw [commitIdx_bkt] at h0
              omega
            · rw [commitIdx_m] at h0
              have hq : demand.ediv (p.act (mOf e0)) = 0 :=
                Int.ediv_eq_zero_of_lt (by omega) h0
              have hn1e : commitN p demand e0 s = 1 := by
                unfold commitN
                rw [hq, min_eq_left (show (0 : Int) ≤ s.avail (bkt e0) from by omega)]
                simp
              rw [hn1e] at hd2
              omega
          have hA : ∀ e ∈ log ++ [commitIdx j e0],
              LogEntryWF p j e ∧ 1 ≤ (commitState p j demand e0 s).sol e := by
            intro e he
            rcases List.mem_append.mp he with he | he
            · obtain ⟨hw1, hw2⟩ := hlog e he
              refine ⟨hw1, ?_⟩
              rw [hcs, if_neg (fun hc => hfresh (by rw [← hc]; exact he))]
              omega
            · rw [List.mem_singleton.mp he]
              refine ⟨hnewWF, ?_⟩
              rw [hcs, if_pos rfl, hcol (commitIdx j e0) (commitIdx_j j e0) hfresh]
              omega
          have hB : (log ++ [commitIdx j e0]).Nodup := by
            rw [List.nodup_append]
            refine ⟨hnd, List.nodup_singleton _, ?_⟩
            intro x hx hx2
            rw [List.mem_singleton.mp hx2] at hx
            exact hfresh hx
          have hC : ∀ e ∈ log ++ [commitIdx j e0],
              0 < demand - p.act (mOf e0) * commitN p demand e0 s →
              (commitState p j demand e0 s).avail (bkt e) = 0 ∨
              demand - p.act (mOf e0) * commitN p demand e0 s < p.act (mOf e) := by
            intro e he _
            have hprod : 0 ≤ p.act (mOf e0) * commitN p demand e0 s :=
              mul_nonneg (by omega) (by omega)
            rcases List.mem_append.mp he with he | he
            · have hne : e ≠ commitIdx j e0 :=
                fun hc => hfresh (by rw [← hc]; exact he)
              rw [hca, if_neg (hbne e he hne), add_zero]
              rcases hav e he hdem with h0 | h0
              · exact Or.inl h0
              · right
                omega
            · rw [List.mem_singleton.mp he]
              rw [hca, commitIdx_bkt, if_pos rfl, commitIdx_m]
              rcases commitN_cases p demand e0 s hdem hact1 hpos with h2 | h2 | h2
              · -- forced single user: the loop would stop, contradiction
                rw [h2.2] at hd2
                omega
              · left
                omega
              · right
                exact h2
          have hD : ∀ x : Idx4, jOf x = j → x ∉ log ++ [commitIdx j e0] →
              (commitState p j demand e0 s).sol x = 0 := by
            intro x hxj hxm
            have hxne : x ≠ commitIdx j e0 := by
              intro hc
              exact hxm (by rw [hc]; simp)
            rw [hcs, if_neg hxne, add_zero]
            exact hcol x hxj (fun hc => hxm (List.mem_append_left _ hc))
          obtain ⟨c1, c2, c3, c4, c5, c6⟩ := ih
            (demand - p.act (mOf e0) * commitN p demand e0 s)
            (commitState p j demand e0 s) (log ++ [commitIdx j e0]) s1 log1 d1
            h hg' hA hB hC hD
          refine ⟨c1, c2, ?_, ?_, c5, c6⟩
          · intro x hx
            rw [c3 x hx, hlocal x hx]
          · rw [c4, hdone]
            ring
        · -- demand exhausted (possibly overshot): the next iteration exits
          cases f with
          | zero => exact absurd h (by simp [greedyCellLoop])
          | succ f2 =>
            rw [greedyCellLoop_exit p j f2 _ _ _ hd2] at h
            obtain h3 := Option.some_inj.mp h
            obtain ⟨hs1, hlog1, hd1⟩ : commitState p j demand e0 s = s1 ∧
                log ++ [commitIdx j e0] = log1 ∧
                demand - p.act (mOf e0) * commitN p demand e0 s = d1 := by
              rw [Prod.ext_iff] at h3
              obtain ⟨h31, h32⟩ := h3
              rw [Prod.ext_iff] at h32
              exact ⟨h31, h32.1, h32.2⟩
            subst hs1
            subst hlog1
            subst hd1
            refine ⟨hg', by omega, hlocal, by rw [hdone]; ring, ?_, ?_⟩
            · intro e he
              rcases List.mem_append.mp he with he | he
              · obtain ⟨hw1, hw2⟩ := hlog e he
                refine ⟨hw1, ?_⟩
                rw [hcs]
                by_cases hce : e = commitIdx j e0
                · rw [if_pos hce]
                  omega
                · rw [if_neg hce]
                  omega
              · rw [List.mem_singleton.mp he]
                refine ⟨hnewWF, ?_⟩
                rw [hcs, if_pos rfl]
                by_cases hmem : commitIdx j e0 ∈ log
                · have := (hlog _ hmem).2
                  omega
                · rw [hcol (commitIdx j e0) (commitIdx_j j e0) hmem]
                  omega
            · intro x
              by_cases hxe : x = commitIdx j e0
              · subst hxe
                by_cases hmem : commitIdx j e0 ∈ log
                · -- duplicated entry: only created by an overshooting final
                  -- push, whose type capacity exceeds the excess
                  right
                  rcases hav _ hmem hdem with h0 | h0
                  · rw [commitIdx_bkt] at h0
                    omega
                  · rw [commitIdx_m] at h0 ⊢
                    have hq : demand.ediv (p.act (mOf e0)) = 0 :=
                      Int.ediv_eq_zero_of_lt (by omega) h0
                    have hn1e : commitN p demand e0 s = 1 := by
                      unfold commitN
                      rw [hq, min_eq_left
                        (show (0 : Int) ≤ s.avail (bkt e0) from by omega)]
                      simp
                    rw [hn1e]
                    omega
                · left
                  rw [List.count_append]
                  have hc0 : log.count (commitIdx j e0) = 0 :=
                    List.count_eq_zero.mpr hmem
                  have hc1 : List.count (commitIdx j e0) [commitIdx j e0] = 1 := by
                    simp
                  omega
              · left
                rw [List.count_append]
                have h1 := count_le_one_nodup log hnd x
                have h2 : List.count x [commitIdx j e0] = 0 :=
                  List.count_eq_zero.mpr (fun hc => hxe (List.mem_singleton.mp hc))
                omega
    · rw [greedyCellLoop_exit p j f _ _ _ hdem] at h
      obtain h3 := Option.some_inj.mp h
      obtain ⟨hs1, hlog1, hd1⟩ : s = s1 ∧ log = log1 ∧ demand = d1 := by
        rw [Prod.ext_iff] at h3
        obtain ⟨h31, h32⟩ := h3
        rw [Prod.ext_iff] at h32
        exact ⟨h31, h32.1, h32.2⟩
      subst hs1
      subst hlog1
      subst hd1
      refine ⟨hg, by omega, fun x _ => rfl, by ring, hlog, ?_⟩
      intro x
      left
      exact count_le_one_nodup log hnd x

theorem rebalanceAux_spec (p : Prob) (j : Nat) (hj : j < p.C) :
    ∀ (fuel : Nat) (s : GState) (ex : Int) (log : List Idx4),
      (∀ e ∈ log, LogEntryWF p j e) →
      (∀ e ∈ log, 1 ≤ p.act (mOf e)) →
      (∀ e ∈ log, 1 ≤ s.sol e) →
      (∀ x : Idx4, log.count x ≤ 1 ∨ ex < p.act (mOf x)) →
      GInv p s → 0 ≤ ex →
      rebalanceAux p fuel s ex log = rebalanceSpecAux p fuel s ex log ∧
      GInv p (rebalanceAux p fuel s ex log).1 ∧
      0 ≤ (rebalanceAux p fuel s ex log).2 ∧
      (∀ x, jOf x ≠ j → (rebalanceAux p fuel s ex log).1.sol x = s.sol x) ∧
      doneJ p j (rebalanceAux p fuel s ex log).1.sol =
        doneJ p j s.sol - (ex - (rebalanceAux p fuel s ex log).2) := by
  intro fuel
  induction fuel with
  | zero =>
    intro s ex log _ _ _ _ hg hex
    rw [show rebalanceAux p 0 s ex log = (s, ex) from rfl]
    exact ⟨rfl, hg, hex, fun x _ => rfl, by ring⟩
  | succ f ih =>
    intro s ex log hwfe hacte hsol1 hcnt hg hex
    by_cases hx : 0 < ex
    · cases log with
      | nil =>
        rw [show rebalanceAux p (f + 1) s ex [] = (s, ex) from by
            unfold rebalanceAux
            rw [if_pos hx],
          show rebalanceSpecAux p (f + 1) s ex [] = (s, ex) from by
            unfold rebalanceSpecAux
            rw [if_pos hx]]
        exact ⟨rfl, hg, hex, fun x _ => rfl, by ring⟩
      | cons e rest =>
        have hwe := hwfe e (List.mem_cons_self e rest)
        obtain ⟨hwi, hwj, hwm, hwt, hwij⟩ := hwe
        have hbktmem : bkt e ∈ buckets p := bkt_mem_buckets p e hwi hwm hwt
        have hsole : 1 ≤ s.sol e := hsol1 e (List.mem_cons_self e rest)
        by_cases hrem : p.act (mOf e) ≤ ex
        · -- removal step: one user taken out of e
          have hcnt1 : (e :: rest).count e ≤ 1 := by
            rcases hcnt e with hc | hc
            · exact hc
            · omega
          have hnotr : e ∉ rest := by
            intro hmem
            have h1 : 1 ≤ rest.count e := List.one_le_count_iff.mpr hmem
            rw [List.count_cons] at hcnt1
            simp at hcnt1
            omega
          set s2 : GState :=
            { s with
              sol := bump4 s.sol e (-1)
              avail := bump3 s.avail (bkt e) 1
              obj := s.obj - p.costs e } with hs2
          have hstepA0 : rebalanceAux p (f + 1) s ex (e :: rest) =
              (if 0 < ex then
                (if p.act (mOf e) ≤ ex then
                  rebalanceAux p f s2 (ex - p.act (mOf e))
                    (if s2.sol e = 0 then rest else e :: rest)
                else rebalanceAux p f s ex rest)
              else (s, ex)) := rfl
          have hstepS0 : rebalanceSpecAux p (f + 1) s ex (e :: rest) =
              (if 0 < ex then
                (if p.act (mOf e) ≤ ex ∧ 0 < s.sol e then
                  rebalanceSpecAux p f s2 (ex - p.act (mOf e))
                    (if s2.sol e = 0 then rest else e :: rest)
                else rebalanceSpecAux p f s ex rest)
              else (s, ex)) := rfl
          have hstepA : rebalanceAux p (f + 1) s ex (e :: rest) =
              rebalanceAux p f s2 (ex - p.act (mOf e))
                (if s2.sol e = 0 then rest else e :: rest) := by
            rw [hstepA0, if_pos hx, if_pos hrem]
          have hstepS : rebalanceSpecAux p (f + 1) s ex (e :: rest) =
              rebalanceSpecAux p f s2 (ex - p.act (mOf e))
                (if s2.sol e = 0 then rest else e :: rest) := by
            rw [hstepS0, if_pos hx,
              if_pos (⟨hrem, by omega⟩ : p.act (mOf e) ≤ ex ∧ 0 < s.sol e)]
          have hg2 : GInv p s2 := by
            apply GInv_commit_general p s s2 e (-1) rfl _ hwi (hwj ▸ hj) hwm hwt _ hg
            · show bump3 s.avail (bkt e) 1 = bump3 s.avail (bkt e) (-(-1))
              norm_num
            · have := hg.2 (bkt e) hbktmem
              omega
          have hs2sol : ∀ x, s2.sol x = s.sol x + (if x = e then -1 else 0) :=
            fun x => rfl
          have hsol2 : ∀ e2 ∈ (if s2.sol e = 0 then rest else e :: rest),
              1 ≤ s2.sol e2 := by
            intro e2 he2
            by_cases hz : s2.sol e = 0
            · rw [if_pos hz] at he2
              have hne : e2 ≠ e := fun hc => hnotr (hc ▸ he2)
              rw [hs2sol, if_neg hne, add_zero]
              exact hsol1 e2 (List.mem_cons_of_mem e he2)
            · rw [if_neg hz] at he2
              rcases List.mem_cons.mp he2 with he2 | he2
              · subst he2
                have : s2.sol e2 = s.sol e2 - 1 := by
                  rw [hs2sol, if_pos rfl]
                  ring
                omega
              · have hne : e2 ≠ e := fun hc => hnotr (hc ▸ he2)
                rw [hs2sol, if_neg hne, add_zero]
                exact hsol1 e2 (List.mem_cons_of_mem e he2)
          have hsub : ∀ e2 ∈ (if s2.sol e = 0 then rest else e :: rest),
              e2 ∈ e :: rest := by
            intro e2 he2
            by_cases hz : s2.sol e = 0
            · rw [if_pos hz] at he2
              exact List.mem_cons_of_mem e he2
            · rw [if_neg hz] at he2
              exact he2
          have hcnt2 : ∀ x : Idx4,
              ((if s2.sol e = 0 then rest else e :: rest).count x ≤ 1 ∨
                ex - p.act (mOf e) < p.act (mOf x)) := by
            intro x
            rcases hcnt x with hc | hc
            · left
              by_cases hz : s2.sol e = 0
              · rw [if_pos hz]
                rw [List.count_cons] at hc
                omega
              · rw [if_neg hz]
                exact hc
            · right
              have := hacte e (List.mem_cons_self e rest)
              omega
          obtain ⟨r1, r2, r3, r4, r5⟩ := ih s2 (ex - p.act (mOf e))
            (if s2.sol e = 0 then rest else e :: rest)
            (fun e2 he2 => hwfe e2 (hsub e2 he2))
            (fun e2 he2 => hacte e2 (hsub e2 he2))
            hsol2 hcnt2 hg2 (by omega)
          rw [hstepA, hstepS] at *
          refine ⟨r1, r2, r3, ?_, ?_⟩
          · intro x hxj
            rw [r4 x hxj, hs2sol, if_neg (fun hc => hxj (by rw [hc]; exact hwj)),
              add_zero]
          · rw [r5]
            have hd2 : doneJ p j s2.sol = doneJ p j s.sol - p.act (mOf e) := by
              have : s2.sol = bump4 s.sol e (-1) := rfl
              rw [this, doneJ_bump4 p j s.sol e (-1) ⟨hwi, hwm, hwt⟩, if_pos hwj]
              ring
            rw [hd2]
            ring
        · -- the entry does more activities than the excess: advance
          have hstepA0 : rebalanceAux p (f + 1) s ex (e :: rest) =
              (if 0 < ex then
                (if p.act (mOf e) ≤ ex then
                  rebalanceAux p f
                    { s with
                      sol := bump4 s.sol e (-1)
                      avail := bump3 s.avail (bkt e) 1
                      obj := s.obj - p.costs e } (ex - p.act (mOf e))
                    (if bump4 s.sol e (-1) e = 0 then rest else e :: rest)
                else rebalanceAux p f s ex rest)
              else (s, ex)) := rfl
          have hstepS0 : rebalanceSpecAux p (f + 1) s ex (e :: rest) =
              (if 0 < ex then
                (if p.act (mOf e) ≤ ex ∧ 0 < s.sol e then
                  rebalanceSpecAux p f
                    { s with
                      sol := bump4 s.sol e (-1)
                      avail := bump3 s.avail (bkt e) 1
                      obj := s.obj - p.costs e } (ex - p.act (mOf e))
                    (if bump4 s.sol e (-1) e = 0 then rest else e :: rest)
                else rebalanceSpecAux p f s ex rest)
              else (s, ex)) := rfl
          have hstepA : rebalanceAux p (f + 1) s ex (e :: rest) =
              rebalanceAux p f s ex rest := by
            rw [hstepA0, if_pos hx, if_neg hrem]
          have hstepS : rebalanceSpecAux p (f + 1) s ex (e :: rest) =
              rebalanceSpecAux p f s ex rest := by
            rw [hstepS0, if_pos hx, if_neg (fun hc => hrem hc.1)]
          have hcnt2 : ∀ x : Idx4, rest.count x ≤ 1 ∨ ex < p.act (mOf x) := by
            intro x
            rcases hcnt x with hc | hc
            · left
              rw [List.count_cons] at hc
              omega
            · exact Or.inr hc
          obtain ⟨r1, r2, r3, r4, r5⟩ := ih s ex rest
            (fun e2 he2 => hwfe e2 (List.mem_cons_of_mem e he2))
            (fun e2 he2 => hacte e2 (List.mem_cons_of_mem e he2))
            (fun e2 he2 => hsol1 e2 (List.mem_cons_of_mem e he2))
            hcnt2 hg hex
          rw [hstepA, hstepS] at *
          exact ⟨r1, r2, r3, r4, r5⟩
    · rw [show rebalanceAux p (f + 1) s ex log = (s, ex) from by
          unfold rebalanceAux
          rw [if_neg hx],
        show rebalanceSpecAux p (f + 1) s ex log = (s, ex) from by
          unfold rebalanceSpecAux
          rw [if_neg hx]]
      exact ⟨rfl, hg, hex, fun x _ => rfl, by ring⟩

theorem count_perm (x : Idx4) : ∀ {l1 l2 : List Idx4}, l1.Perm l2 →
    l1.count x = l2.count x := by
  intro l1 l2 h
  induction h with
  | nil => rfl
  | cons a _ ih => rw [List.count_cons, List.count_cons, ih]
  | swap a b l =>
    rw [List.count_cons, List.count_cons, List.count_cons, List.count_cons]
    omega
  | trans _ _ ih1 ih2 => rw [ih1, ih2]

theorem greedyCell_spec (p : Prob) (j : Nat) (hact : ∀ m < p.M, 1 ≤ p.act m)
    (hj : j < p.C) (fuel : Nat) (s s2 : GState)
    (h : greedyCell p fuel j s = some s2)
    (hg : GInv p s)
    (hcol0 : ∀ x, jOf x = j → s.sol x = 0) :
    GInv p s2 ∧ (∀ x, jOf x ≠ j → s2.sol x = s.sol x) ∧
    doneJ p j s.sol + p.activities j ≤ doneJ p j s2.sol := by
  cases hloop : greedyCellLoop p j fuel (p.activities j) s [] with
  | none =>
    rw [show greedyCell p fuel j s = none from by
      unfold greedyCell
      rw [hloop]] at h
    exact absurd h (by simp)
  | some r =>
    obtain ⟨s1, log1, d1⟩ := r
    rw [show greedyCell p fuel j s =
        (if d1 < 0 then some (rebalanceAux p fuel s1 (-d1) (sortDesc p log1)).1
        else some s1) from by
      unfold greedyCell
      rw [hloop]] at h
    obtain ⟨hg1, hd1, hloc1, hdone1, hwf1, hcnt1⟩ :=
      greedyCellLoop_spec p j hact hj fuel (p.activities j) s [] s1 log1 d1 hloop
        hg (by simp) List.nodup_nil (by simp) (fun x hxj _ => hcol0 x hxj)
    by_cases hneg : d1 < 0
    · rw [if_pos hneg] at h
      have hperm : (sortDesc p log1).Perm log1 := List.perm_insertionSort _ _
      have hmem : ∀ e ∈ sortDesc p log1, e ∈ log1 := fun e he => hperm.mem_iff.mp he
      obtain ⟨_, hg2, hex2, hloc2, hdone2⟩ :=
        rebalanceAux_spec p j hj fuel s1 (-d1) (sortDesc p log1)
          (fun e he => (hwf1 e (hmem e he)).1)
          (fun e he => hact (mOf e) (hwf1 e (hmem e he)).1.2.2.1)
          (fun e he => (hwf1 e (hmem e he)).2)
          (fun x => by
            rcases hcnt1 x with hc | hc
            · left
              rw [count_perm x hperm]
              exact hc
            · exact Or.inr hc)
          hg1 (by omega)
      have hs2 : s2 = (rebalanceAux p fuel s1 (-d1) (sortDesc p log1)).1 :=
        (Option.some_inj.mp h).symm
      subst hs2
      refine ⟨hg2, ?_, ?_⟩
      · intro x hxj
        rw [hloc2 x hxj, hloc1 x hxj]
      · rw [hdone2, hdone1]
        omega
    · rw [if_neg hneg] at h
      have hs2 : s2 = s1 := (Option.some_inj.mp h).symm
      subst hs2
      refine ⟨hg1, hloc1, ?_⟩
      rw [hdone1]
      omega

theorem doneJ_eq_zero (p : Prob) (j : Nat) (sol : Idx4 → Int)
    (h : ∀ x : Idx4, jOf x = j → sol x = 0) : doneJ p j sol = 0 := by
  unfold doneJ
  apply Finset.sum_eq_zero
  intro b _
  rw [h (b.1, j, b.2.1, b.2.2) rfl, mul_zero]

theorem greedyGo_spec (p : Prob) (hact : ∀ m < p.M, 1 ≤ p.act m) (fuel : Nat) :
    ∀ (ord : List Nat) (s s2 : GState),
      greedyGo p fuel ord s = some s2 →
      GInv p s →
      (∀ j ∈ ord, j < p.C) →
      ord.Nodup →
      (∀ x : Idx4, jOf x ∈ ord → s.sol x = 0) →
      GInv p s2 ∧
      (∀ j ∈ ord, p.activities j ≤ doneJ p j s2.sol) ∧
      (∀ x : Idx4, jOf x ∉ ord → s2.sol x = s.sol x) := by
  intro ord
  induction ord with
  | nil =>
    intro s s2 h hg _ _ _
    have hs2 : s2 = s :=
      (Option.some_inj.mp (show some s = some s2 from h)).symm
    subst hs2
    exact ⟨hg, by simp, fun x _ => rfl⟩
  | cons j rest ih =>
    intro s s2 h hg hlt hnd hzero
    have hstep : greedyGo p fuel (j :: rest) s =
        (match greedyCell p fuel j s with
        | none => none
        | some s1 => greedyGo p fuel rest s1) := rfl
    cases hcell : greedyCell p fuel j s with
    | none =>
      rw [hstep, hcell] at h
      exact absurd h (by simp)
    | some s1 =>
      rw [hstep, hcell] at h
      replace h : greedyGo p fuel rest s1 = some s2 := h
      have hjC : j < p.C := hlt j (List.mem_cons_self j rest)
      have hjnr : j ∉ rest := (List.nodup_cons.mp hnd).1
      obtain ⟨hg1, hloc1, hdone1⟩ :=
        greedyCell_spec p j hact hjC fuel s s1 hcell hg
          (fun x hxj => hzero x (by rw [hxj]; exact List.mem_cons_self j rest))
      obtain ⟨hg2, hdone2, hloc2⟩ := ih s1 s2 h hg1
        (fun j2 hj2 => hlt j2 (List.mem_cons_of_mem j hj2))
        (List.nodup_cons.mp hnd).2
        (fun x hx => by
          rw [hloc1 x (fun hc => hjnr (hc ▸ hx))]
          exact hzero x (List.mem_cons_of_mem j hx))
      refine ⟨hg2, ?_, ?_⟩
      · intro j2 hj2
        rcases List.mem_cons.mp hj2 with hj2 | hj2
        · subst hj2
          have hcongr : doneJ p j2 s2.sol = doneJ p j2 s1.sol := by
            apply doneJ_congr_col
            intro x hxj
            exact hloc2 x (by rw [hxj]; exact hjnr)
          have hz : doneJ p j2 s.sol = 0 :=
            doneJ_eq_zero p j2 s.sol
              (fun x hxj => hzero x (by rw [hxj]; exact List.mem_cons_self j2 rest))
          rw [hcongr]
          omega
        · exact hdone2 j2 hj2
      · intro x hx
        rw [hloc2 x (fun hc => hx (List.mem_cons_of_mem j hc)),
          hloc1 x (fun hc => hx (by rw [hc]; exact List.mem_cons_self j rest))]

/-- Witness problem for the overshoot rebalance: one user of a type doing 3
activities against a demand of 2 forces an overshooting commit
(`min(2/3, 1) = 0`, bumped to one user), leaving `demand = -1`. -/
def probC5 : Prob where
  C := 2
  M := 1
  T := 1
  act := fun _ => 3
  activities := fun j => if j = 1 then 2 else 0
  avail := fun b => if b.1 = 0 then 1 else 0
  costs := fun _ => 1

def sC5 : GState :=
  { sol := fun _ => 0, avail := probC5.avail, usage := fun _ => 0, obj := 0 }

def sC5a : GState := commitState probC5 1 2 (0, 1, 0, 0) sC5

/-- **C5.** Greedy overshoot rebalance: after the demand loop of destination
`j` ends with negative demand, the rebalance walk of the insert log sorted by
non-increasing raw cost (`rebalanceAux`, lines 260-274: per removal one user
goes back to supply, its cost leaves the objective, `act_per_user[m]` is
added to the demand, and the walk stops once the demand is no longer
negative or the log is exhausted) coincides with the specified walk
(`rebalanceSpecAux`) that removes a user only when *both*
`act_per_user[m] ≤ -demand` *and* `solution[i,j,m,t] > 0` hold: the code's
single guard suffices because every logged entry still holds at least one
user when the walk reaches it. -/
theorem claim_C5 (p : Prob) (j : Nat) (hact : ∀ m < p.M, 1 ≤ p.act m)
    (hj : j < p.C) (fuel fuel2 : Nat) (s s1 : GState) (log1 : List Idx4)
    (d1 : Int)
    (hloop : greedyCellLoop p j fuel (p.activities j) s [] = some (s1, log1, d1))
    (hg : GInv p s) (hcol0 : ∀ x : Idx4, jOf x = j → s.sol x = 0)
    (hneg : d1 < 0) :
    rebalanceAux p fuel2 s1 (-d1) (sortDesc p log1) =
      rebalanceSpecAux p fuel2 s1 (-d1) (sortDesc p log1) := by
  obtain ⟨hg1, hd1, hloc1, hdone1, hwf1, hcnt1⟩ :=
    greedyCellLoop_spec p j hact hj fuel (p.activities j) s [] s1 log1 d1 hloop
      hg (by simp) List.nodup_nil (by simp) (fun x hxj _ => hcol0 x hxj)
  have hperm : (sortDesc p log1).Perm log1 := List.perm_insertionSort _ _
  have hmem : ∀ e ∈ sortDesc p log1, e ∈ log1 := fun e he => hperm.mem_iff.mp he
  exact (rebalanceAux_spec p j hj fuel2 s1 (-d1) (sortDesc p log1)
    (fun e he => (hwf1 e (hmem e he)).1)
    (fun e he => hact (mOf e) (hwf1 e (hmem e he)).1.2.2.1)
    (fun e he => (hwf1 e (hmem e he)).2)
    (fun x => by
      rcases hcnt1 x with hc | hc
      · left
        rw [count_perm x hperm]
        exact hc
      · exact Or.inr hc)
    hg1 (by omega)).1

theorem claim_C5_witness :
    rebalanceAux probC5 2 sC5a 1 (sortDesc probC5 [(0, 1, 0, 0)]) =
      rebalanceSpecAux probC5 2 sC5a 1 (sortDesc probC5 [(0, 1, 0, 0)]) := by
  have hloop : greedyCellLoop probC5 1 2 (probC5.activities 1) sC5 [] =
      some (sC5a, [(0, 1, 0, 0)], -1) := by with_unfolding_all rfl
  have hg : GInv probC5 sC5 := by
    unfold GInv
    decide
  have h := claim_C5 probC5 1 (by decide) (by decide) 2 2 sC5 sC5a
    [(0, 1, 0, 0)] (-1) hloop hg (fun x _ => rfl) (by decide)
  have h1 : (-(-1 : Int)) = 1 := rfl
  rw [h1] at h
  exact h

/-! ## The scarce-user greedy (`greedy_few_users`, lines 281-371)

Two passes over the per-cell remaining demands: the first conservative
(`enable_wasting = false`, adopting only candidates for which
`can_be_selected` holds), the second unrestricted.  Each commit moves a
single user.  `maxAct` is the `max_activities` the `activities_slots`
table was built with. -/

/-- The candidate scan of the inner while loop (lines 322-345):
`get_least_expensive` skips unavailable tuples; the walk breaks when the
effective cost exceeds the incumbent; a candidate is adopted when it is
eligible (`enable_wasting || can_be_selected(demand, m)`) and it is
cheaper, or does more activities per user, than the incumbent. -/
def scanFew (p : Prob) (maxAct : Nat) (avail : Idx3 → Int) (wasting : Bool)
    (demand : Int) : List Idx4 → Option (Idx4 × ℚ) → Option (Idx4 × ℚ)
  | [], best => best
  | e :: rest, best =>
    if avail (bkt e) ≤ 0 then scanFew p maxAct avail wasting demand rest best
    else
      match best with
      | none =>
        if wasting || can_be_selected p.act p.M maxAct demand (mOf e) then
          scanFew p maxAct avail wasting demand rest
            (some (e, effCost p demand e))
        else scanFew p maxAct avail wasting demand rest none
      | some (b, mc) =>
        if mc < effCost p demand e then some (b, mc)
        else if (wasting || can_be_selected p.act p.M maxAct demand (mOf e)) &&
            (decide (effCost p demand e < mc) ||
              decide (p.act (mOf b) < p.act (mOf e))) then
          scanFew p maxAct avail wasting demand rest
            (some (e, effCost p demand e))
        else scanFew p maxAct avail wasting demand rest (some (b, mc))

/-- Lines 359-363: move one user of the selected tuple, and update the
objective, the supply, and nothing else. -/
def commitFew (p : Prob) (j : Nat) (e0 : Idx4) (s : GState) : GState :=
  let idx := commitIdx j e0
  { sol := bump4 s.sol idx 1
    avail := bump3 s.avail (bkt idx) (-1)
    usage := s.usage
    obj := s.obj + p.costs idx }

/-- The `while(demand > 0)` loop of one cell (lines 311-364).  A failed scan
aborts the whole construction when wasting is enabled (`return +∞`, mapped
to `none`), and otherwise leaves the cell with its residual demand for the
second pass. -/
def fewCellLoop (p : Prob) (maxAct : Nat) (wasting : Bool) (j : Nat) :
    Nat → Int → GState → Option (GState × Int)
  | 0, _, _ => none
  | fuel + 1, demand, s =>
    if 0 < demand then
      match scanFew p maxAct s.avail wasting demand
          (costs_order p (capFor p demand) j) none with
      | none => if wasting then none else some (s, demand)
      | some (e0, _) =>
        fewCellLoop p maxAct wasting j fuel (demand - p.act (mOf e0))
          (commitFew p j e0 s)
    else some (s, demand)

/-- One pass over the `remaining_demand` vector (lines 302-366), updating
each cell's residual demand in place; in the first pass a cell whose demand
cannot be met without waste is skipped (`should_skip`). -/
def fewPass (p : Prob) (maxAct : Nat) (wasting : Bool) (fuel : Nat) :
    List (Nat × Int) → GState → Option (List (Nat × Int) × GState)
  | [], s => some ([], s)
  | (j, d) :: rest, s =>
    if !wasting && should_skip p.act p.M maxAct d then
      match fewPass p maxAct wasting fuel rest s with
      | none => none
      | some (rd, s2) => some ((j, d) :: rd, s2)
    else
      match fewCellLoop p maxAct wasting j fuel d s with
      | none => none
      | some (s1, d1) =>
        match fewPass p maxAct wasting fuel rest s1 with
        | none => none
        | some (rd, s2) => some ((j, d1) :: rd, s2)

/-- `coiote_solver::greedy_few_users`: reset, build the remaining-demand
vector from the visit order, run the conservative pass then the wasting
pass.  `none` models the `+∞` return. -/
def greedy_few_users (p : Prob) (maxAct : Nat) (fuel : Nat) (order : List Nat)
    (usage0 : Idx3 → ℚ) : Option GState :=
  match fewPass p maxAct false fuel
      (order.map fun j => (j, p.activities j))
      { sol := fun _ => 0, avail := p.avail, usage := usage0, obj := 0 } with
  | none => none
  | some (rd1, s1) =>
    match fewPass p maxAct true fuel rd1 s1 with
    | none => none
    | some (_, s2) => some s2

theorem scanFew_eligible (p : Prob) (maxAct : Nat) (avail : Idx3 → Int)
    (demand : Int) :
    ∀ (l : List Idx4) (best : Option (Idx4 × ℚ)) (r : Idx4 × ℚ),
      scanFew p maxAct avail false demand l best = some r →
      best = some r ∨
        (r.1 ∈ l ∧ 0 < avail (bkt r.1) ∧
          can_be_selected p.act p.M maxAct demand (mOf r.1) = true) := by
  intro l
  induction l with
  | nil =>
    intro best r h
    exact Or.inl h
  | cons e rest ih =>
    intro best r h
    cases hbest : best with
    | none =>
      subst hbest
      have hstep : scanFew p maxAct avail false demand (e :: rest) none =
          (if avail (bkt e) ≤ 0 then scanFew p maxAct avail false demand rest none
          else if can_be_selected p.act p.M maxAct demand (mOf e) then
            scanFew p maxAct avail false demand rest
              (some (e, effCost p demand e))
          else scanFew p maxAct avail false demand rest none) := rfl
      rw [hstep] at h
      by_cases hav : avail (bkt e) ≤ 0
      · rw [if_pos hav] at h
        rcases ih none r h with h1 | h1
        · exact absurd h1 (by simp)
        · exact Or.inr ⟨List.mem_cons_of_mem e h1.1, h1.2⟩
      · rw [if_neg hav] at h
        by_cases hel : can_be_selected p.act p.M maxAct demand (mOf e) = true
        · rw [if_pos hel] at h
          rcases ih (some (e, effCost p demand e)) r h with h1 | h1
          · have hr : r.1 = e := by
              rw [← Option.some_inj.mp h1]
            right
            rw [hr]
            exact ⟨List.mem_cons_self e rest, not_le.mp hav, hel⟩
          · exact Or.inr ⟨List.mem_cons_of_mem e h1.1, h1.2⟩
        · rw [if_neg hel] at h
          rcases ih none r h with h1 | h1
          · exact absurd h1 (by simp)
          · exact Or.inr ⟨List.mem_cons_of_mem e h1.1, h1.2⟩
    | some bm =>
      obtain ⟨b, mc⟩ := bm
      subst hbest
      have hstep : scanFew p maxAct avail false demand (e :: rest) (some (b, mc)) =
          (if avail (bkt e) ≤ 0 then
            scanFew p maxAct avail false demand rest (some (b, mc))
          else if mc < effCost p demand e then some (b, mc)
          else if can_be_selected p.act p.M maxAct demand (mOf e) &&
              (decide (effCost p demand e < mc) ||
                decide (p.act (mOf b) < p.act (mOf e))) then
            scanFew p maxAct avail false demand rest
              (some (e, effCost p demand e))
          else scanFew p maxAct avail false demand rest (some (b, mc))) := rfl
      rw [hstep] at h
      by_cases hav : avail (bkt e) ≤ 0
      · rw [if_pos hav] at h
        rcases ih (some (b, mc)) r h with h1 | h1
        · exact Or.inl h1
        · exact Or.inr ⟨List.mem_cons_of_mem e h1.1, h1.2⟩
      · rw [if_neg hav] at h
        by_cases hbr : mc < effCost p demand e
        · rw [if_pos hbr] at h
          exact Or.inl h
        · rw [if_neg hbr] at h
          by_cases hguard : (can_be_selected p.act p.M maxAct demand (mOf e) &&
              (decide (effCost p demand e < mc) ||
                decide (p.act (mOf b) < p.act (mOf e)))) = true
          · rw [if_pos hguard] at h
            rcases ih (some (e, effCost p demand e)) r h with h1 | h1
            · rw [Bool.and_eq_true] at hguard
              have hel : can_be_selected p.act p.M maxAct demand (mOf e) = true :=
                hguard.1
              have hr : r.1 = e := by
                rw [← Option.some_inj.mp h1]
              right
              rw [hr]
              exact ⟨List.mem_cons_self e rest, not_le.mp hav, hel⟩
            · exact Or.inr ⟨List.mem_cons_of_mem e h1.1, h1.2⟩
          · rw [if_neg hguard] at h
            rcases ih (some (b, mc)) r h with h1 | h1
            · exact Or.inl h1
            · exact Or.inr ⟨List.mem_cons_of_mem e h1.1, h1.2⟩

theorem scanFew_some (p : Prob) (maxAct : Nat) (avail : Idx3 → Int)
    (wasting : Bool) (demand : Int) :
    ∀ (l : List Idx4) (best : Option (Idx4 × ℚ)) (r : Idx4 × ℚ),
      scanFew p maxAct avail wasting demand l best = some r →
      best = some r ∨ (r.1 ∈ l ∧ 0 < avail (bkt r.1)) := by
  intro l
  induction l with
  | nil =>
    intro best r h
    exact Or.inl h
  | cons e rest ih =>
    intro best r h
    cases hbest : best with
    | none =>
      subst hbest
      have hstep : scanFew p maxAct avail wasting demand (e :: rest) none =
          (if avail (bkt e) ≤ 0 then
            scanFew p maxAct avail wasting demand rest none
          else if wasting || can_be_selected p.act p.M maxAct demand (mOf e) then
            scanFew p maxAct avail wasting demand rest
              (some (e, effCost p demand e))
          else scanFew p maxAct avail wasting demand rest none) := rfl
      rw [hstep] at h
      by_cases hav : avail (bkt e) ≤ 0
      · rw [if_pos hav] at h
        rcases ih none r h with h1 | h1
        · exact absurd h1 (by simp)
        · exact Or.inr ⟨List.mem_cons_of_mem e h1.1, h1.2⟩
      · rw [if_neg hav] at h
        by_cases hel : (wasting || can_be_selected p.act p.M maxAct demand (mOf e)) = true
        · rw [if_pos hel] at h
          rcases ih (some (e, effCost p demand e)) r h with h1 | h1
          · have hr : r.1 = e := by
              rw [← Option.some_inj.mp h1]
            exact Or.inr ⟨hr ▸ List.mem_cons_self e rest, hr ▸ not_le.mp hav⟩
          · exact Or.inr ⟨List.mem_cons_of_mem e h1.1, h1.2⟩
        · rw [if_neg hel] at h
          rcases ih none r h with h1 | h1
          · exact absurd h1 (by simp)
          · exact Or.inr ⟨List.mem_cons_of_mem e h1.1, h1.2⟩
    | some bm =>
      obtain ⟨b, mc⟩ := bm
      subst hbest
      have hstep : scanFew p maxAct avail wasting demand (e :: rest) (some (b, mc)) =
          (if avail (bkt e) ≤ 0 then
            scanFew p maxAct avail wasting demand rest (some (b, mc))
          else if mc < effCost p demand e then some (b, mc)
          else if (wasting || can_be_selected p.act p.M maxAct demand (mOf e)) &&
              (decide (effCost p demand e < mc) ||
                decide (p.act (mOf b) < p.act (mOf e))) then
            scanFew p maxAct avail wasting demand rest
              (some (e, effCost p demand e))
          else scanFew p maxAct avail wasting demand rest (some (b, mc))) := rfl
      rw [hstep] at h
      by_cases hav : avail (bkt e) ≤ 0
      · rw [if_pos hav] at h
        rcases ih (some (b, mc)) r h with h1 | h1
        · exact Or.inl h1
        · exact Or.inr ⟨List.mem_cons_of_mem e h1.1, h1.2⟩
      · rw [if_neg hav] at h
        by_cases hbr : mc < effCost p demand e
        · rw [if_pos hbr] at h
          exact Or.inl h
        · rw [if_neg hbr] at h
          by_cases hguard : ((wasting || can_be_selected p.act p.M maxAct demand (mOf e)) &&
              (decide (effCost p demand e < mc) ||
                decide (p.act (mOf b) < p.act (mOf e)))) = true
          · rw [if_pos hguard] at h
            rcases ih (some (e, effCost p demand e)) r h with h1 | h1
            · have hr : r.1 = e := by
                rw [← Option.some_inj.mp h1]
              exact Or.inr ⟨hr ▸ List.mem_cons_self e rest, hr ▸ not_le.mp hav⟩
            · exact Or.inr ⟨List.mem_cons_of_mem e h1.1, h1.2⟩
          · rw [if_neg hguard] at h
            rcases ih (some (b, mc)) r h with h1 | h1
            · exact Or.inl h1
            · exact Or.inr ⟨List.mem_cons_of_mem e h1.1, h1.2⟩

theorem fewCellLoop_spec (p : Prob) (maxAct : Nat) (j : Nat)
    (hact : ∀ m < p.M, 1 ≤ p.act m) (hj : j < p.C) (wasting : Bool) :
    ∀ (fuel : Nat) (d : Int) (s : GState) (s1 : GState) (d1 : Int),
      fewCellLoop p maxAct wasting j fuel d s = some (s1, d1) →
      GInv p s →
      GInv p s1 ∧
      (∀ x, jOf x ≠ j → s1.sol x = s.sol x) ∧
      doneJ p j s1.sol = doneJ p j s.sol + (d - d1) ∧
      (wasting = true → d1 ≤ 0) ∧
      (wasting = false → 0 ≤ d → 0 ≤ d1) := by
  intro fuel
  induction fuel with
  | zero =>
    intro d s s1 d1 h
    rw [show fewCellLoop p maxAct wasting j 0 d s = none from rfl] at h
    exact absurd h (by simp)
  | succ f ih =>
    intro d s s1 d1 h hg
    have hstep0 : fewCellLoop p maxAct wasting j (f + 1) d s =
        (if 0 < d then
          match scanFew p maxAct s.avail wasting d
              (costs_order p (capFor p d) j) none with
          | none => if wasting then none else some (s, d)
          | some (e0, _) =>
            fewCellLoop p maxAct wasting j f (d - p.act (mOf e0))
              (commitFew p j e0 s)
        else some (s, d)) := rfl
    by_cases hd : 0 < d
    · rw [hstep0, if_pos hd] at h
      cases hscan : scanFew p maxAct s.avail wasting d
          (costs_order p (capFor p d) j) none with
      | none =>
        rw [hscan] at h
        replace h : (if wasting = true then none else some (s, d)) =
            some (s1, d1) := h
        cases hw : wasting with
        | true =>
          rw [hw, if_pos rfl] at h
          exact absurd h (by simp)
        | false =>
          rw [hw] at h
          rw [if_neg (by simp)] at h
          obtain ⟨hs1, hd1⟩ := Prod.mk.inj (Option.some_inj.mp h)
          subst hs1
          subst hd1
          refine ⟨hg, fun x _ => rfl, by ring, ?_, ?_⟩
          · intro hc
            exact absurd hc (by simp)
          · intro _ hd0
            omega
      | some r =>
        obtain ⟨e0, c⟩ := r
        rw [hscan] at h
        replace h : fewCellLoop p maxAct wasting j f (d - p.act (mOf e0))
            (commitFew p j e0 s) = some (s1, d1) := h
        have hsome := scanFew_some p maxAct s.avail wasting d _ none (e0, c) hscan
        have hfacts : e0 ∈ costs_order p (capFor p d) j ∧ 0 < s.avail (bkt e0) := by
          rcases hsome with h1 | h1
          · exact absurd h1.symm (by simp)
          · exact h1
        have hmem := (mem_cellCandidates p j e0).mp
          ((mem_costs_order p (capFor p d) j e0).mp hfacts.1)
        obtain ⟨hje, hie, hine, hme, hte, _⟩ := hmem
        have hidx : commitIdx j e0 = e0 := by
          obtain ⟨i, j', m, t⟩ := e0
          simp only [commitIdx, iOf, mOf, tOf]
          simp only [jOf] at hje
          rw [hje]
        have hbkidx : bkt (commitIdx j e0) = bkt e0 := by rw [hidx]
        have hg2 : GInv p (commitFew p j e0 s) := by
          apply GInv_commit_general p s (commitFew p j e0 s) (commitIdx j e0) 1
              rfl rfl
          · rw [hidx]
            exact hie
          · show jOf (commitIdx j e0) < p.C
            obtain ⟨i, j', m, t⟩ := e0
            exact hj
          · rw [hidx]
            exact hme
          · rw [hidx]
            exact hte
          · rw [hbkidx]
            omega
          · exact hg
        obtain ⟨ihg, ihloc, ihdone, ihw, ihnw⟩ :=
          ih (d - p.act (mOf e0)) (commitFew p j e0 s) s1 d1 h hg2
        have hjidx : jOf (commitIdx j e0) = j := by
          obtain ⟨i, j', m, t⟩ := e0
          rfl
        have hcommitsol : (commitFew p j e0 s).sol =
            bump4 s.sol (commitIdx j e0) 1 := rfl
        refine ⟨ihg, ?_, ?_, ihw, ?_⟩
        · intro x hxj
          rw [ihloc x hxj, hcommitsol]
          unfold bump4
          rw [if_neg (fun hc => hxj (by rw [hc]; exact hjidx)), add_zero]
        · rw [ihdone, hcommitsol,
            doneJ_bump4 p j s.sol (commitIdx j e0) 1
              (by rw [hidx]; exact ⟨hie, hme, hte⟩),
            if_pos hjidx]
          rw [hidx]
          ring
        · intro hw hd0
          apply ihnw hw
          rcases scanFew_eligible p maxAct s.avail d _ none (e0, c)
              (hw ▸ hscan) with h1 | h1
          · exact absurd h1.symm (by simp)
          · have hle := can_be_selected_imp_le p.act p.M maxAct d (mOf e0)
              hact (by omega) hme h1.2.2
            omega
    · rw [hstep0, if_neg hd] at h
      obtain ⟨hs1, hd1⟩ := Prod.mk.inj (Option.some_inj.mp h)
      subst hs1
      subst hd1
      refine ⟨hg, fun x _ => rfl, by ring, ?_, ?_⟩
      · intro _
        omega
      · intro _ hd0
        omega

theorem forall2_imp_mem {α β : Type} {R S : α → β → Prop} :
    ∀ {l1 : List α} {l2 : List β}, List.Forall₂ R l1 l2 →
      (∀ a b, a ∈ l1 → R a b → S a b) → List.Forall₂ S l1 l2 := by
  intro l1 l2 h
  induction h with
  | nil => exact fun _ => List.Forall₂.nil
  | cons hab htail ih =>
    intro himp
    exact List.Forall₂.cons (himp _ _ (List.mem_cons_self _ _) hab)
      (ih fun a b ha hr => himp a b (List.mem_cons_of_mem _ ha) hr)

theorem fewPass_spec (p : Prob) (maxAct : Nat) (hact : ∀ m < p.M, 1 ≤ p.act m)
    (wasting : Bool) (fuel : Nat) :
    ∀ (rd : List (Nat × Int)) (s : GState) (rd1 : List (Nat × Int)) (s1 : GState),
      fewPass p maxAct wasting fuel rd s = some (rd1, s1) →
      GInv p s →
      (∀ e ∈ rd, e.1 < p.C) →
      (rd.map Prod.fst).Nodup →
      GInv p s1 ∧
      (∀ x : Idx4, jOf x ∉ rd.map Prod.fst → s1.sol x = s.sol x) ∧
      List.Forall₂ (fun a b => a.1 = b.1 ∧
        doneJ p a.1 s1.sol = doneJ p a.1 s.sol + (a.2 - b.2)) rd rd1 ∧
      (wasting = false → (∀ e ∈ rd, 0 ≤ e.2) → ∀ e ∈ rd1, 0 ≤ e.2) ∧
      (wasting = true → ∀ e ∈ rd1, e.2 ≤ 0) := by
  intro rd
  induction rd with
  | nil =>
    intro s rd1 s1 h hg _ _
    obtain ⟨hrd1, hs1⟩ := Prod.mk.inj
      (Option.some_inj.mp (show some (([] : List (Nat × Int)), s) = some (rd1, s1) from h))
    subst hrd1
    subst hs1
    exact ⟨hg, fun x _ => rfl, List.Forall₂.nil, fun _ _ e he => absurd he (by simp),
      fun _ e he => absurd he (by simp)⟩
  | cons a rest ih =>
    obtain ⟨j, d⟩ := a
    intro s rd1 s1 h hg hlt hnd
    have hstep : fewPass p maxAct wasting fuel ((j, d) :: rest) s =
        (if (!wasting && should_skip p.act p.M maxAct d) = true then
          match fewPass p maxAct wasting fuel rest s with
          | none => none
          | some (rd2, s2) => some ((j, d) :: rd2, s2)
        else
          match fewCellLoop p maxAct wasting j fuel d s with
          | none => none
          | some (s2, d2) =>
            match fewPass p maxAct wasting fuel rest s2 with
            | none => none
            | some (rd2, s3) => some ((j, d2) :: rd2, s3)) := rfl
    have hjC : j < p.C := hlt (j, d) (List.mem_cons_self _ rest)
    have hmapc : ((j, d) :: rest).map Prod.fst = j :: rest.map Prod.fst := rfl
    have hjnr : j ∉ rest.map Prod.fst := by
      rw [hmapc] at hnd
      exact (List.nodup_cons.mp hnd).1
    have hndr : (rest.map Prod.fst).Nodup := by
      rw [hmapc] at hnd
      exact (List.nodup_cons.mp hnd).2
    by_cases hskip : (!wasting && should_skip p.act p.M maxAct d) = true
    · rw [hstep, if_pos hskip] at h
      cases hrec : fewPass p maxAct wasting fuel rest s with
      | none =>
        rw [hrec] at h
        exact absurd h (by simp)
      | some r2 =>
        obtain ⟨rd2, s2⟩ := r2
        rw [hrec] at h
        replace h : some ((j, d) :: rd2, s2) = some (rd1, s1) := h
        obtain ⟨hrd1, hs1⟩ := Prod.mk.inj (Option.some_inj.mp h)
        subst hrd1
        subst hs1
        obtain ⟨ihg, ihloc, ihf2, ihnn, ihnp⟩ := ih s rd2 s2 hrec hg
          (fun e he => hlt e (List.mem_cons_of_mem _ he)) hndr
        refine ⟨ihg, ?_, ?_, ?_, ?_⟩
        · intro x hx
          rw [hmapc] at hx
          exact ihloc x (fun hc => hx (List.mem_cons_of_mem _ hc))
        · refine List.Forall₂.cons ⟨rfl, ?_⟩ ihf2
          have hcongr : doneJ p j s2.sol = doneJ p j s.sol :=
            doneJ_congr_col p j s.sol s2.sol
              (fun x hxj => ihloc x (by rw [hxj]; exact hjnr))
          rw [hcongr]
          ring
        · intro hw hnn e he
          rcases List.mem_cons.mp he with he | he
          · rw [he]
            exact hnn (j, d) (List.mem_cons_self _ rest)
          · exact ihnn hw (fun e2 he2 => hnn e2 (List.mem_cons_of_mem _ he2)) e he
        · intro hw
          rw [hw] at hskip
          exact absurd hskip (by simp)
    · rw [hstep, if_neg hskip] at h
      cases hcell : fewCellLoop p maxAct wasting j fuel d s with
      | none =>
        rw [hcell] at h
        exact absurd h (by simp)
      | some r2 =>
        obtain ⟨s2, d2⟩ := r2
        rw [hcell] at h
        replace h : (match fewPass p maxAct wasting fuel rest s2 with
            | none => none
            | some (rd2, s3) => some ((j, d2) :: rd2, s3)) = some (rd1, s1) := h
        cases hrec : fewPass p maxAct wasting fuel rest s2 with
        | none =>
          rw [hrec] at h
          exact absurd h (by simp)
        | some r3 =>
          obtain ⟨rd2, s3⟩ := r3
          rw [hrec] at h
          replace h : some ((j, d2) :: rd2, s3) = some (rd1, s1) := h
          obtain ⟨hrd1, hs1⟩ := Prod.mk.inj (Option.some_inj.mp h)
          subst hrd1
          subst hs1
          obtain ⟨cg, cloc, cdone, cw, cnw⟩ :=
            fewCellLoop_spec p maxAct j hact hjC wasting fuel d s s2 d2 hcell hg
          obtain ⟨ihg, ihloc, ihf2, ihnn, ihnp⟩ := ih s2 rd2 s3 hrec cg
            (fun e he => hlt e (List.mem_cons_of_mem _ he)) hndr
          refine ⟨ihg, ?_, ?_, ?_, ?_⟩
          · intro x hx
            rw [hmapc] at hx
            rw [ihloc x (fun hc => hx (List.mem_cons_of_mem _ hc))]
            exact cloc x (fun hc => hx (by rw [hc]; exact List.mem_cons_self _ _))
          · refine List.Forall₂.cons ⟨rfl, ?_⟩ ?_
            · have hcongr : doneJ p j s3.sol = doneJ p j s2.sol :=
                doneJ_congr_col p j s2.sol s3.sol
                  (fun x hxj => ihloc x (by rw [hxj]; exact hjnr))
              rw [hcongr, cdone]
            · refine forall2_imp_mem ihf2 ?_
              intro a b ha hr
              refine ⟨hr.1, ?_⟩
              have hane : a.1 ≠ j := by
                intro hc
                apply hjnr
                rw [← hc]
                exact List.mem_map_of_mem Prod.fst ha
              have hcongr : doneJ p a.1 s2.sol = doneJ p a.1 s.sol :=
                doneJ_congr_col p a.1 s.sol s2.sol
                  (fun x hxj => cloc x (by rw [hxj]; exact hane))
              rw [hr.2, hcongr]
          · intro hw hnn e he
            rcases List.mem_cons.mp he with he | he
            · rw [he]
              exact cnw hw (hnn (j, d) (List.mem_cons_self _ rest))
            · exact ihnn hw (fun e2 he2 => hnn e2 (List.mem_cons_of_mem _ he2)) e he
          · intro hw e he
            rcases List.mem_cons.mp he with he | he
            · rw [he]
              exact cw hw
            · exact ihnp hw e he

/-- Witness problem for the scarce-user pass: one type doing 2 activities
against a demand of 2, so the conservative pass can satisfy the cell
exactly, without waste. -/
def probC8 : Prob where
  C := 2
  M := 1
  T := 1
  act := fun _ => 2
  activities := fun j => if j = 1 then 2 else 0
  avail := fun b => if b.1 = 0 then 1 else 0
  costs := fun _ => 1

def sC8 : GState :=
  { sol := fun _ => 0, avail := probC8.avail, usage := fun _ => 0, obj := 0 }

def sC8a : GState := commitFew probC8 1 (0, 1, 0, 0) sC8

/-- **C8.** Scarce-user pass 1 never overshoots: with `enable_wasting =
false`, (i) any candidate the inner scan returns — hence every committed
user — satisfies `can_be_selected(demand, m)` for the residual demand the
scan was run with, and (ii) a completed first pass keeps every cell's
residual demand non-negative (no activity is wasted in pass 1). -/
theorem claim_C8 (p : Prob) (maxAct : Nat) (hact : ∀ m < p.M, 1 ≤ p.act m)
    (avail : Idx3 → Int) (demand : Int) (l : List Idx4) (r : Idx4 × ℚ)
    (hscan : scanFew p maxAct avail false demand l none = some r)
    (fuel : Nat) (rd rd1 : List (Nat × Int)) (s s1 : GState)
    (hpass : fewPass p maxAct false fuel rd s = some (rd1, s1))
    (hg : GInv p s) (hlt : ∀ e ∈ rd, e.1 < p.C)
    (hnd : (rd.map Prod.fst).Nodup) (hnn : ∀ e ∈ rd, 0 ≤ e.2) :
    can_be_selected p.act p.M maxAct demand (mOf r.1) = true ∧
    ∀ e ∈ rd1, 0 ≤ e.2 := by
  constructor
  · rcases scanFew_eligible p maxAct avail demand l none r hscan with h1 | h1
    · exact absurd h1.symm (by simp)
    · exact h1.2.2
  · exact (fewPass_spec p maxAct hact false fuel rd s rd1 s1 hpass hg hlt
      hnd).2.2.2.1 rfl hnn

theorem claim_C8_witness :
    can_be_selected probC8.act probC8.M 2 2 (mOf ((0, 1, 0, 0) : Idx4)) = true ∧
    0 ≤ ((1 : Nat), (0 : Int)).2 := by
  have h := claim_C8 probC8 2 (by decide) probC8.avail 2 [(0, 1, 0, 0)]
    ((0, 1, 0, 0), effCost probC8 2 (0, 1, 0, 0)) (by with_unfolding_all rfl)
    3 [(1, 2)] [(1, 0)] sC8 sC8a (by with_unfolding_all rfl)
    (by unfold GInv; decide) (by decide) (by decide) (by decide)
  exact ⟨h.1, h.2 (1, 0) (by decide)⟩

/-! ## The improving phase (`improving_setup`, `try_improve`,
`add_remove_user`, `get_removable`, lines 426-646)

State: the solution array, the residual supply `users_available` of
`moves_statistics`, the per-destination activity counters `done_in_j`, and
the per-destination move lists `moves_to_j` (sorted in place by
`get_removable`; `moves` and `moves_from_i` are never modified, so
`moves_from_i` is a plain parameter `mfi`).  The `time_finished` flag is
modelled as never set (its only effect is an early break, leading to the
undo-all path).  All fuel exhaustions return `none`. -/

@[ext]
structure AState where
  sol : Idx4 → Int
  avail : Idx3 → Int
  done : Nat → Int
  mtj : Nat → List Idx4

/-- One `improved_move`: the four-dimensional index, the number of users
added (negative when removed), the activities added, and the objective
gain. -/
structure IMove where
  f_idx : Idx4
  users : Int
  acts : Int
  gain : ℚ

/-- `add_remove_user(ic, ..., false)` (lines 604-613): the solution entry
gains `user_added` users, the supply bucket loses them, and the
destination's activity counter gains `activities_added`. -/
def applyMove (mv : IMove) (s : AState) : AState :=
  { sol := bump4 s.sol mv.f_idx mv.users
    avail := bump3 s.avail (bkt mv.f_idx) (-mv.users)
    done := bump1 s.done (jOf mv.f_idx) mv.acts
    mtj := s.mtj }

/-- The move passed to `add_remove_user(..., true)`: same index, negated
deltas. -/
def negMove (mv : IMove) : IMove := ⟨mv.f_idx, -mv.users, -mv.acts, -mv.gain⟩

def applyMoves (l : List IMove) (s : AState) : AState :=
  l.foldl (fun s2 mv => applyMove mv s2) s

/-- The undo-all loop (lines 596-599): each recorded move is undone, in
list order. -/
def undoAll (l : List IMove) (s : AState) : AState :=
  l.foldl (fun s2 mv => applyMove (negMove mv) s2) s

def sumGain (l : List IMove) : ℚ := (l.map IMove.gain).sum

/-- `std::ceil((double)a / b)` on integral values, for b > 0. -/
def cdiv (a b : Int) : Int := -((-a).ediv b)

/-- The walk of `get_removable` (lines 631-643) over the sorted
`moves_to_j[j]`: while some redundancy is left, an entry whose user type
does no more than the redundancy and which still holds users in the
solution loses one user (the iterator stays on it); otherwise the iterator
advances. -/
def getRemovableAux (p : Prob) : Nat → AState → Int → List Idx4 →
    Option (AState × List IMove × ℚ)
  | 0, _, _, _ => none
  | fuel + 1, s, red, l =>
    if 0 < red then
      match l with
      | [] => some (s, [], 0)
      | e :: rest =>
        if p.act (mOf e) ≤ red ∧ 0 < s.sol e then
          let mv : IMove := ⟨e, -1, -(p.act (mOf e)), p.costs e⟩
          match getRemovableAux p fuel (applyMove mv s) (red - p.act (mOf e))
              (e :: rest) with
          | none => none
          | some (s2, mvs, g) => some (s2, mv :: mvs, mv.gain + g)
        else getRemovableAux p fuel s red rest
    else some (s, [], 0)

/-- `get_removable(j, ...)` (lines 615-646): when the destination does more
activities than required, sort its move list by non-increasing cost (the
sort persists) and remove redundant users. -/
def getRemovable (p : Prob) (gfuel : Nat) (j : Nat) (s : AState) :
    Option (AState × List IMove × ℚ) :=
  let red := s.done j - p.activities j
  if 0 < red then
    let sorted := sortDesc p (s.mtj j)
    getRemovableAux p gfuel
      { s with mtj := fun j2 => if j2 = j then sorted else s.mtj j2 } red sorted
  else some (s, [], 0)

/-- The `moves_from_i[new_i]` loop (lines 570-588): for each stored move
with matching user type and time period, recurse (through `rec`, the
next-smaller-fuel `tryImprove`) with `users_to_remove = -users_available`;
the first success propagates, failures continue with the state the nested
call left (which it restored). -/
def tiSiblings (rec : Nat → Idx4 → Int → ℚ → List Idx4 → AState →
      Option (Bool × ℚ × AState × List IMove))
    (lvl1 : Nat) (newm newt : Nat) (u2r2 : Int) (g : ℚ) (tabu : List Idx4) :
    List Idx4 → AState → Option (Option (AState × List IMove) × AState)
  | [], s => some (none, s)
  | mv2 :: rest, s =>
    if mOf mv2 = newm ∧ tOf mv2 = newt then
      match rec lvl1 mv2 u2r2 g tabu s with
      | none => none
      | some (true, _, s2, mvs) => some (some (s2, mvs), s2)
      | some (false, _, s2, _) =>
        tiSiblings rec lvl1 newm newt u2r2 g tabu rest s2
    else tiSiblings rec lvl1 newm newt u2r2 g tabu rest s

/-- The candidate scan of `try_improve` (lines 516-593). `j` is the
destination of the current cell, `ar` the number of activities removed,
`moves` the moves applied so far (the initial removal included), `g` the
running `obj_gain_so_far`, `cnt` the iteration counter. -/
def tiLoop (p : Prob) (mfi : Nat → List Idx4)
    (rec : Nat → Idx4 → Int → ℚ → List Idx4 → AState →
      Option (Bool × ℚ × AState × List IMove))
    (gfuel : Nat) (lvl : Nat) (j : Nat) (ar : Int) (tabu : List Idx4) :
    List Idx4 → AState → ℚ → List IMove → Nat →
    Option (Bool × ℚ × AState × List IMove)
  | [], s, g, moves, _ =>
    some (false, g - sumGain moves, undoAll moves s, [])
  | e :: rest, s, g, moves, cnt =>
    let uta := cdiv ar (p.act (mOf e))
    if e ∈ tabu ∨ p.avail (bkt e) < uta then
      tiLoop p mfi rec gfuel lvl j ar tabu rest s g moves cnt
    else
      let mvA : IMove := ⟨commitIdx j e, uta, uta * p.act (mOf e),
        -(p.costs (commitIdx j e) * (uta : ℚ))⟩
      let s1 := applyMove mvA s
      match getRemovable p gfuel j s1 with
      | none => none
      | some (s2, rmoves, rg) =>
        let g2 := g + mvA.gain + rg
        let moves2 := moves ++ mvA :: rmoves
        let cnt2 := cnt + 1
        if g2 < -4 ∨ 20 < cnt2 then
          some (false, g2 - sumGain moves2, undoAll moves2 s2, [])
        else
          let ua := s2.avail (bkt e)
          if 0 ≤ ua then
            if 0 < g2 then some (true, g2, s2, moves2)
            else
              tiLoop p mfi rec gfuel lvl j ar tabu rest
                (undoAll (mvA :: rmoves).reverse s2)
                (g2 - sumGain (mvA :: rmoves)) moves cnt2
          else
            match tiSiblings rec (lvl + 1) (mOf e) (tOf e) (-ua) g2 tabu
                (mfi (iOf e)) s2 with
            | none => none
            | some (some (s3, nmvs), _) => some (true, g2, s3, moves2 ++ nmvs)
            | some (none, s3) =>
              tiLoop p mfi rec gfuel lvl j ar tabu rest
                (undoAll (mvA :: rmoves).reverse s3)
                (g2 - sumGain (mvA :: rmoves)) moves cnt2

/-- `coiote_solver::try_improve` (lines 480-602).  The result is the
returned boolean, the final `obj_gain_so_far` of this invocation, the
state, and `param.imp_moves` (empty on failure). -/
def tryImprove (p : Prob) (mfi : Nat → List Idx4) (gfuel : Nat) :
    Nat → Nat → Idx4 → Int → ℚ → List Idx4 → AState →
    Option (Bool × ℚ × AState × List IMove)
  | 0, _, _, _, _, _, _ => none
  | fuel + 1, lvl, curr, u2r, g0, tabu0, s =>
    if s.sol curr < u2r ∨ 5 < lvl ∨ curr ∈ tabu0 then some (false, g0, s, [])
    else
      let mv0 : IMove := ⟨curr, -u2r, -(p.act (mOf curr) * u2r),
        (u2r : ℚ) * p.costs curr⟩
      tiLoop p mfi (tryImprove p mfi gfuel fuel) gfuel lvl (jOf curr)
        (p.act (mOf curr) * u2r) (tabu0 ++ [curr])
        (costs_order p (capFor p (p.act (mOf curr) * u2r)) (jOf curr))
        (applyMove mv0 s) (g0 + mv0.gain) [mv0] 0

/-! ### Additivity of `add_remove_user`: moves commute and cancel -/

/-- Equality of the three components the undo loops restore (the claim is
about `solution`, `users_available` and `done_in_j`; the in-place sort of
`moves_to_j` persists). -/
def coreEq (s1 s2 : AState) : Prop :=
  s1.sol = s2.sol ∧ s1.avail = s2.avail ∧ s1.done = s2.done

theorem coreEq_refl (s : AState) : coreEq s s := ⟨rfl, rfl, rfl⟩

theorem coreEq_trans {s1 s2 s3 : AState} (h1 : coreEq s1 s2) (h2 : coreEq s2 s3) :
    coreEq s1 s3 :=
  ⟨h1.1.trans h2.1, h1.2.1.trans h2.2.1, h1.2.2.trans h2.2.2⟩

theorem applyMove_coreEq (mv : IMove) {s1 s2 : AState} (h : coreEq s1 s2) :
    coreEq (applyMove mv s1) (applyMove mv s2) := by
  obtain ⟨h1, h2, h3⟩ := h
  exact ⟨by simp only [applyMove, h1], by simp only [applyMove, h2],
    by simp only [applyMove, h3]⟩

theorem applyMoves_coreEq (l : List IMove) :
    ∀ {s1 s2 : AState}, coreEq s1 s2 →
      coreEq (applyMoves l s1) (applyMoves l s2) := by
  induction l with
  | nil => exact fun h => h
  | cons mv rest ih =>
    intro s1 s2 h
    exact ih (applyMove_coreEq mv h)

theorem undoAll_coreEq (l : List IMove) :
    ∀ {s1 s2 : AState}, coreEq s1 s2 →
      coreEq (undoAll l s1) (undoAll l s2) := by
  induction l with
  | nil => exact fun h => h
  | cons mv rest ih =>
    intro s1 s2 h
    exact ih (applyMove_coreEq (negMove mv) h)

theorem applyMove_comm (a b : IMove) (s : AState) :
    applyMove a (applyMove b s) = applyMove b (applyMove a s) := by
  refine AState.ext ?_ ?_ ?_ rfl
  · funext y
    simp only [applyMove, bump4]
    ring
  · funext y
    simp only [applyMove, bump3]
    ring
  · funext y
    simp only [applyMove, bump1]
    ring

theorem applyMove_cancel (mv : IMove) (s : AState) :
    applyMove (negMove mv) (applyMove mv s) = s := by
  refine AState.ext ?_ ?_ ?_ rfl
  · funext y
    simp only [applyMove, negMove, bump4]
    split <;> ring
  · funext y
    simp only [applyMove, negMove, bump3, neg_neg]
    split <;> ring
  · funext y
    simp only [applyMove, negMove, bump1]
    split <;> ring

theorem applyMove_applyMoves (a : IMove) (l : List IMove) :
    ∀ s : AState, applyMove a (applyMoves l s) = applyMoves l (applyMove a s) := by
  induction l with
  | nil => exact fun _ => rfl
  | cons b rest ih =>
    intro s
    show applyMove a (applyMoves rest (applyMove b s)) = _
    rw [ih (applyMove b s), applyMove_comm a b s]
    rfl

theorem undoAll_applyMoves (l : List IMove) :
    ∀ s : AState, undoAll l (applyMoves l s) = s := by
  induction l with
  | nil => exact fun _ => rfl
  | cons m rest ih =>
    intro s
    show undoAll rest (applyMove (negMove m) (applyMoves rest (applyMove m s))) = s
    rw [applyMove_applyMoves (negMove m) rest (applyMove m s), applyMove_cancel m s]
    exact ih s

theorem undoAll_append (l1 l2 : List IMove) (s : AState) :
    undoAll (l1 ++ l2) s = undoAll l2 (undoAll l1 s) :=
  List.foldl_append _ _ _ _

theorem undoAll_reverse_applyMoves (l : List IMove) :
    ∀ s : AState, undoAll l.reverse (applyMoves l s) = s := by
  induction l with
  | nil => exact fun _ => rfl
  | cons m rest ih =>
    intro s
    rw [List.reverse_cons]
    show undoAll (rest.reverse ++ [m]) (applyMoves rest (applyMove m s)) = s
    rw [undoAll_append, ih (applyMove m s)]
    show applyMove (negMove m) (applyMove m s) = s
    exact applyMove_cancel m s

theorem applyMoves_append (l1 l2 : List IMove) (s : AState) :
    applyMoves (l1 ++ l2) s = applyMoves l2 (applyMoves l1 s) :=
  List.foldl_append _ _ _ _

/-- The move inserted for candidate `e` (lines 536-540). -/
def tiMvA (p : Prob) (j : Nat) (ar : Int) (e : Idx4) : IMove :=
  ⟨commitIdx j e, cdiv ar (p.act (mOf e)),
    cdiv ar (p.act (mOf e)) * p.act (mOf e),
    -(p.costs (commitIdx j e) * ((cdiv ar (p.act (mOf e)) : Int) : ℚ))⟩

theorem getRemovableAux_state (p : Prob) :
    ∀ (fuel : Nat) (s : AState) (red : Int) (l : List Idx4)
      (s2 : AState) (mvs : List IMove) (g : ℚ),
      getRemovableAux p fuel s red l = some (s2, mvs, g) →
      s2 = applyMoves mvs s := by
  intro fuel
  induction fuel with
  | zero =>
    intro s red l s2 mvs g h
    exact absurd h (by simp [getRemovableAux])
  | succ f ih =>
    intro s red l s2 mvs g h
    by_cases hr : 0 < red
    · cases l with
      | nil =>
        rw [show getRemovableAux p (f + 1) s red [] =
            (if 0 < red then some (s, [], 0) else some (s, [], 0)) from rfl] at h
        rw [if_pos hr] at h
        obtain ⟨h1, h23⟩ := Prod.mk.inj (Option.some_inj.mp h)
        obtain ⟨h2, h3⟩ := Prod.mk.inj h23
        subst h1
        rw [← h2]
        rfl
      | cons e rest =>
        rw [show getRemovableAux p (f + 1) s red (e :: rest) =
            (if 0 < red then
              if p.act (mOf e) ≤ red ∧ 0 < s.sol e then
                match getRemovableAux p f
                    (applyMove ⟨e, -1, -(p.act (mOf e)), p.costs e⟩ s)
                    (red - p.act (mOf e)) (e :: rest) with
                | none => none
                | some (s3, mvs2, g2) =>
                  some (s3, (⟨e, -1, -(p.act (mOf e)), p.costs e⟩ : IMove) :: mvs2,
                    (⟨e, -1, -(p.act (mOf e)), p.costs e⟩ : IMove).gain + g2)
              else getRemovableAux p f s red rest
            else some (s, [], 0)) from rfl] at h
        rw [if_pos hr] at h
        by_cases hrem : p.act (mOf e) ≤ red ∧ 0 < s.sol e
        · rw [if_pos hrem] at h
          cases hrec : getRemovableAux p f
              (applyMove ⟨e, -1, -(p.act (mOf e)), p.costs e⟩ s)
              (red - p.act (mOf e)) (e :: rest) with
          | none =>
            rw [hrec] at h
            exact absurd h (by simp)
          | some r2 =>
            obtain ⟨s3, mvs2, g2⟩ := r2
            rw [hrec] at h
            obtain ⟨h1, h23⟩ := Prod.mk.inj (Option.some_inj.mp h)
            obtain ⟨h2, h3⟩ := Prod.mk.inj h23
            subst h1
            rw [← h2]
            rw [ih _ _ _ _ _ _ hrec]
            rfl
        · rw [if_neg hrem] at h
          exact ih _ _ _ _ _ _ h
    · cases l with
      | nil =>
        rw [show getRemovableAux p (f + 1) s red [] =
            (if 0 < red then some (s, [], 0) else some (s, [], 0)) from rfl,
          if_neg hr] at h
        obtain ⟨h1, h23⟩ := Prod.mk.inj (Option.some_inj.mp h)
        obtain ⟨h2, h3⟩ := Prod.mk.inj h23
        subst h1
        rw [← h2]
        rfl
      | cons e rest =>
        rw [show getRemovableAux p (f + 1) s red (e :: rest) =
            (if 0 < red then
              if p.act (mOf e) ≤ red ∧ 0 < s.sol e then
                match getRemovableAux p f
                    (applyMove ⟨e, -1, -(p.act (mOf e)), p.costs e⟩ s)
                    (red - p.act (mOf e)) (e :: rest) with
                | none => none
                | some (s3, mvs2, g2) =>
                  some (s3, (⟨e, -1, -(p.act (mOf e)), p.costs e⟩ : IMove) :: mvs2,
                    (⟨e, -1, -(p.act (mOf e)), p.costs e⟩ : IMove).gain + g2)
              else getRemovableAux p f s red rest
            else some (s, [], 0)) from rfl, if_neg hr] at h
        obtain ⟨h1, h23⟩ := Prod.mk.inj (Option.some_inj.mp h)
        obtain ⟨h2, h3⟩ := Prod.mk.inj h23
        subst h1
        rw [← h2]
        rfl

theorem getRemovable_coreEq (p : Prob) (gfuel : Nat) (j : Nat) (s : AState)
    (s2 : AState) (mvs : List IMove) (g : ℚ)
    (h : getRemovable p gfuel j s = some (s2, mvs, g)) :
    coreEq s2 (applyMoves mvs s) := by
  unfold getRemovable at h
  by_cases hr : 0 < s.done j - p.activities j
  · rw [if_pos hr] at h
    rw [getRemovableAux_state p gfuel _ _ _ _ _ _ h]
    exact applyMoves_coreEq mvs ⟨rfl, rfl, rfl⟩
  · rw [if_neg hr] at h
    obtain ⟨h1, h23⟩ := Prod.mk.inj (Option.some_inj.mp h)
    obtain ⟨h2, h3⟩ := Prod.mk.inj h23
    subst h1
    rw [← h2]
    exact coreEq_refl s

/-- The hypothesis the per-fuel recursion satisfies: a `false` return leaves
the solution, supply and activity counters as they were. -/
def RecRestores (rec : Nat → Idx4 → Int → ℚ → List Idx4 → AState →
    Option (Bool × ℚ × AState × List IMove)) : Prop :=
  ∀ lvl curr u2r g0 tabu s g2 s2 mvs,
    rec lvl curr u2r g0 tabu s = some (false, g2, s2, mvs) → coreEq s2 s

theorem tiSiblings_restore
    (rec : Nat → Idx4 → Int → ℚ → List Idx4 → AState →
      Option (Bool × ℚ × AState × List IMove))
    (hrec : RecRestores rec) (lvl1 newm newt : Nat) (u2r2 : Int) (g : ℚ)
    (tabu : List Idx4) :
    ∀ (l : List Idx4) (s s3 : AState),
      tiSiblings rec lvl1 newm newt u2r2 g tabu l s = some (none, s3) →
      coreEq s3 s := by
  intro l
  induction l with
  | nil =>
    intro s s3 h
    obtain ⟨h1, h2⟩ := Prod.mk.inj
      (Option.some_inj.mp (show some ((none : Option (AState × List IMove)), s) =
        some (none, s3) from h))
    rw [← h2]
    exact coreEq_refl s
  | cons mv2 rest ih =>
    intro s s3 h
    rw [show tiSiblings rec lvl1 newm newt u2r2 g tabu (mv2 :: rest) s =
        (if mOf mv2 = newm ∧ tOf mv2 = newt then
          match rec lvl1 mv2 u2r2 g tabu s with
          | none => none
          | some (true, _, s2, mvs) => some (some (s2, mvs), s2)
          | some (false, _, s2, _) =>
            tiSiblings rec lvl1 newm newt u2r2 g tabu rest s2
        else tiSiblings rec lvl1 newm newt u2r2 g tabu rest s) from rfl] at h
    by_cases hmt : mOf mv2 = newm ∧ tOf mv2 = newt
    · rw [if_pos hmt] at h
      cases hrc : rec lvl1 mv2 u2r2 g tabu s with
      | none =>
        rw [hrc] at h
        exact absurd h (by simp)
      | some r =>
        obtain ⟨b, g4, s4, mvs4⟩ := r
        rw [hrc] at h
        cases b with
        | true =>
          replace h : some (some (s4, mvs4), s4) =
              some ((none : Option (AState × List IMove)), s3) := h
          exact absurd (Prod.mk.inj (Option.some_inj.mp h)).1 (by simp)
        | false =>
          replace h : tiSiblings rec lvl1 newm newt u2r2 g tabu rest s4 =
              some (none, s3) := h
          exact coreEq_trans (ih s4 s3 h) (hrec lvl1 mv2 u2r2 g tabu s g4 s4 mvs4 hrc)
    · rw [if_neg hmt] at h
      exact ih s s3 h

/-- The initial removal move of a `try_improve` invocation (lines 502-506). -/
def tiMv0 (p : Prob) (curr : Idx4) (u2r : Int) : IMove :=
  ⟨curr, -u2r, -(p.act (mOf curr) * u2r), (u2r : ℚ) * p.costs curr⟩

theorem tiLoop_nil_eq (p : Prob) (mfi : Nat → List Idx4)
    (rec : Nat → Idx4 → Int → ℚ → List Idx4 → AState →
      Option (Bool × ℚ × AState × List IMove))
    (gfuel lvl : Nat) (j : Nat) (ar : Int) (tabu : List Idx4)
    (s : AState) (g : ℚ) (moves : List IMove) (cnt : Nat) :
    tiLoop p mfi rec gfuel lvl j ar tabu [] s g moves cnt =
      some (false, g - sumGain moves, undoAll moves s, []) := rfl

theorem tiLoop_cons_eq (p : Prob) (mfi : Nat → List Idx4)
    (rec : Nat → Idx4 → Int → ℚ → List Idx4 → AState →
      Option (Bool × ℚ × AState × List IMove))
    (gfuel lvl : Nat) (j : Nat) (ar : Int) (tabu : List Idx4) (e : Idx4)
    (rest : List Idx4) (s : AState) (g : ℚ) (moves : List IMove) (cnt : Nat) :
    tiLoop p mfi rec gfuel lvl j ar tabu (e :: rest) s g moves cnt =
      (if e ∈ tabu ∨ p.avail (bkt e) < cdiv ar (p.act (mOf e)) then
        tiLoop p mfi rec gfuel lvl j ar tabu rest s g moves cnt
      else
        match getRemovable p gfuel j (applyMove (tiMvA p j ar e) s) with
        | none => none
        | some (s2, rmoves, rg) =>
          if g + (tiMvA p j ar e).gain + rg < -4 ∨ 20 < cnt + 1 then
            some (false, g + (tiMvA p j ar e).gain + rg -
                sumGain (moves ++ tiMvA p j ar e :: rmoves),
              undoAll (moves ++ tiMvA p j ar e :: rmoves) s2, [])
          else
            if 0 ≤ s2.avail (bkt e) then
              if 0 < g + (tiMvA p j ar e).gain + rg then
                some (true, g + (tiMvA p j ar e).gain + rg, s2,
                  moves ++ tiMvA p j ar e :: rmoves)
              else
                tiLoop p mfi rec gfuel lvl j ar tabu rest
                  (undoAll (tiMvA p j ar e :: rmoves).reverse s2)
                  (g + (tiMvA p j ar e).gain + rg -
                    sumGain (tiMvA p j ar e :: rmoves)) moves (cnt + 1)
            else
              match tiSiblings rec (lvl + 1) (mOf e) (tOf e)
                  (-(s2.avail (bkt e))) (g + (tiMvA p j ar e).gain + rg) tabu
                  (mfi (iOf e)) s2 with
              | none => none
              | some (some (s3, nmvs), _) =>
                some (true, g + (tiMvA p j ar e).gain + rg, s3,
                  (moves ++ tiMvA p j ar e :: rmoves) ++ nmvs)
              | some (none, s3) =>
                tiLoop p mfi rec gfuel lvl j ar tabu rest
                  (undoAll (tiMvA p j ar e :: rmoves).reverse s3)
                  (g + (tiMvA p j ar e).gain + rg -
                    sumGain (tiMvA p j ar e :: rmoves)) moves (cnt + 1)) := rfl

theorem tryImprove_succ_eq (p : Prob) (mfi : Nat → List Idx4)
    (gfuel fuel lvl : Nat) (curr : Idx4) (u2r : Int) (g0 : ℚ)
    (tabu0 : List Idx4) (s : AState) :
    tryImprove p mfi gfuel (fuel + 1) lvl curr u2r g0 tabu0 s =
      (if s.sol curr < u2r ∨ 5 < lvl ∨ curr ∈ tabu0 then some (false, g0, s, [])
      else
        tiLoop p mfi (tryImprove p mfi gfuel fuel) gfuel lvl (jOf curr)
          (p.act (mOf curr) * u2r) (tabu0 ++ [curr])
          (costs_order p (capFor p (p.act (mOf curr) * u2r)) (jOf curr))
          (applyMove (tiMv0 p curr u2r) s) (g0 + (tiMv0 p curr u2r).gain)
          [tiMv0 p curr u2r] 0) := rfl

theorem tiLoop_restore (p : Prob) (mfi : Nat → List Idx4)
    (rec : Nat → Idx4 → Int → ℚ → List Idx4 → AState →
      Option (Bool × ℚ × AState × List IMove))
    (gfuel lvl : Nat) (j : Nat) (ar : Int) (tabu : List Idx4)
    (hrec : RecRestores rec) (sE : AState) :
    ∀ (l : List Idx4) (s : AState) (g : ℚ) (moves : List IMove) (cnt : Nat)
      (g2 : ℚ) (s2 : AState) (mvs : List IMove),
      tiLoop p mfi rec gfuel lvl j ar tabu l s g moves cnt =
        some (false, g2, s2, mvs) →
      coreEq s (applyMoves moves sE) →
      coreEq s2 sE ∧ mvs = [] := by
  intro l
  induction l with
  | nil =>
    intro s g moves cnt g2 s2 mvs h hinv
    rw [tiLoop_nil_eq] at h
    obtain ⟨h1, h234⟩ := Prod.mk.inj (Option.some_inj.mp h)
    obtain ⟨h2, h34⟩ := Prod.mk.inj h234
    obtain ⟨h3, h4⟩ := Prod.mk.inj h34
    refine ⟨?_, h4.symm⟩
    rw [← h3]
    exact coreEq_trans (undoAll_coreEq moves hinv)
      (by rw [undoAll_applyMoves moves sE]; exact coreEq_refl sE)
  | cons e rest ih =>
    intro s g moves cnt g2 s2 mvs h hinv
    rw [tiLoop_cons_eq] at h
    by_cases hskip : e ∈ tabu ∨ p.avail (bkt e) < cdiv ar (p.act (mOf e))
    · rw [if_pos hskip] at h
      exact ih s g moves cnt g2 s2 mvs h hinv
    · rw [if_neg hskip] at h
      cases hgr : getRemovable p gfuel j (applyMove (tiMvA p j ar e) s) with
      | none =>
        rw [hgr] at h
        exact absurd h (by simp)
      | some r2 =>
        obtain ⟨s4, rmoves, rg⟩ := r2
        rw [hgr] at h
        have hinv2 : coreEq s4 (applyMoves (moves ++ tiMvA p j ar e :: rmoves) sE) := by
          have h1 := getRemovable_coreEq p gfuel j _ _ _ _ hgr
          have h2 : coreEq (applyMoves rmoves (applyMove (tiMvA p j ar e) s))
              (applyMoves rmoves (applyMove (tiMvA p j ar e)
                (applyMoves moves sE))) :=
            applyMoves_coreEq rmoves (applyMove_coreEq _ hinv)
          refine coreEq_trans (coreEq_trans h1 h2) ?_
          rw [applyMoves_append]
          exact coreEq_refl _
        replace h : (if g + (tiMvA p j ar e).gain + rg < -4 ∨ 20 < cnt + 1 then
            some (false, g + (tiMvA p j ar e).gain + rg -
                sumGain (moves ++ tiMvA p j ar e :: rmoves),
              undoAll (moves ++ tiMvA p j ar e :: rmoves) s4, [])
          else
            if 0 ≤ s4.avail (bkt e) then
              if 0 < g + (tiMvA p j ar e).gain + rg then
                some (true, g + (tiMvA p j ar e).gain + rg, s4,
                  moves ++ tiMvA p j ar e :: rmoves)
              else
                tiLoop p mfi rec gfuel lvl j ar tabu rest
                  (undoAll (tiMvA p j ar e :: rmoves).reverse s4)
                  (g + (tiMvA p j ar e).gain + rg -
                    sumGain (tiMvA p j ar e :: rmoves)) moves (cnt + 1)
            else
              match tiSiblings rec (lvl + 1) (mOf e) (tOf e)
                  (-(s4.avail (bkt e))) (g + (tiMvA p j ar e).gain + rg) tabu
                  (mfi (iOf e)) s4 with
              | none => none
              | some (some (s3, nmvs), _) =>
                some (true, g + (tiMvA p j ar e).gain + rg, s3,
                  (moves ++ tiMvA p j ar e :: rmoves) ++ nmvs)
              | some (none, s3) =>
                tiLoop p mfi rec gfuel lvl j ar tabu rest
                  (undoAll (tiMvA p j ar e :: rmoves).reverse s3)
                  (g + (tiMvA p j ar e).gain + rg -
                    sumGain (tiMvA p j ar e :: rmoves)) moves (cnt + 1)) =
            some (false, g2, s2, mvs) := h
        have hundo : ∀ s5 : AState,
            coreEq s5 (applyMoves (moves ++ tiMvA p j ar e :: rmoves) sE) →
            coreEq (undoAll (tiMvA p j ar e :: rmoves).reverse s5)
              (applyMoves moves sE) := by
          intro s5 h5
          rw [applyMoves_append] at h5
          refine coreEq_trans (undoAll_coreEq _ h5) ?_
          rw [undoAll_reverse_applyMoves]
          exact coreEq_refl _
        by_cases hbrk : g + (tiMvA p j ar e).gain + rg < -4 ∨ 20 < cnt + 1
        · rw [if_pos hbrk] at h
          obtain ⟨h1, h234⟩ := Prod.mk.inj (Option.some_inj.mp h)
          obtain ⟨h2, h34⟩ := Prod.mk.inj h234
          obtain ⟨h3, h4⟩ := Prod.mk.inj h34
          refine ⟨?_, h4.symm⟩
          rw [← h3]
          exact coreEq_trans (undoAll_coreEq _ hinv2)
            (by rw [undoAll_applyMoves]; exact coreEq_refl sE)
        · rw [if_neg hbrk] at h
          by_cases hua : 0 ≤ s4.avail (bkt e)
          · rw [if_pos hua] at h
            by_cases hpos : 0 < g + (tiMvA p j ar e).gain + rg
            · rw [if_pos hpos] at h
              exact absurd (Prod.mk.inj (Option.some_inj.mp h)).1 (by simp)
            · rw [if_neg hpos] at h
              exact ih _ _ moves (cnt + 1) g2 s2 mvs h (hundo s4 hinv2)
          · rw [if_neg hua] at h
            cases hsib : tiSiblings rec (lvl + 1) (mOf e) (tOf e)
                (-(s4.avail (bkt e))) (g + (tiMvA p j ar e).gain + rg) tabu
                (mfi (iOf e)) s4 with
            | none =>
              rw [hsib] at h
              exact absurd h (by simp)
            | some r3 =>
              obtain ⟨res, s5⟩ := r3
              rw [hsib] at h
              cases res with
              | some pr =>
                obtain ⟨s3, nmvs⟩ := pr
                replace h : some (true, g + (tiMvA p j ar e).gain + rg, s3,
                    (moves ++ tiMvA p j ar e :: rmoves) ++ nmvs) =
                  some (false, g2, s2, mvs) := h
                exact absurd (Prod.mk.inj (Option.some_inj.mp h)).1 (by simp)
              | none =>
                replace h : tiLoop p mfi rec gfuel lvl j ar tabu rest
                    (undoAll (tiMvA p j ar e :: rmoves).reverse s5)
                    (g + (tiMvA p j ar e).gain + rg -
                      sumGain (tiMvA p j ar e :: rmoves)) moves (cnt + 1) =
                  some (false, g2, s2, mvs) := h
                have hs5 : coreEq s5 (applyMoves (moves ++ tiMvA p j ar e :: rmoves) sE) :=
                  coreEq_trans (tiSiblings_restore rec hrec _ _ _ _ _ _ _ _ _ hsib)
                    hinv2
                exact ih _ _ moves (cnt + 1) g2 s2 mvs h (hundo s5 hs5)

theorem tryImprove_restore (p : Prob) (mfi : Nat → List Idx4) (gfuel : Nat) :
    ∀ fuel : Nat, RecRestores (tryImprove p mfi gfuel fuel) := by
  intro fuel
  induction fuel with
  | zero =>
    intro lvl curr u2r g0 tabu s g2 s2 mvs h
    exact absurd h (by simp [tryImprove])
  | succ f ih =>
    intro lvl curr u2r g0 tabu s g2 s2 mvs h
    rw [tryImprove_succ_eq] at h
    by_cases hgd : s.sol curr < u2r ∨ 5 < lvl ∨ curr ∈ tabu
    · rw [if_pos hgd] at h
      obtain ⟨h1, h234⟩ := Prod.mk.inj (Option.some_inj.mp h)
      obtain ⟨h2, h34⟩ := Prod.mk.inj h234
      obtain ⟨h3, h4⟩ := Prod.mk.inj h34
      rw [← h3]
      exact coreEq_refl s
    · rw [if_neg hgd] at h
      exact (tiLoop_restore p mfi (tryImprove p mfi gfuel f) gfuel lvl (jOf curr)
        (p.act (mOf curr) * u2r) (tabu ++ [curr]) ih s _ _ _ [tiMv0 p curr u2r] 0
        g2 s2 mvs h (coreEq_refl _)).1

/-- Witness entry state for the undo theorem: one user moved from
bucket (0,0,0) to destination 1. -/
def sC3 : AState :=
  { sol := fun x => if x = ((0, 1, 0, 0) : Idx4) then 1 else 0
    avail := fun _ => 0
    done := fun j => if j = 1 then 3 else 0
    mtj := fun _ => [] }

/-- The state `try_improve` leaves behind on the witness run (the initial
removal followed by the final undo-all). -/
def sC3b : AState :=
  undoAll [tiMv0 probC5 (0, 1, 0, 0) 1]
    (applyMove (tiMv0 probC5 (0, 1, 0, 0) 1) sC3)

/-- **C3.** Undo correctness: whenever `try_improve` returns `false`, the
solution array, the residual supply table
(`moves_statistics.users_available`) and the per-cell activity counters
(`done_in_j`) are exactly equal to their values at entry to the call (every
recorded move is undone, and moves of failed nested calls were already
undone by them; the in-place sort of `moves_to_j` is the only surviving
effect). -/
theorem claim_C3 (p : Prob) (mfi : Nat → List Idx4) (gfuel fuel lvl : Nat)
    (curr : Idx4) (u2r : Int) (g0 : ℚ) (tabu : List Idx4) (s : AState)
    (g2 : ℚ) (s2 : AState) (mvs : List IMove)
    (h : tryImprove p mfi gfuel fuel lvl curr u2r g0 tabu s =
      some (false, g2, s2, mvs)) :
    s2.sol = s.sol ∧ s2.avail = s.avail ∧ s2.done = s.done :=
  tryImprove_restore p mfi gfuel fuel lvl curr u2r g0 tabu s g2 s2 mvs h

theorem claim_C3_witness :
    sC3b.sol = sC3.sol ∧ sC3b.avail = sC3.avail ∧ sC3b.done = sC3.done :=
  claim_C3 probC5 (fun _ => []) 3 2 0 (0, 1, 0, 0) 1 0 [] sC3 0 sC3b []
    (by with_unfolding_all rfl)

/-! ### Invariants preserved by a successful `try_improve` chain -/

/-- The supply ledger: `users_available` of `moves_statistics` equals the
input supply minus the users the solution commits (what `improving_setup`
establishes). -/
def SInv (p : Prob) (s : AState) : Prop :=
  ∀ b : Idx3, s.avail b = p.avail b - sumSolJ p b s.sol

/-- No supply bucket is overdrawn. -/
def AInv (p : Prob) (s : AState) : Prop := ∀ b ∈ buckets p, 0 ≤ s.avail b

/-- Demand satisfaction of the activity counters. -/
def DInv (p : Prob) (s : AState) : Prop := ∀ j < p.C, p.activities j ≤ s.done j

/-- Well-formedness of the per-destination move lists. -/
def MInv (p : Prob) (s : AState) : Prop :=
  ∀ j : Nat, ∀ e ∈ s.mtj j,
    jOf e = j ∧ iOf e < p.C ∧ mOf e < p.M ∧ tOf e < p.T

theorem applyMoves_mtj (l : List IMove) : ∀ s : AState,
    (applyMoves l s).mtj = s.mtj := by
  induction l with
  | nil => exact fun _ => rfl
  | cons mv rest ih => exact fun s => ih (applyMove mv s)

theorem undoAll_mtj (l : List IMove) : ∀ s : AState,
    (undoAll l s).mtj = s.mtj := by
  induction l with
  | nil => exact fun _ => rfl
  | cons mv rest ih => exact fun s => ih (applyMove (negMove mv) s)

theorem SInv_coreEq {p : Prob} {s1 s2 : AState} (h : coreEq s1 s2)
    (hs : SInv p s2) : SInv p s1 := by
  intro b
  rw [h.2.1, h.1]
  exact hs b

theorem SInv_applyMove (p : Prob) (mv : IMove) (s : AState)
    (hj : jOf mv.f_idx < p.C) (h : SInv p s) : SInv p (applyMove mv s) := by
  intro b
  show bump3 s.avail (bkt mv.f_idx) (-mv.users) b =
    p.avail b - sumSolJ p b (bump4 s.sol mv.f_idx mv.users)
  rw [sumSolJ_bump4 p b s.sol mv.f_idx mv.users hj]
  unfold bump3
  rw [h b, bkt_eq]
  by_cases hb : b = (iOf mv.f_idx, mOf mv.f_idx, tOf mv.f_idx)
  · rw [if_pos (by rw [hb]), if_pos (by rw [hb])]
    ring
  · rw [if_neg hb, if_neg (fun hc => hb (by rw [← hc]))]
    ring

theorem MInv_of_perm {p : Prob} {s1 s2 : AState}
    (hp : ∀ j, (s1.mtj j).Perm (s2.mtj j)) (h : MInv p s2) : MInv p s1 :=
  fun j e he => h j e ((hp j).mem_iff.mp he)

/-- `cdiv` really is the ceiling: `⌈a / b⌉ · b ≥ a` for positive `b`. -/
theorem cdiv_mul_ge (a b : Int) (hb : 0 < b) : a ≤ cdiv a b * b := by
  have h1 := Int.ediv_add_emod (-a) b
  have h2 := Int.emod_nonneg (-a) (ne_of_gt hb)
  unfold cdiv
  rw [show (-a).ediv b = -a / b from rfl]
  linarith

theorem getRemovableAux_facts (p : Prob) (j : Nat) (hjC : j < p.C) :
    ∀ (fuel : Nat) (s : AState) (red : Int) (l : List Idx4)
      (s2 : AState) (mvs : List IMove) (g : ℚ),
      getRemovableAux p fuel s red l = some (s2, mvs, g) →
      (∀ e ∈ l, jOf e = j ∧ iOf e < p.C) →
      s2.mtj = s.mtj ∧
      (∀ j2, j2 ≠ j → s2.done j2 = s.done j2) ∧
      (SInv p s → SInv p s2) ∧
      (∀ b, s.avail b ≤ s2.avail b) ∧
      (0 ≤ red → s.done j - red ≤ s2.done j) := by
  intro fuel
  induction fuel with
  | zero =>
    intro s red l s2 mvs g h
    exact absurd h (by simp [getRemovableAux])
  | succ f ih =>
    intro s red l s2 mvs g h hl
    by_cases hr : 0 < red
    · cases l with
      | nil =>
        rw [show getRemovableAux p (f + 1) s red [] =
            (if 0 < red then some (s, [], 0) else some (s, [], 0)) from rfl,
          if_pos hr] at h
        obtain ⟨h1, h23⟩ := Prod.mk.inj (Option.some_inj.mp h)
        subst h1
        exact ⟨rfl, fun _ _ => rfl, fun hs => hs, fun _ => le_refl _,
          fun hred => by omega⟩
      | cons e rest =>
        rw [show getRemovableAux p (f + 1) s red (e :: rest) =
            (if 0 < red then
              if p.act (mOf e) ≤ red ∧ 0 < s.sol e then
                match getRemovableAux p f
                    (applyMove ⟨e, -1, -(p.act (mOf e)), p.costs e⟩ s)
                    (red - p.act (mOf e)) (e :: rest) with
                | none => none
                | some (s3, mvs2, g2) =>
                  some (s3, (⟨e, -1, -(p.act (mOf e)), p.costs e⟩ : IMove) :: mvs2,
                    (⟨e, -1, -(p.act (mOf e)), p.costs e⟩ : IMove).gain + g2)
              else getRemovableAux p f s red rest
            else some (s, [], 0)) from rfl, if_pos hr] at h
        have hje := (hl e (List.mem_cons_self e rest)).1
        by_cases hrem : p.act (mOf e) ≤ red ∧ 0 < s.sol e
        · rw [if_pos hrem] at h
          cases hrec : getRemovableAux p f
              (applyMove ⟨e, -1, -(p.act (mOf e)), p.costs e⟩ s)
              (red - p.act (mOf e)) (e :: rest) with
          | none =>
            rw [hrec] at h
            exact absurd h (by simp)
          | some r2 =>
            obtain ⟨s3, mvs2, g2⟩ := r2
            rw [hrec] at h
            obtain ⟨h1, h23⟩ := Prod.mk.inj (Option.some_inj.mp h)
            subst h1
            obtain ⟨ih1, ih2, ih3, ih4, ih5⟩ := ih _ _ _ _ _ _ hrec hl
            have hmv : (applyMove ⟨e, -1, -(p.act (mOf e)), p.costs e⟩ s).mtj =
                s.mtj := rfl
            refine ⟨ih1.trans hmv, ?_, ?_, ?_, ?_⟩
            · intro j2 hj2
              rw [ih2 j2 hj2]
              show bump1 s.done (jOf e) (-(p.act (mOf e))) j2 = s.done j2
              unfold bump1
              rw [if_neg (fun hc => hj2 (by rw [hc, hje])), add_zero]
            · intro hs
              exact ih3 (SInv_applyMove p _ s (by show jOf e < p.C; rw [hje]; exact hjC) hs)
            · intro b
              refine le_trans ?_ (ih4 b)
              show s.avail b ≤ bump3 s.avail (bkt e) (-(-1)) b
              unfold bump3
              by_cases hb : b = bkt e
              · rw [if_pos hb]
                omega
              · rw [if_neg hb]
                omega
            · intro hred
              have h5 := ih5 (by omega)
              have hde : (applyMove ⟨e, -1, -(p.act (mOf e)), p.costs e⟩ s).done j =
                  s.done j - p.act (mOf e) := by
                show bump1 s.done (jOf e) (-(p.act (mOf e))) j = s.done j - p.act (mOf e)
                unfold bump1
                rw [if_pos hje.symm]
                ring
              rw [hde] at h5
              omega
        · rw [if_neg hrem] at h
          exact ih _ _ _ _ _ _ h (fun e2 he2 => hl e2 (List.mem_cons_of_mem e he2))
    · have hstep : getRemovableAux p (f + 1) s red l = some (s, [], 0) := by
        cases l with
        | nil =>
          rw [show getRemovableAux p (f + 1) s red [] =
              (if 0 < red then some (s, [], 0) else some (s, [], 0)) from rfl,
            if_neg hr]
        | cons e rest =>
          rw [show getRemovableAux p (f + 1) s red (e :: rest) =
              (if 0 < red then
                if p.act (mOf e) ≤ red ∧ 0 < s.sol e then
                  match getRemovableAux p f
                      (applyMove ⟨e, -1, -(p.act (mOf e)), p.costs e⟩ s)
                      (red - p.act (mOf e)) (e :: rest) with
                  | none => none
                  | some (s3, mvs2, g2) =>
                    some (s3, (⟨e, -1, -(p.act (mOf e)), p.costs e⟩ : IMove) :: mvs2,
                      (⟨e, -1, -(p.act (mOf e)), p.costs e⟩ : IMove).gain + g2)
                else getRemovableAux p f s red rest
              else some (s, [], 0)) from rfl, if_neg hr]
      rw [hstep] at h
      obtain ⟨h1, h23⟩ := Prod.mk.inj (Option.some_inj.mp h)
      subst h1
      exact ⟨rfl, fun _ _ => rfl, fun hs => hs, fun _ => le_refl _,
        fun hred => by omega⟩

theorem getRemovable_facts (p : Prob) (gfuel : Nat) (j : Nat) (hjC : j < p.C)
    (s s2 : AState) (mvs : List IMove) (g : ℚ)
    (h : getRemovable p gfuel j s = some (s2, mvs, g)) (hm : MInv p s) :
    (∀ j2, (s2.mtj j2).Perm (s.mtj j2)) ∧
    (∀ j2, j2 ≠ j → s2.done j2 = s.done j2) ∧
    (SInv p s → SInv p s2) ∧
    (∀ b, s.avail b ≤ s2.avail b) ∧
    (p.activities j ≤ s.done j → p.activities j ≤ s2.done j) := by
  unfold getRemovable at h
  by_cases hr : 0 < s.done j - p.activities j
  · rw [if_pos hr] at h
    have hperm : (sortDesc p (s.mtj j)).Perm (s.mtj j) := List.perm_insertionSort _ _
    obtain ⟨h1, h2, h3, h4, h5⟩ := getRemovableAux_facts p j hjC gfuel _ _ _ _ _ _ h
      (fun e he => by
        have := hm j e (hperm.mem_iff.mp he)
        exact ⟨this.1, this.2.1⟩)
    refine ⟨?_, h2, h3, h4, fun _ => by
      have h5x : s.done j - (s.done j - p.activities j) ≤ s2.done j :=
        h5 (by omega)
      omega⟩
    intro j2
    rw [h1]
    by_cases hj2 : j2 = j
    · subst hj2
      show (if j2 = j2 then sortDesc p (s.mtj j2) else s.mtj j2).Perm (s.mtj j2)
      rw [if_pos rfl]
      exact hperm
    · show (if j2 = j then sortDesc p (s.mtj j) else s.mtj j2).Perm (s.mtj j2)
      rw [if_neg hj2]
  · rw [if_neg hr] at h
    obtain ⟨h1, h23⟩ := Prod.mk.inj (Option.some_inj.mp h)
    subst h1
    exact ⟨fun _ => List.Perm.refl _, fun _ _ => rfl, fun hs => hs,
      fun _ => le_refl _, fun hd => hd⟩

theorem getRemovableAux_mtj (p : Prob) :
    ∀ (fuel : Nat) (s : AState) (red : Int) (l : List Idx4)
      (s2 : AState) (mvs : List IMove) (g : ℚ),
      getRemovableAux p fuel s red l = some (s2, mvs, g) → s2.mtj = s.mtj := by
  intro fuel s red l s2 mvs g h
  rw [getRemovableAux_state p fuel s red l s2 mvs g h, applyMoves_mtj]

theorem getRemovable_mtjPerm (p : Prob) (gfuel : Nat) (j : Nat)
    (s s2 : AState) (mvs : List IMove) (g : ℚ)
    (h : getRemovable p gfuel j s = some (s2, mvs, g)) :
    ∀ j2, (s2.mtj j2).Perm (s.mtj j2) := by
  unfold getRemovable at h
  by_cases hr : 0 < s.done j - p.activities j
  · rw [if_pos hr] at h
    intro j2
    rw [getRemovableAux_mtj p gfuel _ _ _ _ _ _ h]
    by_cases hj2 : j2 = j
    · subst hj2
      show (if j2 = j2 then sortDesc p (s.mtj j2) else s.mtj j2).Perm (s.mtj j2)
      rw [if_pos rfl]
      exact List.perm_insertionSort _ _
    · show (if j2 = j then sortDesc p (s.mtj j) else s.mtj j2).Perm (s.mtj j2)
      rw [if_neg hj2]
  · rw [if_neg hr] at h
    obtain ⟨h1, h23⟩ := Prod.mk.inj (Option.some_inj.mp h)
    subst h1
    exact fun _ => List.Perm.refl _

/-- Any result of the recursion leaves each `moves_to_j` list a permutation
of what it was (the only mutation is the in-place sort). -/
def RecPerm (rec : Nat → Idx4 → Int → ℚ → List Idx4 → AState →
    Option (Bool × ℚ × AState × List IMove)) : Prop :=
  ∀ lvl curr u2r g0 tabu s b g2 s2 mvs,
    rec lvl curr u2r g0 tabu s = some (b, g2, s2, mvs) →
    ∀ j2, (s2.mtj j2).Perm (s.mtj j2)

theorem tiSiblings_perm
    (rec : Nat → Idx4 → Int → ℚ → List Idx4 → AState →
      Option (Bool × ℚ × AState × List IMove))
    (hrec : RecPerm rec) (lvl1 newm newt : Nat) (u2r2 : Int) (g : ℚ)
    (tabu : List Idx4) :
    ∀ (l : List Idx4) (s : AState) (res : Option (AState × List IMove))
      (s3 : AState),
      tiSiblings rec lvl1 newm newt u2r2 g tabu l s = some (res, s3) →
      ∀ j2, (s3.mtj j2).Perm (s.mtj j2) := by
  intro l
  induction l with
  | nil =>
    intro s res s3 h j2
    obtain ⟨h1, h2⟩ := Prod.mk.inj (Option.some_inj.mp
      (show some ((none : Option (AState × List IMove)), s) = some (res, s3) from h))
    rw [← h2]
  | cons mv2 rest ih =>
    intro s res s3 h j2
    rw [show tiSiblings rec lvl1 newm newt u2r2 g tabu (mv2 :: rest) s =
        (if mOf mv2 = newm ∧ tOf mv2 = newt then
          match rec lvl1 mv2 u2r2 g tabu s with
          | none => none
          | some (true, _, s2, mvs) => some (some (s2, mvs), s2)
          | some (false, _, s2, _) =>
            tiSiblings rec lvl1 newm newt u2r2 g tabu rest s2
        else tiSiblings rec lvl1 newm newt u2r2 g tabu rest s) from rfl] at h
    by_cases hmt : mOf mv2 = newm ∧ tOf mv2 = newt
    · rw [if_pos hmt] at h
      cases hrc : rec lvl1 mv2 u2r2 g tabu s with
      | none =>
        rw [hrc] at h
        exact absurd h (by simp)
      | some r =>
        obtain ⟨b, g4, s4, mvs4⟩ := r
        rw [hrc] at h
        cases b with
        | true =>
          obtain ⟨h1, h2⟩ := Prod.mk.inj (Option.some_inj.mp
            (show some (some (s4, mvs4), s4) = some (res, s3) from h))
          rw [← h2]
          exact hrec _ _ _ _ _ _ _ _ _ _ hrc j2
        | false =>
          exact (ih s4 res s3 h j2).trans (hrec _ _ _ _ _ _ _ _ _ _ hrc j2)
    · rw [if_neg hmt] at h
      exact ih s res s3 h j2

theorem tiSiblings_res_eq
    (rec : Nat → Idx4 → Int → ℚ → List Idx4 → AState →
      Option (Bool × ℚ × AState × List IMove))
    (lvl1 newm newt : Nat) (u2r2 : Int) (g : ℚ) (tabu : List Idx4) :
    ∀ (l : List Idx4) (s sr st : AState) (nm : List IMove),
      tiSiblings rec lvl1 newm newt u2r2 g tabu l s = some (some (sr, nm), st) →
      sr = st := by
  intro l
  induction l with
  | nil =>
    intro s sr st nm h
    exact absurd (Prod.mk.inj (Option.some_inj.mp
      (show some ((none : Option (AState × List IMove)), s) =
        some (some (sr, nm), st) from h))).1 (by simp)
  | cons mv2 rest ih =>
    intro s sr st nm h
    rw [show tiSiblings rec lvl1 newm newt u2r2 g tabu (mv2 :: rest) s =
        (if mOf mv2 = newm ∧ tOf mv2 = newt then
          match rec lvl1 mv2 u2r2 g tabu s with
          | none => none
          | some (true, _, s2, mvs) => some (some (s2, mvs), s2)
          | some (false, _, s2, _) =>
            tiSiblings rec lvl1 newm newt u2r2 g tabu rest s2
        else tiSiblings rec lvl1 newm newt u2r2 g tabu rest s) from rfl] at h
    by_cases hmt : mOf mv2 = newm ∧ tOf mv2 = newt
    · rw [if_pos hmt] at h
      cases hrc : rec lvl1 mv2 u2r2 g tabu s with
      | none =>
        rw [hrc] at h
        exact absurd h (by simp)
      | some r =>
        obtain ⟨b, g4, s4, mvs4⟩ := r
        rw [hrc] at h
        cases b with
        | true =>
          obtain ⟨h1, h2⟩ := Prod.mk.inj (Option.some_inj.mp
            (show some (some (s4, mvs4), s4) = some (some (sr, nm), st) from h))
          obtain ⟨h3, h4⟩ := Prod.mk.inj (Option.some_inj.mp h1)
          rw [← h3, ← h2]
        | false =>
          exact ih s4 sr st nm h
    · rw [if_neg hmt] at h
      exact ih s sr st nm h

theorem tiLoop_perm (p : Prob) (mfi : Nat → List Idx4)
    (rec : Nat → Idx4 → Int → ℚ → List Idx4 → AState →
      Option (Bool × ℚ × AState × List IMove))
    (gfuel lvl : Nat) (j : Nat) (ar : Int) (tabu : List Idx4)
    (hrec : RecPerm rec) :
    ∀ (l : List Idx4) (s : AState) (g : ℚ) (moves : List IMove) (cnt : Nat)
      (b : Bool) (g2 : ℚ) (s2 : AState) (mvs : List IMove),
      tiLoop p mfi rec gfuel lvl j ar tabu l s g moves cnt =
        some (b, g2, s2, mvs) →
      ∀ j2, (s2.mtj j2).Perm (s.mtj j2) := by
  intro l
  induction l with
  | nil =>
    intro s g moves cnt b g2 s2 mvs h j2
    rw [tiLoop_nil_eq] at h
    obtain ⟨h1, h234⟩ := Prod.mk.inj (Option.some_inj.mp h)
    obtain ⟨h2, h34⟩ := Prod.mk.inj h234
    obtain ⟨h3, h4⟩ := Prod.mk.inj h34
    rw [← h3, undoAll_mtj]
  | cons e rest ih =>
    intro s g moves cnt b g2 s2 mvs h j2
    rw [tiLoop_cons_eq] at h
    by_cases hskip : e ∈ tabu ∨ p.avail (bkt e) < cdiv ar (p.act (mOf e))
    · rw [if_pos hskip] at h
      exact ih s g moves cnt b g2 s2 mvs h j2
    · rw [if_neg hskip] at h
      cases hgr : getRemovable p gfuel j (applyMove (tiMvA p j ar e) s) with
      | none =>
        rw [hgr] at h
        exact absurd h (by simp)
      | some r2 =>
        obtain ⟨s4, rmoves, rg⟩ := r2
        rw [hgr] at h
        replace h : (if g + (tiMvA p j ar e).gain + rg < -4 ∨ 20 < cnt + 1 then
            some (false, g + (tiMvA p j ar e).gain + rg -
                sumGain (moves ++ tiMvA p j ar e :: rmoves),
              undoAll (moves ++ tiMvA p j ar e :: rmoves) s4, [])
          else
            if 0 ≤ s4.avail (bkt e) then
              if 0 < g + (tiMvA p j ar e).gain + rg then
                some (true, g + (tiMvA p j ar e).gain + rg, s4,
                  moves ++ tiMvA p j ar e :: rmoves)
              else
                tiLoop p mfi rec gfuel lvl j ar tabu rest
                  (undoAll (tiMvA p j ar e :: rmoves).reverse s4)
                  (g + (tiMvA p j ar e).gain + rg -
                    sumGain (tiMvA p j ar e :: rmoves)) moves (cnt + 1)
            else
              match tiSiblings rec (lvl + 1) (mOf e) (tOf e)
                  (-(s4.avail (bkt e))) (g + (tiMvA p j ar e).gain + rg) tabu
                  (mfi (iOf e)) s4 with
              | none => none
              | some (some (s3, nmvs), _) =>
                some (true, g + (tiMvA p j ar e).gain + rg, s3,
                  (moves ++ tiMvA p j ar e :: rmoves) ++ nmvs)
              | some (none, s3) =>
                tiLoop p mfi rec gfuel lvl j ar tabu rest
                  (undoAll (tiMvA p j ar e :: rmoves).reverse s3)
                  (g + (tiMvA p j ar e).gain + rg -
                    sumGain (tiMvA p j ar e :: rmoves)) moves (cnt + 1)) =
            some (b, g2, s2, mvs) := h
        have hperm4 : ∀ j3, (s4.mtj j3).Perm (s.mtj j3) := fun j3 =>
          getRemovable_mtjPerm p gfuel j _ _ _ _ hgr j3
        by_cases hbrk : g + (tiMvA p j ar e).gain + rg < -4 ∨ 20 < cnt + 1
        · rw [if_pos hbrk] at h
          obtain ⟨h1, h234⟩ := Prod.mk.inj (Option.some_inj.mp h)
          obtain ⟨h2, h34⟩ := Prod.mk.inj h234
          obtain ⟨h3, h4⟩ := Prod.mk.inj h34
          rw [← h3, undoAll_mtj]
          exact hperm4 j2
        · rw [if_neg hbrk] at h
          by_cases hua : 0 ≤ s4.avail (bkt e)
          · rw [if_pos hua] at h
            by_cases hpos : 0 < g + (tiMvA p j ar e).gain + rg
            · rw [if_pos hpos] at h
              obtain ⟨h1, h234⟩ := Prod.mk.inj (Option.some_inj.mp h)
              obtain ⟨h2, h34⟩ := Prod.mk.inj h234
              obtain ⟨h3, h4⟩ := Prod.mk.inj h34
              rw [← h3]
              exact hperm4 j2
            · rw [if_neg hpos] at h
              refine (ih _ _ moves (cnt + 1) b g2 s2 mvs h j2).trans ?_
              rw [undoAll_mtj]
              exact hperm4 j2
          · rw [if_neg hua] at h
            cases hsib : tiSiblings rec (lvl + 1) (mOf e) (tOf e)
                (-(s4.avail (bkt e))) (g + (tiMvA p j ar e).gain + rg) tabu
                (mfi (iOf e)) s4 with
            | none =>
              rw [hsib] at h
              exact absurd h (by simp)
            | some r3 =>
              obtain ⟨res, s5⟩ := r3
              rw [hsib] at h
              have hperm5 : ∀ j3, (s5.mtj j3).Perm (s.mtj j3) := fun j3 =>
                (tiSiblings_perm rec hrec _ _ _ _ _ _ _ _ _ _ hsib j3).trans
                  (hperm4 j3)
              cases res with
              | some pr =>
                obtain ⟨s3, nmvs⟩ := pr
                obtain ⟨h1, h234⟩ := Prod.mk.inj (Option.some_inj.mp h)
                obtain ⟨h2, h34⟩ := Prod.mk.inj h234
                obtain ⟨h3, h4⟩ := Prod.mk.inj h34
                rw [← h3, tiSiblings_res_eq rec _ _ _ _ _ _ _ _ _ _ _ hsib]
                exact hperm5 j2
              | none =>
                refine (ih _ _ moves (cnt + 1) b g2 s2 mvs h j2).trans ?_
                rw [undoAll_mtj]
                exact hperm5 j2

theorem tryImprove_perm (p : Prob) (mfi : Nat → List Idx4) (gfuel : Nat) :
    ∀ fuel : Nat, RecPerm (tryImprove p mfi gfuel fuel) := by
  intro fuel
  induction fuel with
  | zero =>
    intro lvl curr u2r g0 tabu s b g2 s2 mvs h
    exact absurd h (by simp [tryImprove])
  | succ f ih =>
    intro lvl curr u2r g0 tabu s b g2 s2 mvs h
    rw [tryImprove_succ_eq] at h
    by_cases hgd : s.sol curr < u2r ∨ 5 < lvl ∨ curr ∈ tabu
    · rw [if_pos hgd] at h
      obtain ⟨h1, h234⟩ := Prod.mk.inj (Option.some_inj.mp h)
      obtain ⟨h2, h34⟩ := Prod.mk.inj h234
      obtain ⟨h3, h4⟩ := Prod.mk.inj h34
      rw [← h3]
      exact fun _ => List.Perm.refl _
    · rw [if_neg hgd] at h
      intro j2
      exact tiLoop_perm p mfi (tryImprove p mfi gfuel f) gfuel lvl (jOf curr)
        (p.act (mOf curr) * u2r) (tabu ++ [curr]) ih _ _ _ _ _ _ _ _ _ h j2

def WfIdx (p : Prob) (x : Idx4) : Prop :=
  iOf x < p.C ∧ jOf x < p.C ∧ mOf x < p.M ∧ tOf x < p.T

/-- `moves_from_i` well-formedness: the stored moves are in range and filed
under their source cell. -/
def MfiWF (p : Prob) (mfi : Nat → List Idx4) : Prop :=
  ∀ i < p.C, ∀ e ∈ mfi i, WfIdx p e ∧ iOf e = i

/-- Invariant preservation by a successful call of the recursion: from a
state whose ledgers are consistent, whose supply is non-negative except
possibly at the bucket the call is asked to drain (by no more than
`users_to_remove`), and whose demands are all met, a `true` return yields a
state with consistent ledgers, non-negative supply everywhere and all
demands met. -/
def RecPreserves (p : Prob) (rec : Nat → Idx4 → Int → ℚ → List Idx4 → AState →
    Option (Bool × ℚ × AState × List IMove)) : Prop :=
  ∀ lvl curr u2r g0 tabu s g2 s2 mvs,
    rec lvl curr u2r g0 tabu s = some (true, g2, s2, mvs) →
    WfIdx p curr →
    SInv p s → MInv p s → DInv p s →
    (∀ b ∈ buckets p, b ≠ bkt curr → 0 ≤ s.avail b) →
    0 ≤ s.avail (bkt curr) + u2r →
    SInv p s2 ∧ MInv p s2 ∧ AInv p s2 ∧ DInv p s2

theorem DInv_coreEq {p : Prob} {s1 s2 : AState} (h : coreEq s1 s2)
    (hd : DInv p s2) : DInv p s1 := by
  intro j hj
  rw [h.2.2]
  exact hd j hj

theorem tiSiblings_pres (p : Prob)
    (rec : Nat → Idx4 → Int → ℚ → List Idx4 → AState →
      Option (Bool × ℚ × AState × List IMove))
    (hrecP : RecPreserves p rec) (hrecR : RecRestores rec) (hrecPerm : RecPerm rec)
    (lvl1 newm newt i0 : Nat) (u2r2 : Int) (g : ℚ) (tabu : List Idx4) :
    ∀ (l : List Idx4) (s : AState) (res : Option (AState × List IMove))
      (s3 : AState),
      tiSiblings rec lvl1 newm newt u2r2 g tabu l s = some (res, s3) →
      (∀ mv2 ∈ l, WfIdx p mv2 ∧ iOf mv2 = i0) →
      SInv p s → MInv p s → DInv p s →
      (∀ b ∈ buckets p, b ≠ (i0, newm, newt) → 0 ≤ s.avail b) →
      0 ≤ s.avail (i0, newm, newt) + u2r2 →
      ∀ s4 nm, res = some (s4, nm) →
      SInv p s4 ∧ MInv p s4 ∧ AInv p s4 ∧ DInv p s4 := by
  intro l
  induction l with
  | nil =>
    intro s res s3 h _ _ _ _ _ _ s4 nm hres
    obtain ⟨h1, h2⟩ := Prod.mk.inj (Option.some_inj.mp
      (show some ((none : Option (AState × List IMove)), s) = some (res, s3) from h))
    rw [← h1] at hres
    exact absurd hres (by simp)
  | cons mv2 rest ih =>
    intro s res s3 h hwf hs hm hd hax ha0 s4 nm hres
    rw [show tiSiblings rec lvl1 newm newt u2r2 g tabu (mv2 :: rest) s =
        (if mOf mv2 = newm ∧ tOf mv2 = newt then
          match rec lvl1 mv2 u2r2 g tabu s with
          | none => none
          | some (true, _, s2, mvs) => some (some (s2, mvs), s2)
          | some (false, _, s2, _) =>
            tiSiblings rec lvl1 newm newt u2r2 g tabu rest s2
        else tiSiblings rec lvl1 newm newt u2r2 g tabu rest s) from rfl] at h
    by_cases hmt : mOf mv2 = newm ∧ tOf mv2 = newt
    · rw [if_pos hmt] at h
      cases hrc : rec lvl1 mv2 u2r2 g tabu s with
      | none =>
        rw [hrc] at h
        exact absurd h (by simp)
      | some r =>
        obtain ⟨b, g4, s5, mvs4⟩ := r
        rw [hrc] at h
        have hbkt : bkt mv2 = (i0, newm, newt) := by
          rw [bkt_eq, (hwf mv2 (List.mem_cons_self mv2 rest)).2, hmt.1, hmt.2]
        cases b with
        | true =>
          obtain ⟨h1, h2⟩ := Prod.mk.inj (Option.some_inj.mp
            (show some (some (s5, mvs4), s5) = some (res, s3) from h))
          rw [← h1] at hres
          obtain ⟨h3, h4⟩ := Prod.mk.inj (Option.some_inj.mp hres)
          rw [← h3]
          exact hrecP lvl1 mv2 u2r2 g tabu s g4 s5 mvs4 hrc
            (hwf mv2 (List.mem_cons_self mv2 rest)).1 hs hm hd
            (fun b2 hb2 hne => hax b2 hb2 (by rw [← hbkt]; exact hne))
            (by rw [hbkt]; exact ha0)
        | false =>
          have hc := hrecR lvl1 mv2 u2r2 g tabu s g4 s5 mvs4 hrc
          have hp := hrecPerm lvl1 mv2 u2r2 g tabu s false g4 s5 mvs4 hrc
          exact ih s5 res s3 h
            (fun e he => hwf e (List.mem_cons_of_mem mv2 he))
            (SInv_coreEq hc hs) (MInv_of_perm hp hm) (DInv_coreEq hc hd)
            (fun b2 hb2 hne => by rw [hc.2.1]; exact hax b2 hb2 hne)
            (by rw [hc.2.1]; exact ha0) s4 nm hres
    · rw [if_neg hmt] at h
      exact ih s res s3 h (fun e he => hwf e (List.mem_cons_of_mem mv2 he))
        hs hm hd hax ha0 s4 nm hres

/-- The loop-head invariant of the candidate scan: consistent ledgers,
non-negative supply, all demands met except that the current destination
may be short by the removed activities. -/
def LoopHead (p : Prob) (j : Nat) (ar : Int) (s : AState) : Prop :=
  SInv p s ∧ MInv p s ∧ AInv p s ∧
  (∀ j2 < p.C, j2 ≠ j → p.activities j2 ≤ s.done j2) ∧
  p.activities j - ar ≤ s.done j

theorem LoopHead_transport (p : Prob) (j : Nat) (ar : Int) {s' s : AState}
    (hc : coreEq s' s) (hp : ∀ j2, (s'.mtj j2).Perm (s.mtj j2))
    (h : LoopHead p j ar s) : LoopHead p j ar s' := by
  obtain ⟨h1, h2, h3, h4, h5⟩ := h
  refine ⟨SInv_coreEq hc h1, MInv_of_perm hp h2, ?_, ?_, ?_⟩
  · intro b hb
    rw [hc.2.1]
    exact h3 b hb
  · intro j2 hj2 hne
    rw [hc.2.2]
    exact h4 j2 hj2 hne
  · rw [hc.2.2]
    exact h5

theorem tiLoop_pres (p : Prob) (mfi : Nat → List Idx4)
    (rec : Nat → Idx4 → Int → ℚ → List Idx4 → AState →
      Option (Bool × ℚ × AState × List IMove))
    (gfuel lvl : Nat) (j : Nat) (ar : Int) (tabu : List Idx4)
    (hact : ∀ m < p.M, 1 ≤ p.act m) (hjC : j < p.C) (hmfi : MfiWF p mfi)
    (hrecP : RecPreserves p rec) (hrecR : RecRestores rec)
    (hrecPerm : RecPerm rec) :
    ∀ (l : List Idx4) (s : AState) (g : ℚ) (moves : List IMove) (cnt : Nat)
      (g2 : ℚ) (s2 : AState) (mvs : List IMove),
      tiLoop p mfi rec gfuel lvl j ar tabu l s g moves cnt =
        some (true, g2, s2, mvs) →
      (∀ e ∈ l, jOf e = j ∧ iOf e < p.C ∧ mOf e < p.M ∧ tOf e < p.T) →
      LoopHead p j ar s →
      SInv p s2 ∧ MInv p s2 ∧ AInv p s2 ∧ DInv p s2 := by
  intro l
  induction l with
  | nil =>
    intro s g moves cnt g2 s2 mvs h _ _
    rw [tiLoop_nil_eq] at h
    exact absurd (Prod.mk.inj (Option.some_inj.mp h)).1 (by simp)
  | cons e rest ih =>
    intro s g moves cnt g2 s2 mvs h hl hhead
    obtain ⟨hsE, hmE, haE, hdE, hdjE⟩ := hhead
    obtain ⟨hje, hie, hme, hte⟩ := hl e (List.mem_cons_self e rest)
    rw [tiLoop_cons_eq] at h
    by_cases hskip : e ∈ tabu ∨ p.avail (bkt e) < cdiv ar (p.act (mOf e))
    · rw [if_pos hskip] at h
      exact ih s g moves cnt g2 s2 mvs h
        (fun e2 he2 => hl e2 (List.mem_cons_of_mem e he2)) ⟨hsE, hmE, haE, hdE, hdjE⟩
    · rw [if_neg hskip] at h
      have hidx : commitIdx j e = e := by
        obtain ⟨i, j2, m, t⟩ := e
        simp only [commitIdx, iOf, mOf, tOf]
        simp only [jOf] at hje
        rw [hje]
      have hmvj : jOf (tiMvA p j ar e).f_idx = j := by
        show jOf (commitIdx j e) = j
        rw [hidx]
        exact hje
      -- facts about the state after the insertion move
      have hs1S : SInv p (applyMove (tiMvA p j ar e) s) :=
        SInv_applyMove p _ s (by rw [hmvj]; exact hjC) hsE
      have hs1M : MInv p (applyMove (tiMvA p j ar e) s) := hmE
      have hs1availne : ∀ b, b ≠ bkt e →
          (applyMove (tiMvA p j ar e) s).avail b = s.avail b := by
        intro b hb
        show bump3 s.avail (bkt (tiMvA p j ar e).f_idx) _ b = s.avail b
        unfold bump3
        rw [if_neg (by
          show ¬b = bkt (commitIdx j e)
          rw [hidx]
          exact hb), add_zero]
      have hs1done_ne : ∀ j2, j2 ≠ j →
          (applyMove (tiMvA p j ar e) s).done j2 = s.done j2 := by
        intro j2 hj2
        show bump1 s.done (jOf (tiMvA p j ar e).f_idx) _ j2 = s.done j2
        unfold bump1
        rw [if_neg (fun hc => hj2 (by rw [hc, hmvj])), add_zero]
      have hs1done_j : (applyMove (tiMvA p j ar e) s).done j =
          s.done j + cdiv ar (p.act (mOf e)) * p.act (mOf e) := by
        show bump1 s.done (jOf (tiMvA p j ar e).f_idx) (tiMvA p j ar e).acts j =
          s.done j + cdiv ar (p.act (mOf e)) * p.act (mOf e)
        unfold bump1
        rw [if_pos hmvj.symm]
        rfl
      have hdj1 : p.activities j ≤ (applyMove (tiMvA p j ar e) s).done j := by
        rw [hs1done_j]
        have := cdiv_mul_ge ar (p.act (mOf e)) (by
          have := hact (mOf e) hme
          omega)
        omega
      cases hgr : getRemovable p gfuel j (applyMove (tiMvA p j ar e) s) with
      | none =>
        rw [hgr] at h
        exact absurd h (by simp)
      | some r2 =>
        obtain ⟨s4, rmoves, rg⟩ := r2
        rw [hgr] at h
        replace h : (if g + (tiMvA p j ar e).gain + rg < -4 ∨ 20 < cnt + 1 then
            some (false, g + (tiMvA p j ar e).gain + rg -
                sumGain (moves ++ tiMvA p j ar e :: rmoves),
              undoAll (moves ++ tiMvA p j ar e :: rmoves) s4, [])
          else
            if 0 ≤ s4.avail (bkt e) then
              if 0 < g + (tiMvA p j ar e).gain + rg then
                some (true, g + (tiMvA p j ar e).gain + rg, s4,
                  moves ++ tiMvA p j ar e :: rmoves)
              else
                tiLoop p mfi rec gfuel lvl j ar tabu rest
                  (undoAll (tiMvA p j ar e :: rmoves).reverse s4)
                  (g + (tiMvA p j ar e).gain + rg -
                    sumGain (tiMvA p j ar e :: rmoves)) moves (cnt + 1)
            else
              match tiSiblings rec (lvl + 1) (mOf e) (tOf e)
                  (-(s4.avail (bkt e))) (g + (tiMvA p j ar e).gain + rg) tabu
                  (mfi (iOf e)) s4 with
              | none => none
              | some (some (s3, nmvs), _) =>
                some (true, g + (tiMvA p j ar e).gain + rg, s3,
                  (moves ++ tiMvA p j ar e :: rmoves) ++ nmvs)
              | some (none, s3) =>
                tiLoop p mfi rec gfuel lvl j ar tabu rest
                  (undoAll (tiMvA p j ar e :: rmoves).reverse s3)
                  (g + (tiMvA p j ar e).gain + rg -
                    sumGain (tiMvA p j ar e :: rmoves)) moves (cnt + 1)) =
            some (true, g2, s2, mvs) := h
        obtain ⟨gr1, gr2, gr3, gr4, gr5⟩ :=
          getRemovable_facts p gfuel j hjC _ s4 rmoves rg hgr hs1M
        have hs4S : SInv p s4 := gr3 hs1S
        have hs4M : MInv p s4 := MInv_of_perm gr1 hs1M
        have hs4avail_ne : ∀ b ∈ buckets p, b ≠ bkt e → 0 ≤ s4.avail b := by
          intro b hb hne
          have := gr4 b
          rw [hs1availne b hne] at this
          have := haE b hb
          omega
        have hs4D : DInv p s4 := by
          intro j2 hj2
          by_cases hj2e : j2 = j
          · subst hj2e
            exact gr5 hdj1
          · rw [gr2 j2 hj2e, hs1done_ne j2 hj2e]
            exact hdE j2 hj2 hj2e
        have hcore4 : coreEq s4 (applyMoves (tiMvA p j ar e :: rmoves) s) :=
          getRemovable_coreEq p gfuel j _ s4 rmoves rg hgr
        have hundo : ∀ s5 : AState, coreEq s5 (applyMoves (tiMvA p j ar e :: rmoves) s) →
            coreEq (undoAll (tiMvA p j ar e :: rmoves).reverse s5) s := by
          intro s5 h5
          refine coreEq_trans (undoAll_coreEq _ h5) ?_
          rw [undoAll_reverse_applyMoves]
          exact coreEq_refl _
        by_cases hbrk : g + (tiMvA p j ar e).gain + rg < -4 ∨ 20 < cnt + 1
        · rw [if_pos hbrk] at h
          exact absurd (Prod.mk.inj (Option.some_inj.mp h)).1 (by simp)
        · rw [if_neg hbrk] at h
          by_cases hua : 0 ≤ s4.avail (bkt e)
          · rw [if_pos hua] at h
            by_cases hpos : 0 < g + (tiMvA p j ar e).gain + rg
            · rw [if_pos hpos] at h
              obtain ⟨h1, h234⟩ := Prod.mk.inj (Option.some_inj.mp h)
              obtain ⟨h2, h34⟩ := Prod.mk.inj h234
              obtain ⟨h3, h4⟩ := Prod.mk.inj h34
              rw [← h3]
              refine ⟨hs4S, hs4M, ?_, hs4D⟩
              intro b hb
              by_cases hbe : b = bkt e
              · rw [hbe]
                exact hua
              · exact hs4avail_ne b hb hbe
            · rw [if_neg hpos] at h
              refine ih _ _ moves (cnt + 1) g2 s2 mvs h
                (fun e2 he2 => hl e2 (List.mem_cons_of_mem e he2)) ?_
              refine LoopHead_transport p j ar (hundo s4 hcore4) ?_
                ⟨hsE, hmE, haE, hdE, hdjE⟩
              intro j2
              rw [undoAll_mtj]
              exact gr1 j2
          · rw [if_neg hua] at h
            cases hsib : tiSiblings rec (lvl + 1) (mOf e) (tOf e)
                (-(s4.avail (bkt e))) (g + (tiMvA p j ar e).gain + rg) tabu
                (mfi (iOf e)) s4 with
            | none =>
              rw [hsib] at h
              exact absurd h (by simp)
            | some r3 =>
              obtain ⟨res, s5⟩ := r3
              rw [hsib] at h
              cases res with
              | some pr =>
                obtain ⟨s3, nmvs⟩ := pr
                obtain ⟨h1, h234⟩ := Prod.mk.inj (Option.some_inj.mp h)
                obtain ⟨h2, h34⟩ := Prod.mk.inj h234
                obtain ⟨h3, h4⟩ := Prod.mk.inj h34
                rw [← h3]
                refine tiSiblings_pres p rec hrecP hrecR hrecPerm (lvl + 1)
                  (mOf e) (tOf e) (iOf e) (-(s4.avail (bkt e)))
                  (g + (tiMvA p j ar e).gain + rg) tabu (mfi (iOf e)) s4 _ _ hsib
                  (fun e2 he2 => hmfi (iOf e) hie e2 he2) hs4S hs4M hs4D
                  ?_ ?_ s3 nmvs rfl
                · intro b hb hne
                  refine hs4avail_ne b hb ?_
                  rw [bkt_eq]
                  exact hne
                · rw [show ((iOf e, mOf e, tOf e) : Idx3) = bkt e from (bkt_eq e).symm]
                  omega
              | none =>
                have hc5 : coreEq s5 s4 :=
                  tiSiblings_restore rec hrecR _ _ _ _ _ _ _ _ _ hsib
                have hp5 : ∀ j2, (s5.mtj j2).Perm (s4.mtj j2) := fun j2 =>
                  tiSiblings_perm rec hrecPerm _ _ _ _ _ _ _ _ _ _ hsib j2
                refine ih _ _ moves (cnt + 1) g2 s2 mvs h
                  (fun e2 he2 => hl e2 (List.mem_cons_of_mem e he2)) ?_
                refine LoopHead_transport p j ar
                  (hundo s5 (coreEq_trans hc5 hcore4)) ?_
                  ⟨hsE, hmE, haE, hdE, hdjE⟩
                intro j2
                rw [undoAll_mtj]
                exact (hp5 j2).trans (gr1 j2)

theorem tryImprove_pres (p : Prob) (mfi : Nat → List Idx4) (gfuel : Nat)
    (hact : ∀ m < p.M, 1 ≤ p.act m) (hmfi : MfiWF p mfi) :
    ∀ fuel : Nat, RecPreserves p (tryImprove p mfi gfuel fuel) := by
  intro fuel
  induction fuel with
  | zero =>
    intro lvl curr u2r g0 tabu s g2 s2 mvs h
    exact absurd h (by simp [tryImprove])
  | succ f ih =>
    intro lvl curr u2r g0 tabu s g2 s2 mvs h hwf hs hm hd hax ha0
    rw [tryImprove_succ_eq] at h
    by_cases hgd : s.sol curr < u2r ∨ 5 < lvl ∨ curr ∈ tabu
    · rw [if_pos hgd] at h
      exact absurd (Prod.mk.inj (Option.some_inj.mp h)).1 (by simp)
    · rw [if_neg hgd] at h
      obtain ⟨hiC, hjC, hmM, htT⟩ := hwf
      refine tiLoop_pres p mfi (tryImprove p mfi gfuel f) gfuel lvl (jOf curr)
        (p.act (mOf curr) * u2r) (tabu ++ [curr]) hact hjC hmfi ih
        (tryImprove_restore p mfi gfuel f) (tryImprove_perm p mfi gfuel f)
        _ _ _ _ _ g2 s2 mvs h ?_ ?_
      · intro e2 he2
        have hmem := (mem_cellCandidates p (jOf curr) e2).mp
          ((mem_costs_order p _ (jOf curr) e2).mp he2)
        exact ⟨hmem.1, hmem.2.1, hmem.2.2.2.1, hmem.2.2.2.2.1⟩
      · -- the loop head after the initial removal
        have hmv0j : jOf (tiMv0 p curr u2r).f_idx = jOf curr := rfl
        have hmv0b : bkt (tiMv0 p curr u2r).f_idx = bkt curr := rfl
        refine ⟨SInv_applyMove p _ s (by rw [hmv0j]; exact hjC) hs, hm, ?_, ?_, ?_⟩
        · intro b hb
          show 0 ≤ bump3 s.avail (bkt (tiMv0 p curr u2r).f_idx)
            (-(tiMv0 p curr u2r).users) b
          unfold bump3
          rw [hmv0b]
          by_cases hbe : b = bkt curr
          · rw [if_pos hbe, hbe]
            show 0 ≤ s.avail (bkt curr) + -(-u2r)
            omega
          · rw [if_neg hbe]
            have := hax b hb hbe
            omega
        · intro j2 hj2 hne
          show p.activities j2 ≤
            bump1 s.done (jOf (tiMv0 p curr u2r).f_idx) (tiMv0 p curr u2r).acts j2
          unfold bump1
          rw [hmv0j, if_neg (fun hc => hne hc), add_zero]
          exact hd j2 hj2
        · show p.activities (jOf curr) - p.act (mOf curr) * u2r ≤
            bump1 s.done (jOf (tiMv0 p curr u2r).f_idx) (tiMv0 p curr u2r).acts
              (jOf curr)
          unfold bump1
          rw [hmv0j, if_pos rfl]
          show p.activities (jOf curr) - p.act (mOf curr) * u2r ≤
            s.done (jOf curr) + -(p.act (mOf curr) * u2r)
          have := hd (jOf curr) hjC
          omega

/-- The `while(!time_finished && try_improve(...))` loop of
`improving_phase` (line 437): repeat from a fresh parameter
(`param.clear()` resets the gain, the move list and the tabu list) until a
call fails. -/
def tiWhile (p : Prob) (mfi : Nat → List Idx4) (gfuel tif : Nat)
    (curr : Idx4) (u2r : Int) : Nat → AState → Option AState
  | 0, _ => none
  | k + 1, s =>
    match tryImprove p mfi gfuel tif 0 curr u2r 0 [] s with
    | none => none
    | some (false, _, s2, _) => some s2
    | some (true, _, s2, _) => tiWhile p mfi gfuel tif curr u2r k s2

/-- `improving_phase` (lines 426-448): for each stored move and each user
count from `max_act_per_user` down to 1 (the `pairs` list), run the improve
loop. -/
def improvingPhase (p : Prob) (mfi : Nat → List Idx4) (gfuel tif wfuel : Nat) :
    List (Idx4 × Int) → AState → Option AState
  | [], s => some s
  | (curr, u2r) :: rest, s =>
    match tiWhile p mfi gfuel tif curr u2r wfuel s with
    | none => none
    | some s2 => improvingPhase p mfi gfuel tif wfuel rest s2

/-- `moves_to_j[j]` as built by `improving_setup` (lines 454-476): all
tuples `(i,j,m,t)` with `i ≠ j` whose solution entry is non-zero, in
`i, m, t` order. -/
def movesToJ (p : Prob) (sol : Idx4 → Int) (j : Nat) : List Idx4 :=
  (List.range p.C).flatMap fun i =>
    if i = j then []
    else (List.range p.M).flatMap fun m =>
      (List.range p.T).filterMap fun t =>
        if sol (i, j, m, t) ≠ 0 then some (i, j, m, t) else none

/-- `moves_from_i[i]` of `improving_setup`. -/
def movesFromI (p : Prob) (sol : Idx4 → Int) (i : Nat) : List Idx4 :=
  (List.range p.C).flatMap fun j =>
    if i = j then []
    else (List.range p.M).flatMap fun m =>
      (List.range p.T).filterMap fun t =>
        if sol (i, j, m, t) ≠ 0 then some (i, j, m, t) else none

/-- `improving_setup` (lines 450-478): the residual supply and the activity
counters accumulated over the off-diagonal solution entries. -/
def improving_setup (p : Prob) (sol : Idx4 → Int) : AState :=
  { sol := sol
    avail := fun b => p.avail b -
      ∑ j ∈ Finset.range p.C, if j = b.1 then 0 else sol (b.1, j, b.2.1, b.2.2)
    done := fun j => ∑ b ∈ buckets p,
      if b.1 = j then 0 else p.act b.2.1 * sol (b.1, j, b.2.1, b.2.2)
    mtj := movesToJ p sol }

theorem improving_setup_avail (p : Prob) (sol : Idx4 → Int)
    (hdiag : ∀ x : Idx4, iOf x = jOf x → sol x = 0) (b : Idx3) :
    (improving_setup p sol).avail b = p.avail b - sumSolJ p b sol := by
  show p.avail b - _ = p.avail b - sumSolJ p b sol
  unfold sumSolJ
  congr 1
  apply Finset.sum_congr rfl
  intro j _
  by_cases hj : j = b.1
  · rw [if_pos hj, hdiag (b.1, j, b.2.1, b.2.2) (by rw [iOf, jOf, hj])]
  · rw [if_neg hj]

theorem improving_setup_done (p : Prob) (sol : Idx4 → Int)
    (hdiag : ∀ x : Idx4, iOf x = jOf x → sol x = 0) (j : Nat) :
    (improving_setup p sol).done j = doneJ p j sol := by
  show (∑ b ∈ buckets p, _) = doneJ p j sol
  unfold doneJ
  apply Finset.sum_congr rfl
  intro b _
  by_cases hb : b.1 = j
  · rw [if_pos hb, hdiag (b.1, j, b.2.1, b.2.2) (by rw [iOf, jOf, hb]), mul_zero]
  · rw [if_neg hb]

theorem mem_movesToJ (p : Prob) (sol : Idx4 → Int) (j : Nat) (e : Idx4) :
    e ∈ movesToJ p sol j →
    jOf e = j ∧ iOf e < p.C ∧ mOf e < p.M ∧ tOf e < p.T := by
  intro he
  obtain ⟨i, j2, m, t⟩ := e
  simp only [movesToJ, List.mem_flatMap, List.mem_filterMap, List.mem_range] at he
  obtain ⟨i2, hi2, he2⟩ := he
  by_cases hij : i2 = j
  · rw [if_pos hij] at he2
    exact absurd he2 (List.not_mem_nil _)
  · rw [if_neg hij] at he2
    simp only [List.mem_flatMap, List.mem_filterMap, List.mem_range] at he2
    obtain ⟨m2, hm2, t2, ht2, he3⟩ := he2
    by_cases hz : sol (i2, j, m2, t2) ≠ 0
    · rw [if_pos hz] at he3
      obtain ⟨h1, h234⟩ := Prod.mk.inj (Option.some_inj.mp he3)
      obtain ⟨h2, h34⟩ := Prod.mk.inj h234
      obtain ⟨h3, h4⟩ := Prod.mk.inj h34
      simp only [jOf, iOf, mOf, tOf]
      refine ⟨h2.symm, ?_, ?_, ?_⟩
      · rw [← h1]
        exact hi2
      · rw [← h3]
        exact hm2
      · rw [← h4]
        exact ht2
    · rw [if_neg hz] at he3
      exact absurd he3 (by simp)

theorem improving_setup_MInv (p : Prob) (sol : Idx4 → Int) :
    MInv p (improving_setup p sol) := by
  intro j e he
  exact mem_movesToJ p sol j e he

theorem movesFromI_WF (p : Prob) (sol : Idx4 → Int) :
    MfiWF p (movesFromI p sol) := by
  intro i hiC e he
  obtain ⟨i2, j2, m2, t2⟩ := e
  simp only [movesFromI, List.mem_flatMap, List.mem_filterMap, List.mem_range] at he
  obtain ⟨j3, hj3, he2⟩ := he
  by_cases hij : i = j3
  · rw [if_pos hij] at he2
    exact absurd he2 (List.not_mem_nil _)
  · rw [if_neg hij] at he2
    simp only [List.mem_flatMap, List.mem_filterMap, List.mem_range] at he2
    obtain ⟨m3, hm3, t3, ht3, he3⟩ := he2
    by_cases hz : sol (i, j3, m3, t3) ≠ 0
    · rw [if_pos hz] at he3
      obtain ⟨h1, h234⟩ := Prod.mk.inj (Option.some_inj.mp he3)
      obtain ⟨h2, h34⟩ := Prod.mk.inj h234
      obtain ⟨h3, h4⟩ := Prod.mk.inj h34
      simp only [WfIdx, jOf, iOf, mOf, tOf]
      refine ⟨⟨?_, ?_, ?_, ?_⟩, h1.symm⟩
      · rw [← h1]
        exact hiC
      · rw [← h2]
        exact hj3
      · rw [← h3]
        exact hm3
      · rw [← h4]
        exact ht3
    · rw [if_neg hz] at he3
      exact absurd he3 (by simp)

theorem tiWhile_pres (p : Prob) (mfi : Nat → List Idx4) (gfuel tif : Nat)
    (hact : ∀ m < p.M, 1 ≤ p.act m) (hmfi : MfiWF p mfi)
    (curr : Idx4) (u2r : Int) (hwf : WfIdx p curr) (hu : 0 ≤ u2r) :
    ∀ (k : Nat) (s s2 : AState),
      tiWhile p mfi gfuel tif curr u2r k s = some s2 →
      SInv p s → MInv p s → AInv p s → DInv p s →
      SInv p s2 ∧ MInv p s2 ∧ AInv p s2 ∧ DInv p s2 := by
  intro k
  induction k with
  | zero =>
    intro s s2 h
    exact absurd h (by simp [tiWhile])
  | succ k2 ih =>
    intro s s2 h hs hm ha hd
    rw [show tiWhile p mfi gfuel tif curr u2r (k2 + 1) s =
        (match tryImprove p mfi gfuel tif 0 curr u2r 0 [] s with
        | none => none
        | some (false, _, s3, _) => some s3
        | some (true, _, s3, _) => tiWhile p mfi gfuel tif curr u2r k2 s3)
        from rfl] at h
    cases hti : tryImprove p mfi gfuel tif 0 curr u2r 0 [] s with
    | none =>
      rw [hti] at h
      exact absurd h (by simp)
    | some r =>
      obtain ⟨b, g3, s3, mvs3⟩ := r
      rw [hti] at h
      cases b with
      | false =>
        replace h : some s3 = some s2 := h
        rw [← Option.some_inj.mp h]
        have hc := tryImprove_restore p mfi gfuel tif 0 curr u2r 0 [] s g3 s3 mvs3 hti
        have hp := tryImprove_perm p mfi gfuel tif 0 curr u2r 0 [] s false g3 s3 mvs3 hti
        refine ⟨SInv_coreEq hc hs, MInv_of_perm hp hm, ?_, DInv_coreEq hc hd⟩
        intro b2 hb2
        rw [hc.2.1]
        exact ha b2 hb2
      | true =>
        replace h : tiWhile p mfi gfuel tif curr u2r k2 s3 = some s2 := h
        obtain ⟨h1, h2, h3, h4⟩ :=
          tryImprove_pres p mfi gfuel hact hmfi tif 0 curr u2r 0 [] s g3 s3 mvs3
            hti hwf hs hm hd (fun b2 hb2 _ => ha b2 hb2)
            (by
              have : 0 ≤ s.avail (bkt curr) :=
                ha (bkt curr) (bkt_mem_buckets p curr hwf.1 hwf.2.2.1 hwf.2.2.2)
              omega)
        exact ih s3 s2 h h1 h2 h3 h4

theorem improvingPhase_pres (p : Prob) (mfi : Nat → List Idx4)
    (gfuel tif wfuel : Nat) (hact : ∀ m < p.M, 1 ≤ p.act m) (hmfi : MfiWF p mfi) :
    ∀ (pairs : List (Idx4 × Int)) (s s2 : AState),
      improvingPhase p mfi gfuel tif wfuel pairs s = some s2 →
      (∀ pr ∈ pairs, WfIdx p pr.1 ∧ 0 ≤ pr.2) →
      SInv p s → MInv p s → AInv p s → DInv p s →
      SInv p s2 ∧ MInv p s2 ∧ AInv p s2 ∧ DInv p s2 := by
  intro pairs
  induction pairs with
  | nil =>
    intro s s2 h _ hs hm ha hd
    rw [← Option.some_inj.mp (show some s = some s2 from h)]
    exact ⟨hs, hm, ha, hd⟩
  | cons pr rest ih =>
    obtain ⟨curr, u2r⟩ := pr
    intro s s2 h hp hs hm ha hd
    rw [show improvingPhase p mfi gfuel tif wfuel ((curr, u2r) :: rest) s =
        (match tiWhile p mfi gfuel tif curr u2r wfuel s with
        | none => none
        | some s3 => improvingPhase p mfi gfuel tif wfuel rest s3) from rfl] at h
    cases hw : tiWhile p mfi gfuel tif curr u2r wfuel s with
    | none =>
      rw [hw] at h
      exact absurd h (by simp)
    | some s3 =>
      rw [hw] at h
      replace h : improvingPhase p mfi gfuel tif wfuel rest s3 = some s2 := h
      obtain ⟨hwf, hu⟩ := hp (curr, u2r) (List.mem_cons_self _ rest)
      obtain ⟨h1, h2, h3, h4⟩ := tiWhile_pres p mfi gfuel tif hact hmfi curr u2r
        hwf hu wfuel s s3 hw hs hm ha hd
      exact ih s3 s2 h (fun pr2 hpr2 => hp pr2 (List.mem_cons_of_mem _ hpr2))
        h1 h2 h3 h4

theorem forall2_fst {R : Nat × Int → Nat × Int → Prop}
    (hR : ∀ a b, R a b → a.1 = b.1) :
    ∀ {l1 l2 : List (Nat × Int)}, List.Forall₂ R l1 l2 →
      l1.map Prod.fst = l2.map Prod.fst := by
  intro l1 l2 h
  induction h with
  | nil => rfl
  | cons hab _ ih =>
    simp only [List.map_cons, ih, hR _ _ hab]

theorem forall2_mem_left {α β : Type} {R : α → β → Prop} :
    ∀ {l1 : List α} {l2 : List β}, List.Forall₂ R l1 l2 →
      ∀ a ∈ l1, ∃ b ∈ l2, R a b := by
  intro l1 l2 h
  induction h with
  | nil => exact fun a ha => absurd ha (List.not_mem_nil a)
  | cons hab htail ih =>
    intro a ha
    rcases List.mem_cons.mp ha with ha | ha
    · exact ⟨_, List.mem_cons_self _ _, ha ▸ hab⟩
    · obtain ⟨b, hb, hr⟩ := ih a ha
      exact ⟨b, List.mem_cons_of_mem _ hb, hr⟩

theorem map_fst_pairs (p : Prob) :
    ∀ l : List Nat, (l.map fun j => (j, p.activities j)).map Prod.fst = l := by
  intro l
  induction l with
  | nil => rfl
  | cons j rest ih => simp only [List.map_cons, ih]

/-- The standard greedy, packaged: supply invariant and demand satisfaction
of any finite run. -/
theorem greedy_spec (p : Prob) (fuel : Nat) (order : List Nat)
    (usage0 : Idx3 → ℚ) (hact : ∀ m < p.M, 1 ≤ p.act m)
    (hlt : ∀ j ∈ order, j < p.C) (hnd : order.Nodup)
    (hav : ∀ b ∈ buckets p, 0 ≤ p.avail b)
    (s : GState) (h : greedy p fuel order usage0 = some s) :
    GInv p s ∧ ∀ j ∈ order, p.activities j ≤ doneJ p j s.sol := by
  obtain ⟨h1, h2, h3⟩ := greedyGo_spec p hact fuel order
    { sol := fun _ => 0, avail := p.avail, usage := usage0, obj := 0 } s h
    ⟨fun b _ => by rw [sumSolJ_zero]; ring, fun b hb => hav b hb⟩
    hlt hnd (fun x _ => rfl)
  exact ⟨h1, h2⟩

/-- The scarce-user greedy, packaged. -/
theorem greedy_few_users_spec (p : Prob) (maxAct fuel : Nat) (order : List Nat)
    (usage0 : Idx3 → ℚ) (hact : ∀ m < p.M, 1 ≤ p.act m)
    (hlt : ∀ j ∈ order, j < p.C) (hnd : order.Nodup)
    (hav : ∀ b ∈ buckets p, 0 ≤ p.avail b)
    (s : GState) (h : greedy_few_users p maxAct fuel order usage0 = some s) :
    GInv p s ∧ ∀ j ∈ order, p.activities j ≤ doneJ p j s.sol := by
  unfold greedy_few_users at h
  cases hp1 : fewPass p maxAct false fuel
      (order.map fun j => (j, p.activities j))
      ({ sol := fun _ => 0, avail := p.avail, usage := usage0, obj := 0 } : GState) with
  | none =>
    rw [hp1] at h
    exact absurd h (by simp)
  | some r1 =>
    obtain ⟨rd1, s1⟩ := r1
    rw [hp1] at h
    replace h : (match fewPass p maxAct true fuel rd1 s1 with
      | none => none
      | some (_, s2) => some s2) = some s := h
    cases hp2 : fewPass p maxAct true fuel rd1 s1 with
    | none =>
      rw [hp2] at h
      exact absurd h (by simp)
    | some r2 =>
      obtain ⟨rd2, s2⟩ := r2
      rw [hp2] at h
      replace h : some s2 = some s := h
      rw [← Option.some_inj.mp h]
      have hg0 : GInv p ({ sol := fun _ => 0, avail := p.avail, usage := usage0, obj := 0 } : GState) :=
        ⟨fun b _ => by rw [sumSolJ_zero]; ring, fun b hb => hav b hb⟩
      have hlt0 : ∀ e ∈ order.map fun j => (j, p.activities j), e.1 < p.C := by
        intro e he
        obtain ⟨j, hj, hje⟩ := List.mem_map.mp he
        rw [← hje]
        exact hlt j hj
      have hnd0 : ((order.map fun j => (j, p.activities j)).map Prod.fst).Nodup := by
        rw [map_fst_pairs]
        exact hnd
      obtain ⟨g1, loc1, f21, nn1, np1⟩ := fewPass_spec p maxAct hact false fuel
        _ _ rd1 s1 hp1 hg0 hlt0 hnd0
      have hfst1 : rd1.map Prod.fst = order := by
        rw [← forall2_fst (fun a b hr => hr.1) f21, map_fst_pairs]
      obtain ⟨g2, loc2, f22, nn2, np2⟩ := fewPass_spec p maxAct hact true fuel
        rd1 s1 rd2 s2 hp2 g1
        (fun e he => by
          rw [← hfst1] at hlt
          exact hlt e.1 (List.mem_map_of_mem Prod.fst he))
        (by rw [hfst1]; exact hnd)
      refine ⟨g2, ?_⟩
      intro j hj
      have hmem0 : (j, p.activities j) ∈ order.map fun j2 => (j2, p.activities j2) :=
        List.mem_map_of_mem _ hj
      obtain ⟨b1, hb1, hr1⟩ := forall2_mem_left f21 _ hmem0
      obtain ⟨c1, hc1, hr2⟩ := forall2_mem_left f22 _ hb1
      have hc2 := np2 rfl c1 hc1
      obtain ⟨hb1f, hb1d⟩ := hr1
      obtain ⟨hc1f, hc1d⟩ := hr2
      have hz : doneJ p j (({ sol := fun _ => 0, avail := p.avail, usage := usage0, obj := 0 } : GState)).sol = 0 := doneJ_zero p j
      simp only at hb1f hc1f
      rw [← hb1f] at hc1d
      rw [hb1d, hz] at hc1d
      simp only at hb1d hc1d
      omega

/-! ### The activity counters track the solution

Every move the improving phase applies satisfies
`activities_added = act_per_user[m] * user_added`, so the difference
`done_in_j[j] - Σ_{i,m,t} act_per_user[m]·solution[i,j,m,t]` never
changes. -/

def MvWf (p : Prob) (mv : IMove) : Prop :=
  mv.acts = p.act (mOf mv.f_idx) * mv.users ∧
  iOf mv.f_idx < p.C ∧ jOf mv.f_idx < p.C ∧
  mOf mv.f_idx < p.M ∧ tOf mv.f_idx < p.T

def DiffEq (p : Prob) (s2 s : AState) : Prop :=
  ∀ j2, s2.done j2 - doneJ p j2 s2.sol = s.done j2 - doneJ p j2 s.sol

theorem DiffEq_refl (p : Prob) (s : AState) : DiffEq p s s := fun _ => rfl

theorem DiffEq_trans {p : Prob} {s3 s2 s : AState} (h1 : DiffEq p s3 s2)
    (h2 : DiffEq p s2 s) : DiffEq p s3 s := fun j2 => (h1 j2).trans (h2 j2)

theorem DiffEq_coreEq {p : Prob} {s2 s : AState} (h : coreEq s2 s) :
    DiffEq p s2 s := by
  intro j2
  rw [h.1, h.2.2]

theorem negMove_wf {p : Prob} {mv : IMove} (h : MvWf p mv) :
    MvWf p (negMove mv) := by
  obtain ⟨h1, h2, h3, h4, h5⟩ := h
  exact ⟨by show -mv.acts = p.act (mOf mv.f_idx) * -mv.users; rw [h1]; ring,
    h2, h3, h4, h5⟩

theorem applyMove_diff (p : Prob) (mv : IMove) (s : AState) (h : MvWf p mv) :
    DiffEq p (applyMove mv s) s := by
  intro j2
  obtain ⟨h1, h2, h3, h4, h5⟩ := h
  show bump1 s.done (jOf mv.f_idx) mv.acts j2 -
    doneJ p j2 (bump4 s.sol mv.f_idx mv.users) = _
  rw [doneJ_bump4 p j2 s.sol mv.f_idx mv.users ⟨h2, h4, h5⟩]
  unfold bump1
  by_cases hj : jOf mv.f_idx = j2
  · rw [if_pos (by rw [hj]), if_pos hj, h1]
    ring
  · rw [if_neg (fun hc => hj hc.symm), if_neg hj]
    ring

theorem applyMoves_diff (p : Prob) :
    ∀ (l : List IMove) (s : AState), (∀ mv ∈ l, MvWf p mv) →
      DiffEq p (applyMoves l s) s := by
  intro l
  induction l with
  | nil => exact fun s _ => DiffEq_refl p s
  | cons mv rest ih =>
    intro s hw
    exact DiffEq_trans
      (ih (applyMove mv s) (fun mv2 h2 => hw mv2 (List.mem_cons_of_mem mv h2)))
      (applyMove_diff p mv s (hw mv (List.mem_cons_self mv rest)))

theorem undoAll_diff (p : Prob) :
    ∀ (l : List IMove) (s : AState), (∀ mv ∈ l, MvWf p mv) →
      DiffEq p (undoAll l s) s := by
  intro l
  induction l with
  | nil => exact fun s _ => DiffEq_refl p s
  | cons mv rest ih =>
    intro s hw
    exact DiffEq_trans
      (ih (applyMove (negMove mv) s)
        (fun mv2 h2 => hw mv2 (List.mem_cons_of_mem mv h2)))
      (applyMove_diff p (negMove mv) s (negMove_wf (hw mv (List.mem_cons_self mv rest))))

theorem getRemovableAux_mvwf (p : Prob) (j : Nat) (hjC : j < p.C) :
    ∀ (fuel : Nat) (s : AState) (red : Int) (l : List Idx4)
      (s2 : AState) (mvs : List IMove) (g : ℚ),
      getRemovableAux p fuel s red l = some (s2, mvs, g) →
      (∀ e ∈ l, jOf e = j ∧ iOf e < p.C ∧ mOf e < p.M ∧ tOf e < p.T) →
      ∀ mv ∈ mvs, MvWf p mv := by
  intro fuel
  induction fuel with
  | zero =>
    intro s red l s2 mvs g h
    exact absurd h (by simp [getRemovableAux])
  | succ f ih =>
    intro s red l s2 mvs g h hl
    by_cases hr : 0 < red
    · cases l with
      | nil =>
        rw [show getRemovableAux p (f + 1) s red [] =
            (if 0 < red then some (s, [], 0) else some (s, [], 0)) from rfl,
          if_pos hr] at h
        obtain ⟨h1, h23⟩ := Prod.mk.inj (Option.some_inj.mp h)
        obtain ⟨h2, h3⟩ := Prod.mk.inj h23
        rw [← h2]
        exact fun mv hm => absurd hm (List.not_mem_nil mv)
      | cons e rest =>
        rw [show getRemovableAux p (f + 1) s red (e :: rest) =
            (if 0 < red then
              if p.act (mOf e) ≤ red ∧ 0 < s.sol e then
                match getRemovableAux p f
                    (applyMove ⟨e, -1, -(p.act (mOf e)), p.costs e⟩ s)
                    (red - p.act (mOf e)) (e :: rest) with
                | none => none
                | some (s3, mvs2, g2) =>
                  some (s3, (⟨e, -1, -(p.act (mOf e)), p.costs e⟩ : IMove) :: mvs2,
                    (⟨e, -1, -(p.act (mOf e)), p.costs e⟩ : IMove).gain + g2)
              else getRemovableAux p f s red rest
            else some (s, [], 0)) from rfl, if_pos hr] at h
        obtain ⟨hje, hie, hme, hte⟩ := hl e (List.mem_cons_self e rest)
        by_cases hrem : p.act (mOf e) ≤ red ∧ 0 < s.sol e
        · rw [if_pos hrem] at h
          cases hrec : getRemovableAux p f
              (applyMove ⟨e, -1, -(p.act (mOf e)), p.costs e⟩ s)
              (red - p.act (mOf e)) (e :: rest) with
          | none =>
            rw [hrec] at h
            exact absurd h (by simp)
          | some r2 =>
            obtain ⟨s3, mvs2, g2⟩ := r2
            rw [hrec] at h
            obtain ⟨h1, h23⟩ := Prod.mk.inj (Option.some_inj.mp h)
            obtain ⟨h2, h3⟩ := Prod.mk.inj h23
            rw [← h2]
            intro mv hm
            rcases List.mem_cons.mp hm with hm | hm
            · rw [hm]
              exact ⟨by show -(p.act (mOf e)) = p.act (mOf e) * -1; ring,
                hie, by show jOf e < p.C; rw [hje]; exact hjC, hme, hte⟩
            · exact ih _ _ _ _ _ _ hrec hl mv hm
        · rw [if_neg hrem] at h
          exact ih _ _ _ _ _ _ h (fun e2 he2 => hl e2 (List.mem_cons_of_mem e he2))
    · have hstep : getRemovableAux p (f + 1) s red l = some (s, [], 0) := by
        cases l with
        | nil =>
          rw [show getRemovableAux p (f + 1) s red [] =
              (if 0 < red then some (s, [], 0) else some (s, [], 0)) from rfl,
            if_neg hr]
        | cons e rest =>
          rw [show getRemovableAux p (f + 1) s red (e :: rest) =
              (if 0 < red then
                if p.act (mOf e) ≤ red ∧ 0 < s.sol e then
                  match getRemovableAux p f
                      (applyMove ⟨e, -1, -(p.act (mOf e)), p.costs e⟩ s)
                      (red - p.act (mOf e)) (e :: rest) with
                  | none => none
                  | some (s3, mvs2, g2) =>
                    some (s3, (⟨e, -1, -(p.act (mOf e)), p.costs e⟩ : IMove) :: mvs2,
                      (⟨e, -1, -(p.act (mOf e)), p.costs e⟩ : IMove).gain + g2)
                else getRemovableAux p f s red rest
              else some (s, [], 0)) from rfl, if_neg hr]
      rw [hstep] at h
      obtain ⟨h1, h23⟩ := Prod.mk.inj (Option.some_inj.mp h)
      obtain ⟨h2, h3⟩ := Prod.mk.inj h23
      rw [← h2]
      exact fun mv hm => absurd hm (List.not_mem_nil mv)

theorem getRemovable_diff (p : Prob) (gfuel : Nat) (j : Nat) (hjC : j < p.C)
    (s s2 : AState) (mvs : List IMove) (g : ℚ)
    (h : getRemovable p gfuel j s = some (s2, mvs, g)) (hm : MInv p s) :
    DiffEq p s2 s := by
  unfold getRemovable at h
  by_cases hr : 0 < s.done j - p.activities j
  · rw [if_pos hr] at h
    have hperm : (sortDesc p (s.mtj j)).Perm (s.mtj j) := List.perm_insertionSort _ _
    have hl : ∀ e ∈ sortDesc p (s.mtj j),
        jOf e = j ∧ iOf e < p.C ∧ mOf e < p.M ∧ tOf e < p.T := fun e he =>
      hm j e (hperm.mem_iff.mp he)
    have hwf := getRemovableAux_mvwf p j hjC gfuel _ _ _ _ _ _ h hl
    have hst := getRemovableAux_state p gfuel _ _ _ _ _ _ h
    rw [hst]
    exact applyMoves_diff p mvs _ hwf
  · rw [if_neg hr] at h
    obtain ⟨h1, h23⟩ := Prod.mk.inj (Option.some_inj.mp h)
    rw [← h1]
    exact DiffEq_refl p s

theorem getRemovable_mvwf (p : Prob) (gfuel : Nat) (j : Nat) (hjC : j < p.C)
    (s s2 : AState) (mvs : List IMove) (g : ℚ)
    (h : getRemovable p gfuel j s = some (s2, mvs, g)) (hm : MInv p s) :
    ∀ mv ∈ mvs, MvWf p mv := by
  unfold getRemovable at h
  by_cases hr : 0 < s.done j - p.activities j
  · rw [if_pos hr] at h
    have hperm : (sortDesc p (s.mtj j)).Perm (s.mtj j) := List.perm_insertionSort _ _
    exact getRemovableAux_mvwf p j hjC gfuel _ _ _ _ _ _ h
      (fun e he => hm j e (hperm.mem_iff.mp he))
  · rw [if_neg hr] at h
    obtain ⟨h1, h23⟩ := Prod.mk.inj (Option.some_inj.mp h)
    obtain ⟨h2, h3⟩ := Prod.mk.inj h23
    rw [← h2]
    exact fun mv hm2 => absurd hm2 (List.not_mem_nil mv)

def RecDiff (p : Prob) (rec : Nat → Idx4 → Int → ℚ → List Idx4 → AState →
    Option (Bool × ℚ × AState × List IMove)) : Prop :=
  ∀ lvl curr u2r g0 tabu s b g2 s2 mvs,
    rec lvl curr u2r g0 tabu s = some (b, g2, s2, mvs) →
    WfIdx p curr → MInv p s → DiffEq p s2 s

theorem tiSiblings_diff (p : Prob)
    (rec : Nat → Idx4 → Int → ℚ → List Idx4 → AState →
      Option (Bool × ℚ × AState × List IMove))
    (hrecD : RecDiff p rec) (hrecPerm : RecPerm rec)
    (lvl1 newm newt : Nat) (u2r2 : Int) (g : ℚ) (tabu : List Idx4) :
    ∀ (l : List Idx4) (s : AState) (res : Option (AState × List IMove))
      (s3 : AState),
      tiSiblings rec lvl1 newm newt u2r2 g tabu l s = some (res, s3) →
      (∀ mv2 ∈ l, WfIdx p mv2) → MInv p s →
      DiffEq p s3 s := by
  intro l
  induction l with
  | nil =>
    intro s res s3 h _ _
    obtain ⟨h1, h2⟩ := Prod.mk.inj (Option.some_inj.mp
      (show some ((none : Option (AState × List IMove)), s) = some (res, s3) from h))
    rw [← h2]
    exact DiffEq_refl p s
  | cons mv2 rest ih =>
    intro s res s3 h hwf hm
    rw [show tiSiblings rec lvl1 newm newt u2r2 g tabu (mv2 :: rest) s =
        (if mOf mv2 = newm ∧ tOf mv2 = newt then
          match rec lvl1 mv2 u2r2 g tabu s with
          | none => none
          | some (true, _, s2, mvs) => some (some (s2, mvs), s2)
          | some (false, _, s2, _) =>
            tiSiblings rec lvl1 newm newt u2r2 g tabu rest s2
        else tiSiblings rec lvl1 newm newt u2r2 g tabu rest s) from rfl] at h
    by_cases hmt : mOf mv2 = newm ∧ tOf mv2 = newt
    · rw [if_pos hmt] at h
      cases hrc : rec lvl1 mv2 u2r2 g tabu s with
      | none =>
        rw [hrc] at h
        exact absurd h (by simp)
      | some r =>
        obtain ⟨b, g4, s4, mvs4⟩ := r
        rw [hrc] at h
        have hd4 : DiffEq p s4 s := hrecD _ _ _ _ _ _ _ _ _ _ hrc
          (hwf mv2 (List.mem_cons_self mv2 rest)) hm
        cases b with
        | true =>
          obtain ⟨h1, h2⟩ := Prod.mk.inj (Option.some_inj.mp
            (show some (some (s4, mvs4), s4) = some (res, s3) from h))
          rw [← h2]
          exact hd4
        | false =>
          refine DiffEq_trans (ih s4 res s3 h
            (fun e he => hwf e (List.mem_cons_of_mem mv2 he))
            (MInv_of_perm (hrecPerm _ _ _ _ _ _ _ _ _ _ hrc) hm)) hd4
    · rw [if_neg hmt] at h
      exact ih s res s3 h (fun e he => hwf e (List.mem_cons_of_mem mv2 he)) hm

theorem tiMvA_wf (p : Prob) (j : Nat) (ar : Int) (e : Idx4) (hjC : j < p.C)
    (hie : iOf e < p.C) (hme : mOf e < p.M) (hte : tOf e < p.T) :
    MvWf p (tiMvA p j ar e) := by
  obtain ⟨i, j2, m, t⟩ := e
  refine ⟨?_, hie, hjC, hme, hte⟩
  show cdiv ar (p.act m) * p.act m = p.act m * cdiv ar (p.act m)
  ring

theorem tiLoop_diff (p : Prob) (mfi : Nat → List Idx4)
    (rec : Nat → Idx4 → Int → ℚ → List Idx4 → AState →
      Option (Bool × ℚ × AState × List IMove))
    (gfuel lvl : Nat) (j : Nat) (ar : Int) (tabu : List Idx4)
    (hjC : j < p.C) (hmfi : MfiWF p mfi)
    (hrecD : RecDiff p rec) (hrecPerm : RecPerm rec) :
    ∀ (l : List Idx4) (s : AState) (g : ℚ) (moves : List IMove) (cnt : Nat)
      (b : Bool) (g2 : ℚ) (s2 : AState) (mvs : List IMove),
      tiLoop p mfi rec gfuel lvl j ar tabu l s g moves cnt =
        some (b, g2, s2, mvs) →
      (∀ e ∈ l, jOf e = j ∧ iOf e < p.C ∧ mOf e < p.M ∧ tOf e < p.T) →
      (∀ mv ∈ moves, MvWf p mv) →
      MInv p s →
      DiffEq p s2 s := by
  intro l
  induction l with
  | nil =>
    intro s g moves cnt b g2 s2 mvs h _ hmoves _
    rw [tiLoop_nil_eq] at h
    obtain ⟨h1, h234⟩ := Prod.mk.inj (Option.some_inj.mp h)
    obtain ⟨h2, h34⟩ := Prod.mk.inj h234
    obtain ⟨h3, h4⟩ := Prod.mk.inj h34
    rw [← h3]
    exact undoAll_diff p moves s hmoves
  | cons e rest ih =>
    intro s g moves cnt b g2 s2 mvs h hl hmoves hm
    rw [tiLoop_cons_eq] at h
    by_cases hskip : e ∈ tabu ∨ p.avail (bkt e) < cdiv ar (p.act (mOf e))
    · rw [if_pos hskip] at h
      exact ih s g moves cnt b g2 s2 mvs h
        (fun e2 he2 => hl e2 (List.mem_cons_of_mem e he2)) hmoves hm
    · rw [if_neg hskip] at h
      obtain ⟨hje, hie, hme, hte⟩ := hl e (List.mem_cons_self e rest)
      have hmva : MvWf p (tiMvA p j ar e) := tiMvA_wf p j ar e hjC hie hme hte
      have hm1 : MInv p (applyMove (tiMvA p j ar e) s) := hm
      have hd1 : DiffEq p (applyMove (tiMvA p j ar e) s) s :=
        applyMove_diff p _ s hmva
      cases hgr : getRemovable p gfuel j (applyMove (tiMvA p j ar e) s) with
      | none =>
        rw [hgr] at h
        exact absurd h (by simp)
      | some r2 =>
        obtain ⟨s4, rmoves, rg⟩ := r2
        rw [hgr] at h
        replace h : (if g + (tiMvA p j ar e).gain + rg < -4 ∨ 20 < cnt + 1 then
            some (false, g + (tiMvA p j ar e).gain + rg -
                sumGain (moves ++ tiMvA p j ar e :: rmoves),
              undoAll (moves ++ tiMvA p j ar e :: rmoves) s4, [])
          else
            if 0 ≤ s4.avail (bkt e) then
              if 0 < g + (tiMvA p j ar e).gain + rg then
                some (true, g + (tiMvA p j ar e).gain + rg, s4,
                  moves ++ tiMvA p j ar e :: rmoves)
              else
                tiLoop p mfi rec gfuel lvl j ar tabu rest
                  (undoAll (tiMvA p j ar e :: rmoves).reverse s4)
                  (g + (tiMvA p j ar e).gain + rg -
                    sumGain (tiMvA p j ar e :: rmoves)) moves (cnt + 1)
            else
              match tiSiblings rec (lvl + 1) (mOf e) (tOf e)
                  (-(s4.avail (bkt e))) (g + (tiMvA p j ar e).gain + rg) tabu
                  (mfi (iOf e)) s4 with
              | none => none
              | some (some (s3, nmvs), _) =>
                some (true, g + (tiMvA p j ar e).gain + rg, s3,
                  (moves ++ tiMvA p j ar e :: rmoves) ++ nmvs)
              | some (none, s3) =>
                tiLoop p mfi rec gfuel lvl j ar tabu rest
                  (undoAll (tiMvA p j ar e :: rmoves).reverse s3)
                  (g + (tiMvA p j ar e).gain + rg -
                    sumGain (tiMvA p j ar e :: rmoves)) moves (cnt + 1)) =
            some (b, g2, s2, mvs) := h
        have hrwf : ∀ mv ∈ rmoves, MvWf p mv :=
          getRemovable_mvwf p gfuel j hjC _ s4 rmoves rg hgr hm1
        have hd4 : DiffEq p s4 s :=
          DiffEq_trans (getRemovable_diff p gfuel j hjC _ s4 rmoves rg hgr hm1) hd1
        have hm4 : MInv p s4 :=
          MInv_of_perm (getRemovable_mtjPerm p gfuel j _ _ _ _ hgr) hm1
        have hsw : ∀ mv ∈ tiMvA p j ar e :: rmoves, MvWf p mv := by
          intro mv hmv
          rcases List.mem_cons.mp hmv with hmv | hmv
          · rw [hmv]
            exact hmva
          · exact hrwf mv hmv
        have hallw : ∀ mv ∈ moves ++ tiMvA p j ar e :: rmoves, MvWf p mv := by
          intro mv hmv
          rcases List.mem_append.mp hmv with hmv | hmv
          · exact hmoves mv hmv
          · exact hsw mv hmv
        have hrevw : ∀ mv ∈ (tiMvA p j ar e :: rmoves).reverse, MvWf p mv := by
          intro mv hmv
          exact hsw mv (List.mem_reverse.mp hmv)
        by_cases hbrk : g + (tiMvA p j ar e).gain + rg < -4 ∨ 20 < cnt + 1
        · rw [if_pos hbrk] at h
          obtain ⟨h1, h234⟩ := Prod.mk.inj (Option.some_inj.mp h)
          obtain ⟨h2, h34⟩ := Prod.mk.inj h234
          obtain ⟨h3, h4⟩ := Prod.mk.inj h34
          rw [← h3]
          exact DiffEq_trans (undoAll_diff p _ s4 hallw) hd4
        · rw [if_neg hbrk] at h
          by_cases hua : 0 ≤ s4.avail (bkt e)
          · rw [if_pos hua] at h
            by_cases hpos : 0 < g + (tiMvA p j ar e).gain + rg
            · rw [if_pos hpos] at h
              obtain ⟨h1, h234⟩ := Prod.mk.inj (Option.some_inj.mp h)
              obtain ⟨h2, h34⟩ := Prod.mk.inj h234
              obtain ⟨h3, h4⟩ := Prod.mk.inj h34
              rw [← h3]
              exact hd4
            · rw [if_neg hpos] at h
              refine DiffEq_trans (ih _ _ moves (cnt + 1) b g2 s2 mvs h
                (fun e2 he2 => hl e2 (List.mem_cons_of_mem e he2)) hmoves ?_) ?_
              · refine MInv_of_perm (fun j2 => ?_) hm4
                rw [undoAll_mtj]
              · exact DiffEq_trans (undoAll_diff p _ s4 hrevw) hd4
          · rw [if_neg hua] at h
            cases hsib : tiSiblings rec (lvl + 1) (mOf e) (tOf e)
                (-(s4.avail (bkt e))) (g + (tiMvA p j ar e).gain + rg) tabu
                (mfi (iOf e)) s4 with
            | none =>
              rw [hsib] at h
              exact absurd h (by simp)
            | some r3 =>
              obtain ⟨res, s5⟩ := r3
              rw [hsib] at h
              have hd5 : DiffEq p s5 s4 :=
                tiSiblings_diff p rec hrecD hrecPerm _ _ _ _ _ _ _ _ _ _ hsib
                  (fun e2 he2 => (hmfi (iOf e) hie e2 he2).1) hm4
              have hp5 : ∀ j2, (s5.mtj j2).Perm (s4.mtj j2) := fun j2 =>
                tiSiblings_perm rec hrecPerm _ _ _ _ _ _ _ _ _ _ hsib j2
              cases res with
              | some pr =>
                obtain ⟨s3, nmvs⟩ := pr
                obtain ⟨h1, h234⟩ := Prod.mk.inj (Option.some_inj.mp h)
                obtain ⟨h2, h34⟩ := Prod.mk.inj h234
                obtain ⟨h3, h4⟩ := Prod.mk.inj h34
                rw [← h3, tiSiblings_res_eq rec _ _ _ _ _ _ _ _ _ _ _ hsib]
                exact DiffEq_trans hd5 hd4
              | none =>
                refine DiffEq_trans (ih _ _ moves (cnt + 1) b g2 s2 mvs h
                  (fun e2 he2 => hl e2 (List.mem_cons_of_mem e he2)) hmoves ?_) ?_
                · refine MInv_of_perm (fun j2 => ?_) (MInv_of_perm hp5 hm4)
                  rw [undoAll_mtj]
                · exact DiffEq_trans (undoAll_diff p _ s5 hrevw)
                    (DiffEq_trans hd5 hd4)

theorem tiMv0_wf (p : Prob) (curr : Idx4) (u2r : Int) (hwf : WfIdx p curr) :
    MvWf p (tiMv0 p curr u2r) := by
  refine ⟨?_, hwf.1, hwf.2.1, hwf.2.2.1, hwf.2.2.2⟩
  show -(p.act (mOf curr) * u2r) = p.act (mOf curr) * -u2r
  ring

theorem tryImprove_diff (p : Prob) (mfi : Nat → List Idx4) (gfuel : Nat)
    (hmfi : MfiWF p mfi) :
    ∀ fuel : Nat, RecDiff p (tryImprove p mfi gfuel fuel) := by
  intro fuel
  induction fuel with
  | zero =>
    intro lvl curr u2r g0 tabu s b g2 s2 mvs h
    exact absurd h (by simp [tryImprove])
  | succ f ih =>
    intro lvl curr u2r g0 tabu s b g2 s2 mvs h hwf hm
    rw [tryImprove_succ_eq] at h
    by_cases hgd : s.sol curr < u2r ∨ 5 < lvl ∨ curr ∈ tabu
    · rw [if_pos hgd] at h
      obtain ⟨h1, h234⟩ := Prod.mk.inj (Option.some_inj.mp h)
      obtain ⟨h2, h34⟩ := Prod.mk.inj h234
      obtain ⟨h3, h4⟩ := Prod.mk.inj h34
      rw [← h3]
      exact DiffEq_refl p s
    · rw [if_neg hgd] at h
      refine DiffEq_trans (tiLoop_diff p mfi (tryImprove p mfi gfuel f) gfuel
        lvl (jOf curr) (p.act (mOf curr) * u2r) (tabu ++ [curr]) hwf.2.1 hmfi
        ih (tryImprove_perm p mfi gfuel f) _ _ _ _ _ _ _ _ _ h ?_ ?_ hm) ?_
      · intro e2 he2
        have hmem := (mem_cellCandidates p (jOf curr) e2).mp
          ((mem_costs_order p _ (jOf curr) e2).mp he2)
        exact ⟨hmem.1, hmem.2.1, hmem.2.2.2.1, hmem.2.2.2.2.1⟩
      · intro mv hmv
        rcases List.mem_cons.mp hmv with hmv | hmv
        · rw [hmv]
          exact tiMv0_wf p curr u2r hwf
        · exact absurd hmv (List.not_mem_nil mv)
      · exact applyMove_diff p _ s (tiMv0_wf p curr u2r hwf)

theorem tiWhile_diff (p : Prob) (mfi : Nat → List Idx4) (gfuel tif : Nat)
    (hmfi : MfiWF p mfi) (curr : Idx4) (u2r : Int) (hwf : WfIdx p curr) :
    ∀ (k : Nat) (s s2 : AState),
      tiWhile p mfi gfuel tif curr u2r k s = some s2 → MInv p s →
      DiffEq p s2 s := by
  intro k
  induction k with
  | zero =>
    intro s s2 h
    exact absurd h (by simp [tiWhile])
  | succ k2 ih =>
    intro s s2 h hm
    rw [show tiWhile p mfi gfuel tif curr u2r (k2 + 1) s =
        (match tryImprove p mfi gfuel tif 0 curr u2r 0 [] s with
        | none => none
        | some (false, _, s3, _) => some s3
        | some (true, _, s3, _) => tiWhile p mfi gfuel tif curr u2r k2 s3)
        from rfl] at h
    cases hti : tryImprove p mfi gfuel tif 0 curr u2r 0 [] s with
    | none =>
      rw [hti] at h
      exact absurd h (by simp)
    | some r =>
      obtain ⟨b, g3, s3, mvs3⟩ := r
      rw [hti] at h
      have hd3 : DiffEq p s3 s :=
        tryImprove_diff p mfi gfuel hmfi tif 0 curr u2r 0 [] s b g3 s3 mvs3 hti
          hwf hm
      cases b with
      | false =>
        replace h : some s3 = some s2 := h
        rw [← Option.some_inj.mp h]
        exact hd3
      | true =>
        replace h : tiWhile p mfi gfuel tif curr u2r k2 s3 = some s2 := h
        exact DiffEq_trans (ih s3 s2 h
          (MInv_of_perm (tryImprove_perm p mfi gfuel tif 0 curr u2r 0 [] s
            true g3 s3 mvs3 hti) hm)) hd3

theorem tiWhile_perm (p : Prob) (mfi : Nat → List Idx4) (gfuel tif : Nat)
    (curr : Idx4) (u2r : Int) :
    ∀ (k : Nat) (s s2 : AState),
      tiWhile p mfi gfuel tif curr u2r k s = some s2 →
      ∀ j2, (s2.mtj j2).Perm (s.mtj j2) := by
  intro k
  induction k with
  | zero =>
    intro s s2 h
    exact absurd h (by simp [tiWhile])
  | succ k2 ih =>
    intro s s2 h
    rw [show tiWhile p mfi gfuel tif curr u2r (k2 + 1) s =
        (match tryImprove p mfi gfuel tif 0 curr u2r 0 [] s with
        | none => none
        | some (false, _, s3, _) => some s3
        | some (true, _, s3, _) => tiWhile p mfi gfuel tif curr u2r k2 s3)
        from rfl] at h
    cases hti : tryImprove p mfi gfuel tif 0 curr u2r 0 [] s with
    | none =>
      rw [hti] at h
      exact absurd h (by simp)
    | some r =>
      obtain ⟨b, g3, s3, mvs3⟩ := r
      rw [hti] at h
      have hp3 := tryImprove_perm p mfi gfuel tif 0 curr u2r 0 [] s b g3 s3 mvs3 hti
      cases b with
      | false =>
        replace h : some s3 = some s2 := h
        rw [← Option.some_inj.mp h]
        exact hp3
      | true =>
        replace h : tiWhile p mfi gfuel tif curr u2r k2 s3 = some s2 := h
        exact fun j2 => (ih s3 s2 h j2).trans (hp3 j2)

theorem improvingPhase_diff (p : Prob) (mfi : Nat → List Idx4)
    (gfuel tif wfuel : Nat) (hmfi : MfiWF p mfi) :
    ∀ (pairs : List (Idx4 × Int)) (s s2 : AState),
      improvingPhase p mfi gfuel tif wfuel pairs s = some s2 →
      (∀ pr ∈ pairs, WfIdx p pr.1) → MInv p s →
      DiffEq p s2 s := by
  intro pairs
  induction pairs with
  | nil =>
    intro s s2 h _ _
    rw [← Option.some_inj.mp (show some s = some s2 from h)]
    exact DiffEq_refl p s
  | cons pr rest ih =>
    obtain ⟨curr, u2r⟩ := pr
    intro s s2 h hp hm
    rw [show improvingPhase p mfi gfuel tif wfuel ((curr, u2r) :: rest) s =
        (match tiWhile p mfi gfuel tif curr u2r wfuel s with
        | none => none
        | some s3 => improvingPhase p mfi gfuel tif wfuel rest s3) from rfl] at h
    cases hw : tiWhile p mfi gfuel tif curr u2r wfuel s with
    | none =>
      rw [hw] at h
      exact absurd h (by simp)
    | some s3 =>
      rw [hw] at h
      replace h : improvingPhase p mfi gfuel tif wfuel rest s3 = some s2 := h
      have hwf := hp (curr, u2r) (List.mem_cons_self _ rest)
      exact DiffEq_trans
        (ih s3 s2 h (fun pr2 hpr2 => hp pr2 (List.mem_cons_of_mem _ hpr2))
          (MInv_of_perm (tiWhile_perm p mfi gfuel tif curr u2r wfuel s s3 hw) hm))
        (tiWhile_diff p mfi gfuel tif hmfi curr u2r hwf wfuel s s3 hw hm)

/-- The improving phase run from `improving_setup` on a diagonal-free
solution with non-overdrawn supply and satisfied demands keeps the supply
ledger exact and non-negative and all demands met. -/
theorem improving_chain (p : Prob) (hact : ∀ m < p.M, 1 ≤ p.act m)
    (sol0 : Idx4 → Int) (hdiag : ∀ x : Idx4, iOf x = jOf x → sol0 x = 0)
    (hsup : ∀ b ∈ buckets p, sumSolJ p b sol0 ≤ p.avail b)
    (hdem : ∀ j < p.C, p.activities j ≤ doneJ p j sol0)
    (gfuel tif wfuel : Nat) (pairs : List (Idx4 × Int))
    (hpairs : ∀ pr ∈ pairs, WfIdx p pr.1 ∧ 0 ≤ pr.2) (aI : AState)
    (hI : improvingPhase p (movesFromI p sol0) gfuel tif wfuel pairs
      (improving_setup p sol0) = some aI) :
    SInv p aI ∧ AInv p aI ∧ (∀ j < p.C, p.activities j ≤ doneJ p j aI.sol) := by
  have hmfi := movesFromI_WF p sol0
  have hS0 : SInv p (improving_setup p sol0) := fun b =>
    improving_setup_avail p sol0 hdiag b
  have hM0 : MInv p (improving_setup p sol0) := improving_setup_MInv p sol0
  have hA0 : AInv p (improving_setup p sol0) := by
    intro b hb
    rw [improving_setup_avail p sol0 hdiag b]
    have := hsup b hb
    omega
  have hD0 : DInv p (improving_setup p sol0) := by
    intro j hj
    rw [improving_setup_done p sol0 hdiag j]
    exact hdem j hj
  obtain ⟨hS, hM, hA, hD⟩ := improvingPhase_pres p (movesFromI p sol0) gfuel
    tif wfuel hact hmfi pairs (improving_setup p sol0) aI hI hpairs hS0 hM0
    hA0 hD0
  have hdiff := improvingPhase_diff p (movesFromI p sol0) gfuel tif wfuel hmfi
    pairs (improving_setup p sol0) aI hI (fun pr hpr => (hpairs pr hpr).1) hM0
  refine ⟨hS, hA, ?_⟩
  intro j hj
  have h1 := hdiff j
  rw [improving_setup_done p sol0 hdiag j] at h1
  replace h1 : aI.done j - doneJ p j aI.sol = doneJ p j sol0 - doneJ p j sol0 := h1
  have h2 := hD j hj
  omega

/-- **C1.** Demand satisfaction: every solution-construction phase that
returns a finite objective meets every destination's demand.  (a) The
standard greedy: for every `j` of the visit order,
`Σ_{i,m,t} act_per_user[m]·solution[i,j,m,t] ≥ activities[j]`.  (b) The
scarce-user greedy: the same.  (c) The greedy followed by the improving
phase: the committed `try_improve` chains keep all demands met. -/
theorem claim_C1 (p : Prob) (hact : ∀ m < p.M, 1 ≤ p.act m)
    (hav : ∀ b ∈ buckets p, 0 ≤ p.avail b)
    (order : List Nat) (hlt : ∀ j ∈ order, j < p.C) (hnd : order.Nodup)
    (hcov : ∀ j < p.C, j ∈ order)
    (fuelG : Nat) (usage0 : Idx3 → ℚ) (sG : GState)
    (hG : greedy p fuelG order usage0 = some sG)
    (maxAct fuelF : Nat) (usage1 : Idx3 → ℚ) (sF : GState)
    (hF : greedy_few_users p maxAct fuelF order usage1 = some sF)
    (hdiag : ∀ x : Idx4, iOf x = jOf x → sG.sol x = 0)
    (gfuel tif wfuel : Nat) (pairs : List (Idx4 × Int))
    (hpairs : ∀ pr ∈ pairs, WfIdx p pr.1 ∧ 0 ≤ pr.2) (aI : AState)
    (hI : improvingPhase p (movesFromI p sG.sol) gfuel tif wfuel pairs
      (improving_setup p sG.sol) = some aI) :
    (∀ j ∈ order, p.activities j ≤ doneJ p j sG.sol) ∧
    (∀ j ∈ order, p.activities j ≤ doneJ p j sF.sol) ∧
    (∀ j < p.C, p.activities j ≤ doneJ p j aI.sol) := by
  obtain ⟨hgG, hdG⟩ := greedy_spec p fuelG order usage0 hact hlt hnd hav sG hG
  obtain ⟨hgF, hdF⟩ :=
    greedy_few_users_spec p maxAct fuelF order usage1 hact hlt hnd hav sF hF
  refine ⟨hdG, hdF, ?_⟩
  refine (improving_chain p hact sG.sol hdiag ?_ ?_ gfuel tif wfuel pairs
    hpairs aI hI).2.2
  · intro b hb
    have h1 := hgG.1 b hb
    have h2 := hgG.2 b hb
    omega
  · intro j hj
    exact hdG j (hcov j hj)

/-- **C2.** Supply invariant: for every solution returned with a finite
objective — by either greedy constructor, and preserved through every
committed `try_improve` chain of the improving phase — no supply bucket is
overdrawn: `Σ_j solution[i,j,m,t] ≤ users_available[i,m,t]`. -/
theorem claim_C2 (p : Prob) (hact : ∀ m < p.M, 1 ≤ p.act m)
    (hav : ∀ b ∈ buckets p, 0 ≤ p.avail b)
    (order : List Nat) (hlt : ∀ j ∈ order, j < p.C) (hnd : order.Nodup)
    (hcov : ∀ j < p.C, j ∈ order)
    (fuelG : Nat) (usage0 : Idx3 → ℚ) (sG : GState)
    (hG : greedy p fuelG order usage0 = some sG)
    (maxAct fuelF : Nat) (usage1 : Idx3 → ℚ) (sF : GState)
    (hF : greedy_few_users p maxAct fuelF order usage1 = some sF)
    (hdiag : ∀ x : Idx4, iOf x = jOf x → sG.sol x = 0)
    (gfuel tif wfuel : Nat) (pairs : List (Idx4 × Int))
    (hpairs : ∀ pr ∈ pairs, WfIdx p pr.1 ∧ 0 ≤ pr.2) (aI : AState)
    (hI : improvingPhase p (movesFromI p sG.sol) gfuel tif wfuel pairs
      (improving_setup p sG.sol) = some aI) :
    (∀ b ∈ buckets p, sumSolJ p b sG.sol ≤ p.avail b) ∧
    (∀ b ∈ buckets p, sumSolJ p b sF.sol ≤ p.avail b) ∧
    (∀ b ∈ buckets p, sumSolJ p b aI.sol ≤ p.avail b) := by
  obtain ⟨hgG, hdG⟩ := greedy_spec p fuelG order usage0 hact hlt hnd hav sG hG
  obtain ⟨hgF, hdF⟩ :=
    greedy_few_users_spec p maxAct fuelF order usage1 hact hlt hnd hav sF hF
  have hsupG : ∀ b ∈ buckets p, sumSolJ p b sG.sol ≤ p.avail b := by
    intro b hb
    have h1 := hgG.1 b hb
    have h2 := hgG.2 b hb
    omega
  obtain ⟨hS, hA, _⟩ := improving_chain p hact sG.sol hdiag hsupG
    (fun j hj => hdG j (hcov j hj)) gfuel tif wfuel pairs hpairs aI hI
  refine ⟨hsupG, ?_, ?_⟩
  · intro b hb
    have h1 := hgF.1 b hb
    have h2 := hgF.2 b hb
    omega
  · intro b hb
    have h1 := hS b
    have h2 := hA b hb
    omega

def sGW0 : GState :=
  { sol := fun _ => 0, avail := probC8.avail, usage := fun _ => 0, obj := 0 }

/-- The standard greedy's output on the witness problem. -/
def sGW : GState := commitState probC8 1 (probC8.activities 1) (0, 1, 0, 0) sGW0

/-- The scarce-user greedy's output on the witness problem. -/
def sFW : GState := commitFew probC8 1 (0, 1, 0, 0) sGW0

theorem sGW_diag : ∀ x : Idx4, iOf x = jOf x → sGW.sol x = 0 := by
  intro x hx
  have hsol : sGW.sol x = 0 + (if x = ((0, 1, 0, 0) : Idx4) then 1 else 0) := by
    with_unfolding_all rfl
  rw [hsol, if_neg (fun hc => by rw [hc] at hx; exact absurd hx (by decide))]
  rfl

theorem claim_C1_witness :
    probC8.activities 1 ≤ doneJ probC8 1 sGW.sol ∧
    probC8.activities 1 ≤ doneJ probC8 1 sFW.sol ∧
    probC8.activities 1 ≤ doneJ probC8 1 (improving_setup probC8 sGW.sol).sol := by
  have h := claim_C1 probC8 (by decide) (by decide) [0, 1] (by decide) (by decide)
    (by decide) 2 (fun _ => 0) sGW (by with_unfolding_all rfl)
    2 3 (fun _ => 0) sFW (by with_unfolding_all rfl)
    sGW_diag 1 1 1 [] (fun pr hpr => absurd hpr (List.not_mem_nil pr))
    (improving_setup probC8 sGW.sol) rfl
  exact ⟨h.1 1 (by decide), h.2.1 1 (by decide), h.2.2 1 (by decide)⟩

theorem claim_C2_witness :
    sumSolJ probC8 (0, 0, 0) sGW.sol ≤ probC8.avail (0, 0, 0) ∧
    sumSolJ probC8 (0, 0, 0) sFW.sol ≤ probC8.avail (0, 0, 0) ∧
    sumSolJ probC8 (0, 0, 0) (improving_setup probC8 sGW.sol).sol ≤
      probC8.avail (0, 0, 0) := by
  have h := claim_C2 probC8 (by decide) (by decide) [0, 1] (by decide) (by decide)
    (by decide) 2 (fun _ => 0) sGW (by with_unfolding_all rfl)
    2 3 (fun _ => 0) sFW (by with_unfolding_all rfl)
    sGW_diag 1 1 1 [] (fun pr hpr => absurd hpr (List.not_mem_nil pr))
    (improving_setup probC8 sGW.sol) rfl
  exact ⟨h.1 (0, 0, 0) (by decide), h.2.1 (0, 0, 0) (by decide),
    h.2.2 (0, 0, 0) (by decide)⟩

end CoIoTe
